import Mathlib

/-!
# A verification development for `project.c`

`project.c` is a small compiler: a pull lexer (`getNextToken`), a
recursive-descent parser (`parseFactor` .. `parseProgram`) building an
`ASTNode` tree, a symbol table (`findOrAddSymbol`) and a tree-walking code
generator (`generateExpression`, `generateCode`).

The embedding below follows the C source function by function.

* The input `FILE*` is the list of characters still to be read; `fgetc`
  takes the head, `ungetc` puts the character just read back.
* A pointer to an `ASTNode` is a value of the inductive type `ASTNode`, the
  null pointer being the constructor `ASTNode.NULL`. The parser never shares
  a node, so the tree of values is the heap reachable from the pointer.
* `exit(1)` after a diagnostic on `stderr` is the outcome `Outcome.exit1`
  carrying the diagnostic; behaviour that C leaves undefined (dereferencing a
  null child, overflow of the signed counter `nextAddress`) is
  `Outcome.undefined`.
* The recursive procedures of the parser take a fuel argument that bounds the
  depth of calls and the number of loop iterations; `Outcome.timeout` is
  the result when it runs out. `parseProgram` supplies fuel that is proved
  sufficient for every input.
* Each `fprintf(out, ...)` of the generator appends one `Instr` to the
  output; `Instr.line` is the text of the line that is written.
-/

namespace Project

/-! ## Outcomes -/

/-- Result of running a procedure of the program. -/
inductive Outcome (α : Type) where
  | ok (a : α)
  | exit1 (stderr : String)
  | undefined
  | timeout
deriving DecidableEq, Repr

/-- Sequencing: run `f` on the result of a call that returned, pass on any
other outcome. -/
def Outcome.bind {α β : Type} : Outcome α → (α → Outcome β) → Outcome β
  | .ok a, f => f a
  | .exit1 e, _ => .exit1 e
  | .undefined, _ => .undefined
  | .timeout, _ => .timeout

/-! ## Lexer -/

/-- The constant `MAX_TOKEN_LEN`. -/
def MAX_TOKEN_LEN : Nat := 100

inductive TokenType where
  | TOKEN_INT | TOKEN_IDENTIFIER | TOKEN_NUMBER | TOKEN_ASSIGN
  | TOKEN_PLUS | TOKEN_MINUS | TOKEN_IF | TOKEN_EQUAL
  | TOKEN_LBRACE | TOKEN_RBRACE | TOKEN_LPAREN | TOKEN_RPAREN
  | TOKEN_SEMICOLON | TOKEN_UNKNOWN | TOKEN_EOF
deriving DecidableEq, Repr

structure Token where
  type : TokenType
  text : String
deriving DecidableEq, Repr

/-- The C library predicate `isspace` in the "C" locale. -/
def isspace (c : Char) : Bool :=
  c == ' ' || c == '\t' || c == '\n' || c == '\x0b' || c == '\x0c' || c == '\r'

/-- The C library predicate `isalpha` in the "C" locale. -/
def isalpha (c : Char) : Bool := c.isAlpha

/-- The C library predicate `isdigit`. -/
def isdigit (c : Char) : Bool := c.isDigit

/-- The C library predicate `isalnum` in the "C" locale. -/
def isalnum (c : Char) : Bool := c.isAlphanum

/-- The inner loops of `getNextToken`,
`while (p(c = fgetc(file))) { if (len < MAX_TOKEN_LEN - 1) text[len++] = c; }`
followed by `ungetc(c, file)`: returns the text collected and the stream
positioned at the first character that fails `p`. -/
def scanWhile (p : Char → Bool) : List Char → List Char → List Char × List Char
  | text, [] => (text, [])
  | text, c :: file =>
    if p c then
      scanWhile p (if text.length < MAX_TOKEN_LEN - 1 then text ++ [c] else text) file
    else (text, c :: file)

/-- The procedure `getNextToken`: the token read and the stream after it. -/
def getNextToken : List Char → Token × List Char
  | [] => (⟨.TOKEN_EOF, ""⟩, [])
  | c :: file =>
    if isspace c then getNextToken file
    else if isalpha c then
      let r := scanWhile isalnum [c] file
      let text := String.mk r.1
      if text = "int" then (⟨.TOKEN_INT, text⟩, r.2)
      else if text = "if" then (⟨.TOKEN_IF, text⟩, r.2)
      else (⟨.TOKEN_IDENTIFIER, text⟩, r.2)
    else if isdigit c then
      let r := scanWhile isdigit [c] file
      (⟨.TOKEN_NUMBER, String.mk r.1⟩, r.2)
    else if c = '=' then
      if file.head? = some '=' then (⟨.TOKEN_EQUAL, "=="⟩, file.tail)
      else (⟨.TOKEN_ASSIGN, "="⟩, file)
    else if c = '+' then (⟨.TOKEN_PLUS, "+"⟩, file)
    else if c = '-' then (⟨.TOKEN_MINUS, "-"⟩, file)
    else if c = '{' then (⟨.TOKEN_LBRACE, "\x7b"⟩, file)
    else if c = '}' then (⟨.TOKEN_RBRACE, "\x7d"⟩, file)
    else if c = '(' then (⟨.TOKEN_LPAREN, "("⟩, file)
    else if c = ')' then (⟨.TOKEN_RPAREN, ")"⟩, file)
    else if c = ';' then (⟨.TOKEN_SEMICOLON, ";"⟩, file)
    else getNextToken file

/-! ## Abstract syntax tree -/

inductive NodeType where
  | NODE_VAR_DECL | NODE_ASSIGN | NODE_BIN_OP | NODE_NUM | NODE_VAR | NODE_IF
deriving DecidableEq, Repr

/-- The type `ASTNode *`: `NULL`, or a node with its `type`, the trees its
`left` and `right` pointers lead to, and its `value`. -/
inductive ASTNode where
  | NULL : ASTNode
  | node (type : NodeType) (left right : ASTNode) (value : String) : ASTNode
deriving DecidableEq, Repr

/-- The procedure `createNode`; with `value == NULL` the field is left
unwritten (it is never read for such nodes) and is modelled as empty. -/
def createNode (type : NodeType) (value : Option String) : ASTNode :=
  .node type .NULL .NULL (value.getD "")

/-- The assignment `node->left = child` (nothing happens to the tree when `node` is
null; the program never does this). -/
def ASTNode.setLeft : ASTNode → ASTNode → ASTNode
  | .NULL, _ => .NULL
  | .node t _ r v, child => .node t child r v

/-- The assignment `node->right = child`. -/
def ASTNode.setRight : ASTNode → ASTNode → ASTNode
  | .NULL, _ => .NULL
  | .node t l _ v, child => .node t l child v

/-! ## Symbol table -/

structure Symbol where
  name : String
  address : Nat
deriving DecidableEq, Repr

/-- The largest value of the C type `int`. -/
def INT_MAX : Nat := 2147483647

/-- The globals `symbolTable`, `symbolCount` and `nextAddress`. The array
`symbolTable[100]` is the list of its 100 entries. -/
structure GenState where
  symbolTable : List Symbol
  symbolCount : Nat
  nextAddress : Nat
deriving DecidableEq, Repr

/-- The state at program start: globals are zero-initialised. -/
def GenState.init : GenState :=
  ⟨List.replicate 100 ⟨"", 0⟩, 0, 0⟩

/-- The loop `for (i = 0; i < symbolCount; i++) if (strcmp(...) == 0) return address`
over the entries from the current one onwards, `n` being `symbolCount - i`. -/
def scanTable (name : String) : List Symbol → Nat → Option Nat
  | [], _ => none
  | _ :: _, 0 => none
  | s :: rest, n + 1 => if s.name = name then some s.address else scanTable name rest n

/-- The procedure `findOrAddSymbol`: the address returned and the globals after the call. -/
def findOrAddSymbol (name : String) (st : GenState) : Outcome (Nat × GenState) :=
  match scanTable name st.symbolTable st.symbolCount with
  | some a => .ok (a, st)
  | none =>
    if st.symbolCount ≥ 100 then .exit1 "Symbol table overflow\n"
    else if st.nextAddress ≥ INT_MAX then .undefined
    else
      .ok (st.nextAddress,
        ⟨st.symbolTable.set st.symbolCount ⟨name, st.nextAddress⟩,
         st.symbolCount + 1, st.nextAddress + 1⟩)

/-- The statement `int labelNum = nextAddress++;` of `generateCode`: the label number
and the globals after it. Incrementing the largest `int` is undefined. -/
def drawLabel (st : GenState) : Outcome (Nat × GenState) :=
  if st.nextAddress ≥ INT_MAX then .undefined
  else .ok (st.nextAddress, { st with nextAddress := st.nextAddress + 1 })

/-! ## Code generator -/

/-- One line of the output file. -/
inductive Instr where
  | LOADI (value : String)
  | LOAD (addr : Nat)
  | STORE (addr : Nat)
  | PUSH | POP | ADD | SUB
  | JUMPZ (label : Nat)
  | LABEL (label : Nat)
deriving DecidableEq, Repr

/-- The text written for an instruction, without the final newline. -/
def Instr.line : Instr → String
  | .LOADI v => "LOADI " ++ v
  | .LOAD a => "LOAD " ++ toString a
  | .STORE a => "STORE " ++ toString a
  | .PUSH => "PUSH"
  | .POP => "POP"
  | .ADD => "ADD"
  | .SUB => "SUB"
  | .JUMPZ k => "JUMPZ ELSE_" ++ toString k
  | .LABEL k => "ELSE_" ++ toString k ++ ":"

/-- The lines written after `POP` for a binary operation with operator text `op`. -/
def opLines (op : String) : List Instr :=
  if op = "+" then [.ADD] else if op = "-" then [.SUB] else []

/-- The procedure `generateExpression`: the globals after the call and the lines written. -/
def generateExpression : ASTNode → GenState → Outcome (GenState × List Instr)
  | .NULL, _ => .undefined
  | .node .NODE_NUM _ _ value, st => .ok (st, [.LOADI value])
  | .node .NODE_VAR _ _ value, st =>
    (findOrAddSymbol value st).bind fun r => .ok (r.2, [.LOAD r.1])
  | .node .NODE_BIN_OP left right value, st =>
    (generateExpression left st).bind fun r1 =>
    (generateExpression right r1.1).bind fun r2 =>
    .ok (r2.1, r1.2 ++ [.PUSH] ++ r2.2 ++ [.POP] ++ opLines value)
  | .node _ _ _ _, _ => .exit1 "Unexpected node type in expression\n"

/-- The procedure `generateCode`: the globals after the call and the lines written.
The last call in each branch is the `generateCode(node->right, out)` that ends the procedure. -/
def generateCode : ASTNode → GenState → Outcome (GenState × List Instr)
  | .NULL, st => .ok (st, [])
  | .node .NODE_VAR_DECL _ right value, st =>
    (findOrAddSymbol value st).bind fun r =>
    generateCode right r.2
  | .node .NODE_ASSIGN left right value, st =>
    (findOrAddSymbol value st).bind fun r =>
    (generateExpression left r.2).bind fun r1 =>
    (generateCode right r1.1).bind fun r2 =>
    .ok (r2.1, r1.2 ++ [.STORE r.1] ++ r2.2)
  | .node .NODE_IF left right _, st =>
    (drawLabel st).bind fun l =>
    (generateExpression left l.2).bind fun r1 =>
    (generateCode right r1.1).bind fun r2 =>
    (generateCode right r2.1).bind fun r3 =>
    .ok (r3.1, r1.2 ++ [.JUMPZ l.1] ++ r2.2 ++ [.LABEL l.1] ++ r3.2)
  | .node _ _ _ _, _ => .exit1 "Unexpected node type\n"

/-- The procedure `generateAssembly` once the output file is open: code generation
from the initial globals; the lines of the output file. -/
def generateAssembly (program : ASTNode) : Outcome (List Instr) :=
  (generateCode program GenState.init).bind fun r => .ok r.2

/-! ## Parser -/

/-- The two variables every parsing procedure works on: the input stream and
the current token (`Token *token`). -/
structure PState where
  file : List Char
  token : Token
deriving DecidableEq, Repr

/-- The call `getNextToken(file, token)`. -/
def PState.next (s : PState) : PState :=
  ⟨(getNextToken s.file).2, (getNextToken s.file).1⟩

mutual
/-- The procedure `parseFactor`. -/
def parseFactor : Nat → PState → Outcome (ASTNode × PState)
  | 0, _ => .timeout
  | fuel + 1, s =>
    if s.token.type = .TOKEN_NUMBER then
      .ok (createNode .NODE_NUM (some s.token.text), s.next)
    else if s.token.type = .TOKEN_IDENTIFIER then
      .ok (createNode .NODE_VAR (some s.token.text), s.next)
    else if s.token.type = .TOKEN_LPAREN then
      (parseExpression fuel s.next).bind fun r =>
      if r.2.token.type ≠ .TOKEN_RPAREN then .exit1 "Expected ')'\n"
      else .ok (r.1, r.2.next)
    else .exit1 ("Unexpected token: " ++ s.token.text ++ "\n")
/-- The `while` loop of `parseTerm`, entered with `node` and the current token. -/
def parseTermLoop : Nat → ASTNode → PState → Outcome (ASTNode × PState)
  | 0, _, _ => .timeout
  | fuel + 1, node, s =>
    if s.token.type = .TOKEN_PLUS ∨ s.token.type = .TOKEN_MINUS then
      let op := s.token.text
      (parseFactor fuel s.next).bind fun r =>
      parseTermLoop fuel (((createNode .NODE_BIN_OP (some op)).setLeft node).setRight r.1) r.2
    else .ok (node, s)
/-- The procedure `parseTerm`. -/
def parseTerm : Nat → PState → Outcome (ASTNode × PState)
  | 0, _ => .timeout
  | fuel + 1, s =>
    (parseFactor fuel s).bind fun r => parseTermLoop fuel r.1 r.2
/-- The procedure `parseExpression`. -/
def parseExpression : Nat → PState → Outcome (ASTNode × PState)
  | 0, _ => .timeout
  | fuel + 1, s => parseTerm fuel s
end

/-- The procedure `parseVarDecl`. -/
def parseVarDecl (s : PState) : Outcome (ASTNode × PState) :=
  if s.token.type ≠ .TOKEN_IDENTIFIER then .exit1 "Expected identifier after 'int'\n"
  else
    let node := createNode .NODE_VAR_DECL (some s.token.text)
    let s1 := s.next
    if s1.token.type ≠ .TOKEN_SEMICOLON then .exit1 "Expected ';' after variable declaration\n"
    else .ok (node, s1.next)

/-- The procedure `parseAssign`. -/
def parseAssign (fuel : Nat) (s : PState) : Outcome (ASTNode × PState) :=
  let varName := s.token.text
  let s1 := s.next
  if s1.token.type ≠ .TOKEN_ASSIGN then .exit1 "Expected '=' in assignment\n"
  else
    (parseExpression fuel s1.next).bind fun r =>
    if r.2.token.type ≠ .TOKEN_SEMICOLON then .exit1 "Expected ';' after assignment\n"
    else .ok ((createNode .NODE_ASSIGN (some varName)).setLeft r.1, r.2.next)

mutual
/-- The procedure `parseIf`. -/
def parseIf : Nat → PState → Outcome (ASTNode × PState)
  | 0, _ => .timeout
  | fuel + 1, s =>
    if s.token.type ≠ .TOKEN_LPAREN then .exit1 "Expected '(' after 'if'\n"
    else
      (parseExpression fuel s.next).bind fun c =>
      if c.2.token.type ≠ .TOKEN_RPAREN then .exit1 "Expected ')' after if condition\n"
      else
        let s1 := c.2.next
        if s1.token.type ≠ .TOKEN_LBRACE then .exit1 "Expected '\x7b' after if condition\n"
        else
          (parseStatement fuel s1.next).bind fun b =>
          if b.2.token.type ≠ .TOKEN_RBRACE then .exit1 "Expected '\x7d' after if body\n"
          else .ok (((createNode .NODE_IF none).setLeft c.1).setRight b.1, b.2.next)
/-- The procedure `parseStatement`. -/
def parseStatement : Nat → PState → Outcome (ASTNode × PState)
  | 0, _ => .timeout
  | fuel + 1, s =>
    if s.token.type = .TOKEN_INT then parseVarDecl s.next
    else if s.token.type = .TOKEN_IF then parseIf fuel s.next
    else if s.token.type = .TOKEN_IDENTIFIER then parseAssign fuel s
    else .exit1 ("Unexpected token: " ++ s.token.text ++ "\n")
end

/-- The assignment `lastStmt->right = stmt`, where `lastStmt` is the node reached
from `program` by following `right` pointers `last` times. -/
def setLastRight : Nat → ASTNode → ASTNode → ASTNode
  | 0, program, stmt => program.setRight stmt
  | _ + 1, .NULL, _ => .NULL
  | last + 1, .node t l r v, stmt => .node t l (setLastRight last r stmt) v

/-- The `while` loop of `parseProgram`. The pointer `lastStmt` is kept as the number
`last` of `right` links that lead from `program` to it. -/
def parseProgramLoop : Nat → ASTNode → Nat → PState → Outcome ASTNode
  | 0, _, _, _ => .timeout
  | fuel + 1, program, last, s =>
    if s.token.type ≠ .TOKEN_EOF then
      (parseStatement fuel s).bind fun r =>
      match program with
      | .NULL => parseProgramLoop fuel r.1 0 r.2
      | .node _ _ _ _ => parseProgramLoop fuel (setLastRight last program r.1) (last + 1) r.2
    else .ok program

/-- Fuel that suffices for parsing `file`, whatever it holds. -/
def parseFuel (file : List Char) : Nat := 3 * file.length + 5

/-- The procedure `parseProgram`. -/
def parseProgram (file : List Char) : Outcome ASTNode :=
  parseProgramLoop (parseFuel file) .NULL 0 (PState.next ⟨file, ⟨.TOKEN_EOF, ""⟩⟩)

/-- The procedure `main` once both files are open: the lines of the output file. -/
def compile (file : List Char) : Outcome (List Instr) :=
  (parseProgram file).bind generateAssembly

/-! ## The token sequence of an input and the grammar -/

/-- The tokens `getNextToken` returns on repeated calls, up to the first
end-of-input token (which is left out); `n` bounds the number of calls. -/
def lexAll : Nat → List Char → List Token
  | 0, _ => []
  | n + 1, file =>
    if (getNextToken file).1.type = .TOKEN_EOF then []
    else (getNextToken file).1 :: lexAll n (getNextToken file).2

/-- The token sequence of `file`: every token takes at least one character. -/
def tokens (file : List Char) : List Token := lexAll file.length file

/-- The kinds of the tokens the parser has not consumed yet: the current token and
those still in the stream. -/
def PState.pending (s : PState) : List TokenType :=
  if s.token.type = .TOKEN_EOF then [] else s.token.type :: (tokens s.file).map Token.type

/-- The nonterminals of the grammar; `termTail` is the repetition
`(("+" | "-") Factor)*` of the production for `Term`. -/
inductive NonTerminal where
  | program | statement | varDecl | assign | ifStmt | expression | term | termTail | factor
deriving DecidableEq, Repr

/-- Derivability of a sequence of token kinds from a nonterminal of the grammar. -/
inductive Derives : NonTerminal → List TokenType → Prop where
  | programNil : Derives .program []
  | programCons {s p : List TokenType} :
      Derives .statement s → Derives .program p → Derives .program (s ++ p)
  | statementVarDecl {s : List TokenType} : Derives .varDecl s → Derives .statement s
  | statementIf {s : List TokenType} : Derives .ifStmt s → Derives .statement s
  | statementAssign {s : List TokenType} : Derives .assign s → Derives .statement s
  | varDecl : Derives .varDecl [.TOKEN_INT, .TOKEN_IDENTIFIER, .TOKEN_SEMICOLON]
  | assign {e : List TokenType} :
      Derives .expression e →
      Derives .assign (.TOKEN_IDENTIFIER :: .TOKEN_ASSIGN :: e ++ [.TOKEN_SEMICOLON])
  | ifStmt {e b : List TokenType} :
      Derives .expression e → Derives .statement b →
      Derives .ifStmt (.TOKEN_IF :: .TOKEN_LPAREN :: e ++
        .TOKEN_RPAREN :: .TOKEN_LBRACE :: b ++ [.TOKEN_RBRACE])
  | expression {t : List TokenType} : Derives .term t → Derives .expression t
  | term {f r : List TokenType} :
      Derives .factor f → Derives .termTail r → Derives .term (f ++ r)
  | termTailNil : Derives .termTail []
  | termTailCons {op : TokenType} {f r : List TokenType} :
      op = .TOKEN_PLUS ∨ op = .TOKEN_MINUS →
      Derives .factor f → Derives .termTail r → Derives .termTail (op :: f ++ r)
  | factorNumber : Derives .factor [.TOKEN_NUMBER]
  | factorIdentifier : Derives .factor [.TOKEN_IDENTIFIER]
  | factorParen {e : List TokenType} :
      Derives .expression e → Derives .factor (.TOKEN_LPAREN :: e ++ [.TOKEN_RPAREN])

/-! ## Notions used in the statements about the symbol table -/

/-- The entries of the table that are in use: the first `symbolCount` ones. -/
def GenState.entries (st : GenState) : List Symbol := st.symbolTable.take st.symbolCount

/-- The address the table holds for `name`, if any: the result of the scan at the
start of `findOrAddSymbol`. -/
def GenState.lookup (st : GenState) (name : String) : Option Nat :=
  scanTable name st.symbolTable st.symbolCount

/-- The globals are as the C declarations make them: the array has 100 entries and
`symbolCount` does not exceed that. -/
def GenState.WF (st : GenState) : Prop :=
  st.symbolTable.length = 100 ∧ st.symbolCount ≤ 100

/-- The two operations on the globals during a compilation: a call
`findOrAddSymbol(name)` and the allocation of a label. -/
inductive GenStep where
  | resolve (name : String)
  | label
deriving DecidableEq, Repr

/-- The globals after one operation. -/
def GenStep.run : GenStep → GenState → Outcome GenState
  | .resolve name, st => (findOrAddSymbol name st).bind fun r => .ok r.2
  | .label, st => (drawLabel st).bind fun r => .ok r.2

/-- The globals after a sequence of operations, all of which succeed. -/
def runSteps : List GenStep → GenState → Outcome GenState
  | [], st => .ok st
  | x :: rest, st => (x.run st).bind fun st1 => runSteps rest st1

/-- The operations `generateExpression` performs on the globals, in order. -/
def exprSteps : ASTNode → List GenStep
  | .node .NODE_VAR _ _ value => [.resolve value]
  | .node .NODE_BIN_OP left right _ => exprSteps left ++ exprSteps right
  | _ => []

/-- The operations `generateCode` performs on the globals, in order. -/
def codeSteps : ASTNode → List GenStep
  | .node .NODE_VAR_DECL _ right value => .resolve value :: codeSteps right
  | .node .NODE_ASSIGN left right value => .resolve value :: exprSteps left ++ codeSteps right
  | .node .NODE_IF left right _ =>
    .label :: exprSteps left ++ codeSteps right ++ codeSteps right
  | _ => []

/-- The names a sequence of operations resolves that are not among `known`, each
once, in the order in which they are first resolved. -/
def firstResolved (known : List String) : List GenStep → List String
  | [] => []
  | .label :: rest => firstResolved known rest
  | .resolve name :: rest =>
    if name ∈ known then firstResolved known rest
    else name :: firstResolved (known ++ [name]) rest

/-- The number of label allocations in a sequence of operations that come before the
first resolution of `name`. -/
def labelsBefore (name : String) : List GenStep → Nat
  | [] => 0
  | .label :: rest => labelsBefore name rest + 1
  | .resolve other :: rest => if other = name then 0 else labelsBefore name rest

/-- The address operand of a LOAD or STORE line. -/
def Instr.operand? : Instr → Option Nat
  | .LOAD a => some a
  | .STORE a => some a
  | _ => none

/-- The address operands of the LOAD and STORE lines of an output, in order. -/
def operands (out : List Instr) : List Nat := out.filterMap Instr.operand?

/-- The names for which `generateExpression` writes a LOAD line, in the order of the lines. -/
def exprNames : ASTNode → List String
  | .node .NODE_VAR _ _ value => [value]
  | .node .NODE_BIN_OP left right _ => exprNames left ++ exprNames right
  | _ => []

/-- The names for which `generateCode` writes a LOAD or STORE line, in the order of the
lines. -/
def codeNames : ASTNode → List String
  | .node .NODE_VAR_DECL _ right _ => codeNames right
  | .node .NODE_ASSIGN left right value => exprNames left ++ [value] ++ codeNames right
  | .node .NODE_IF left right _ => exprNames left ++ codeNames right ++ codeNames right
  | _ => []

/-- The number of nodes on the chain that starts at a node and follows `right`
pointers until the null pointer. -/
def chainLength : ASTNode → Nat
  | .NULL => 0
  | .node _ _ right _ => chainLength right + 1

/-- The tree `parseProgram` builds for the declarations `int n1; int n2; ...` of the
given names: declaration nodes linked through `right`. -/
def declProgram : List String → ASTNode
  | [] => .NULL
  | name :: rest => .node .NODE_VAR_DECL .NULL (declProgram rest) name

/-- The names the lexer returns as identifier tokens: a letter followed by letters
and digits, at most 99 characters, and not a keyword. -/
def isIdentifier (n : String) : Bool :=
  match n.data with
  | [] => false
  | c :: cs =>
    isalpha c && cs.all isalnum && decide (n.data.length ≤ 99) && n != "int" && n != "if"

/-- The source text `int n1;int n2;...` that declares the given names. -/
def declSource : List String → List Char
  | [] => []
  | n :: rest => ['i', 'n', 't', ' '] ++ n.data ++ [';'] ++ declSource rest

/-- What the parser does on a sequence of token kinds derivable from a nonterminal:
started with that sequence pending, followed by `rest`, the procedure for the
nonterminal returns with `rest` pending. After an expression `rest` must not start
with an operator, which the loop of `parseTerm` would take as a continuation. -/
def Accepts : NonTerminal → List TokenType → Prop
  | .factor, ts => ∀ (s : PState) (rest : List TokenType), s.pending = ts ++ rest →
      ∃ fuel n s1, parseFactor fuel s = .ok (n, s1) ∧ s1.pending = rest
  | .termTail, ts => ∀ (node : ASTNode) (s : PState) (rest : List TokenType),
      s.pending = ts ++ rest →
      rest.head? ≠ some .TOKEN_PLUS → rest.head? ≠ some .TOKEN_MINUS →
      ∃ fuel n s1, parseTermLoop fuel node s = .ok (n, s1) ∧ s1.pending = rest
  | .term, ts => ∀ (s : PState) (rest : List TokenType), s.pending = ts ++ rest →
      rest.head? ≠ some .TOKEN_PLUS → rest.head? ≠ some .TOKEN_MINUS →
      ∃ fuel n s1, parseTerm fuel s = .ok (n, s1) ∧ s1.pending = rest
  | .expression, ts => ∀ (s : PState) (rest : List TokenType), s.pending = ts ++ rest →
      rest.head? ≠ some .TOKEN_PLUS → rest.head? ≠ some .TOKEN_MINUS →
      ∃ fuel n s1, parseExpression fuel s = .ok (n, s1) ∧ s1.pending = rest
  | .program, ts => ∀ (program : ASTNode) (last : Nat) (s : PState), s.pending = ts →
      ∃ fuel ast, parseProgramLoop fuel program last s = .ok ast
  | _, ts => ∀ (s : PState) (rest : List TokenType), s.pending = ts ++ rest →
      ∃ fuel n s1, parseStatement fuel s = .ok (n, s1) ∧ s1.pending = rest

/-- The procedure came to an end: it returned or it called `exit(1)`. -/
def Outcome.Halts {α : Type} (x : Outcome α) : Prop :=
  (∃ a, x = .ok a) ∨ (∃ e, x = .exit1 e)

/-! ## Notions used in the statements about the lexer -/

/-- The characters that are tokens by themselves or start one: `= + - { } ( ) ;`. -/
def isSymbol (c : Char) : Bool :=
  c = '=' || c = '+' || c = '-' || c = '{' || c = '}' || c = '(' || c = ')' || c = ';'

/-- The characters `getNextToken` steps over without producing a token: whitespace,
and every character that no rule of the lexer matches. -/
def isSkipped (c : Char) : Bool :=
  isspace c || (!isalpha c && !isdigit c && !isSymbol c)

/-- The characters some rule of the lexer recognises: whitespace, letters, digits and
the symbols. -/
def isRecognised (c : Char) : Bool :=
  isspace c || isalnum c || isSymbol c

/-- An unrecognised character replaced by a space. -/
def blankUnrecognised (c : Char) : Char :=
  if isRecognised c then c else ' '

/-! ## Notions used in the statements about expressions -/

/-- The expression trees: numeric literals, variable references, and binary operations
with operator text "+" or "-" on two expression trees. -/
def isExpression : ASTNode → Bool
  | .node .NODE_NUM _ _ _ => true
  | .node .NODE_VAR _ _ _ => true
  | .node .NODE_BIN_OP left right value =>
    (value = "+" || value = "-") && isExpression left && isExpression right
  | _ => false

/-- The number of literals and variable references of an expression tree. -/
def leafCount : ASTNode → Nat
  | .node .NODE_BIN_OP left right _ => leafCount left + leafCount right
  | .node .NODE_NUM _ _ _ => 1
  | .node .NODE_VAR _ _ _ => 1
  | _ => 0

/-- The number of binary-operation nodes of an expression tree. -/
def binOpCount : ASTNode → Nat
  | .node .NODE_BIN_OP left right _ => binOpCount left + binOpCount right + 1
  | _ => 0

/-! ## Notions used in the statements about labels -/

/-- The label number of a label-definition line `ELSE_k:`. -/
def Instr.labelDef? : Instr → Option Nat
  | .LABEL k => some k
  | _ => none

/-- The label numbers of the label-definition lines of an output, in order. -/
def labelDefs (out : List Instr) : List Nat := out.filterMap Instr.labelDef?

/-- Values drawn from the counter while it went from `lo` to `hi`, some as label numbers
and some as addresses: the label numbers are pairwise different, and no address is a
label number. -/
def FreshIn (lo hi : Nat) (labels addrs : List Nat) : Prop :=
  labels.Nodup ∧ (∀ k ∈ labels, lo ≤ k ∧ k < hi) ∧
    (∀ a ∈ addrs, lo ≤ a ∧ a < hi ∧ a ∉ labels)

/-! ## The trees the parser builds -/

/-- The tokens the parser has not consumed yet: the current token and those still in
the stream, without the end-of-input token. -/
def PState.pendingTokens (s : PState) : List Token :=
  if s.token.type = .TOKEN_EOF then [] else s.token :: tokens s.file

/-- The phrases of the grammar below a program; the repetition
`(("+" | "-") Factor)*` of a term comes with the tree of the operand to its left. -/
inductive Phrase where
  | statement | expression | term | termTail (acc : ASTNode) | factor

/-- The tree the grammar assigns to a token sequence: `Builds p ts n` says that `ts` is
a phrase `p` and that `n` is the tree the productions of `p` build for it. -/
inductive Builds : Phrase → List Token → ASTNode → Prop where
  | factorNumber (t : Token) : t.type = .TOKEN_NUMBER →
      Builds .factor [t] (.node .NODE_NUM .NULL .NULL t.text)
  | factorIdentifier (t : Token) : t.type = .TOKEN_IDENTIFIER →
      Builds .factor [t] (.node .NODE_VAR .NULL .NULL t.text)
  | factorParen (lp rp : Token) {e : List Token} {n : ASTNode} :
      lp.type = .TOKEN_LPAREN → rp.type = .TOKEN_RPAREN →
      Builds .expression e n → Builds .factor (lp :: e ++ [rp]) n
  | termTailNil (acc : ASTNode) : Builds (.termTail acc) [] acc
  | termTailCons (acc : ASTNode) (op : Token) {f r : List Token} {right n : ASTNode} :
      op.type = .TOKEN_PLUS ∨ op.type = .TOKEN_MINUS →
      Builds .factor f right →
      Builds (.termTail (.node .NODE_BIN_OP acc right op.text)) r n →
      Builds (.termTail acc) (op :: f ++ r) n
  | term {f r : List Token} {first n : ASTNode} :
      Builds .factor f first → Builds (.termTail first) r n → Builds .term (f ++ r) n
  | expression {t : List Token} {n : ASTNode} : Builds .term t n → Builds .expression t n
  | varDecl (kw id sc : Token) :
      kw.type = .TOKEN_INT → id.type = .TOKEN_IDENTIFIER → sc.type = .TOKEN_SEMICOLON →
      Builds .statement [kw, id, sc] (.node .NODE_VAR_DECL .NULL .NULL id.text)
  | assign (id eq sc : Token) {e : List Token} {n : ASTNode} :
      id.type = .TOKEN_IDENTIFIER → eq.type = .TOKEN_ASSIGN → sc.type = .TOKEN_SEMICOLON →
      Builds .expression e n →
      Builds .statement (id :: eq :: e ++ [sc]) (.node .NODE_ASSIGN n .NULL id.text)
  | ifStmt (kw lp rp lb rb : Token) {e b : List Token} {cond body : ASTNode} :
      kw.type = .TOKEN_IF → lp.type = .TOKEN_LPAREN → rp.type = .TOKEN_RPAREN →
      lb.type = .TOKEN_LBRACE → rb.type = .TOKEN_RBRACE →
      Builds .expression e cond → Builds .statement b body →
      Builds .statement (kw :: lp :: e ++ rp :: lb :: b ++ [rb]) (.node .NODE_IF cond body "")

/-- A token sequence that is a sequence of statements, with the tree of each. -/
inductive BuildsProgram : List Token → List ASTNode → Prop where
  | nil : BuildsProgram [] []
  | cons {s p : List Token} {n : ASTNode} {ns : List ASTNode} :
      Builds .statement s n → BuildsProgram p ns → BuildsProgram (s ++ p) (n :: ns)

/-- The tree `parseProgram` makes of the trees of the statements: each but the last gets
the next one as its `right` pointer (`lastStmt->right = stmt`). -/
def linkStatements : List ASTNode → ASTNode
  | [] => .NULL
  | [n] => n
  | n :: m :: rest => n.setRight (linkStatements (m :: rest))

/-- What the parser does on a phrase: started with its tokens pending, followed by
`rest`, the procedure for the phrase returns the tree of the phrase with `rest` pending.
After an expression `rest` must not start with an operator. -/
def Produces : Phrase → List Token → ASTNode → Prop
  | .factor, ts, n => ∀ (s : PState) (rest : List Token), s.pendingTokens = ts ++ rest →
      ∃ fuel s1, parseFactor fuel s = .ok (n, s1) ∧ s1.pendingTokens = rest
  | .termTail acc, ts, n => ∀ (s : PState) (rest : List Token),
      s.pendingTokens = ts ++ rest →
      (∀ t, rest.head? = some t → t.type ≠ .TOKEN_PLUS ∧ t.type ≠ .TOKEN_MINUS) →
      ∃ fuel s1, parseTermLoop fuel acc s = .ok (n, s1) ∧ s1.pendingTokens = rest
  | .term, ts, n => ∀ (s : PState) (rest : List Token), s.pendingTokens = ts ++ rest →
      (∀ t, rest.head? = some t → t.type ≠ .TOKEN_PLUS ∧ t.type ≠ .TOKEN_MINUS) →
      ∃ fuel s1, parseTerm fuel s = .ok (n, s1) ∧ s1.pendingTokens = rest
  | .expression, ts, n => ∀ (s : PState) (rest : List Token), s.pendingTokens = ts ++ rest →
      (∀ t, rest.head? = some t → t.type ≠ .TOKEN_PLUS ∧ t.type ≠ .TOKEN_MINUS) →
      ∃ fuel s1, parseExpression fuel s = .ok (n, s1) ∧ s1.pendingTokens = rest
  | .statement, ts, n => ∀ (s : PState) (rest : List Token), s.pendingTokens = ts ++ rest →
      ∃ fuel s1, parseStatement fuel s = .ok (n, s1) ∧ s1.pendingTokens = rest

/-- One repetition `op Factor` of a term: the operator token, the tokens of the factor
and the tree of the factor. -/
structure TermItem where
  op : Token
  tokens : List Token
  tree : ASTNode

/-- The tokens of the repetitions `op1 F1 op2 F2 ... opn Fn`. -/
def chainTokens : List TermItem → List Token
  | [] => []
  | it :: rest => it.op :: it.tokens ++ chainTokens rest

/-- The left-nested tree `BinOp(opn, BinOp(..., BinOp(op1, first, F1) ...), Fn)`, each
node with the text of its operator token. -/
def leftNested (first : ASTNode) : List TermItem → ASTNode
  | [] => first
  | it :: rest => leftNested (.node .NODE_BIN_OP first it.tree it.op.text) rest

/-! ## Notions used in the statements about programs -/

/-- The trees `generateCode` handles without reaching a defensive branch: chains of
declaration, assignment and `if` nodes linked through `right`, the `left` child of an
assignment or an `if` being an expression tree. -/
def isProgram : ASTNode → Bool
  | .NULL => true
  | .node .NODE_VAR_DECL _ right _ => isProgram right
  | .node .NODE_ASSIGN left right _ => isExpression left && isProgram right
  | .node .NODE_IF left right _ => isExpression left && isProgram right
  | _ => false

/-- The texts of the identifier tokens of a token sequence, in order. -/
def identifierTexts : List Token → List String
  | [] => []
  | t :: rest =>
    if t.type = .TOKEN_IDENTIFIER then t.text :: identifierTexts rest
    else identifierTexts rest

/-- The names of a list that are not among `known`, each once, in the order of their
first occurrence. -/
def distinctNames (known : List String) : List String → List String
  | [] => []
  | name :: rest =>
    if name ∈ known then distinctNames known rest
    else name :: distinctNames (known ++ [name]) rest

/-- The token sequence of the declarations `int n1; int n2; ...` of the given names. -/
def declTokens : List String → List Token
  | [] => []
  | name :: rest =>
    ⟨.TOKEN_INT, "int"⟩ :: ⟨.TOKEN_IDENTIFIER, name⟩ :: ⟨.TOKEN_SEMICOLON, ";"⟩ ::
      declTokens rest

/-- The tree of `x=0;` inside `d` nested `if(x){ ... }` statements. -/
def nestedIf : Nat → ASTNode
  | 0 => .node .NODE_ASSIGN (.node .NODE_NUM .NULL .NULL "0") .NULL "x"
  | d + 1 => .node .NODE_IF (.node .NODE_VAR .NULL .NULL "x") (nestedIf d) ""

/-- The source text of `x=0;` inside `d` nested `if(x){ ... }` statements. -/
def nestedSource : Nat → List Char
  | 0 => ['x', '=', '0', ';']
  | d + 1 => ['i', 'f', '(', 'x', ')', '{'] ++ nestedSource d ++ ['}']

/-- The token sequence of `nestedSource d`. -/
def nestedTokens : Nat → List Token
  | 0 => [⟨.TOKEN_IDENTIFIER, "x"⟩, ⟨.TOKEN_ASSIGN, "="⟩, ⟨.TOKEN_NUMBER, "0"⟩,
      ⟨.TOKEN_SEMICOLON, ";"⟩]
  | d + 1 => [⟨.TOKEN_IF, "if"⟩, ⟨.TOKEN_LPAREN, "("⟩, ⟨.TOKEN_IDENTIFIER, "x"⟩,
      ⟨.TOKEN_RPAREN, ")"⟩, ⟨.TOKEN_LBRACE, "\x7b"⟩] ++ nestedTokens d ++
      [⟨.TOKEN_RBRACE, "\x7d"⟩]

/-- The operator texts of the binary-operation nodes of a tree, over all its nodes. -/
def binOpTexts : ASTNode → List String
  | .NULL => []
  | .node t l r v => (if t = .NODE_BIN_OP then [v] else []) ++ binOpTexts l ++ binOpTexts r

/-- The names `v0`, `v1`, ..., `v(n-1)`. -/
def declNames : Nat → List String
  | 0 => []
  | n + 1 => declNames n ++ ["v" ++ toString n]

/-- The source text of the 98 declarations `int v0;` ... `int v97;` followed by
`if (x) { y = 1; } z = 2;`. -/
def droppedBodySource : List Char :=
  declSource (declNames 98) ++ "if (x) { y = 1; } z = 2;".toList

/-- The source text of the same 98 declarations followed by `x = 1; y = 1; z = 2;`. -/
def threeAssignSource : List Char :=
  declSource (declNames 98) ++ "x = 1; y = 1; z = 2;".toList

/-! ## Lemmas on outcomes -/

@[simp] theorem Outcome.bind_ok {α β : Type} (a : α) (f : α → Outcome β) :
    (Outcome.ok a).bind f = f a := rfl

@[simp] theorem Outcome.bind_exit1 {α β : Type} (e : String) (f : α → Outcome β) :
    (Outcome.exit1 e : Outcome α).bind f = .exit1 e := rfl

@[simp] theorem Outcome.bind_undefined {α β : Type} (f : α → Outcome β) :
    (Outcome.undefined : Outcome α).bind f = .undefined := rfl

@[simp] theorem Outcome.bind_timeout {α β : Type} (f : α → Outcome β) :
    (Outcome.timeout : Outcome α).bind f = .timeout := rfl

theorem Outcome.bind_eq_ok {α β : Type} {x : Outcome α} {f : α → Outcome β} {b : β} :
    x.bind f = .ok b ↔ ∃ a, x = .ok a ∧ f a = .ok b := by
  cases x <;> simp [Outcome.bind]

theorem Outcome.bind_eq_timeout {α β : Type} {x : Outcome α} {f : α → Outcome β} :
    x.bind f = .timeout ↔ x = .timeout ∨ ∃ a, x = .ok a ∧ f a = .timeout := by
  cases x <;> simp [Outcome.bind]

@[simp] theorem Outcome.halts_ok {α : Type} (a : α) : (Outcome.ok a).Halts :=
  Or.inl ⟨a, rfl⟩

@[simp] theorem Outcome.halts_exit1 {α : Type} (e : String) :
    (Outcome.exit1 e : Outcome α).Halts :=
  Or.inr ⟨e, rfl⟩

@[simp] theorem Outcome.not_halts_timeout {α : Type} : ¬ (Outcome.timeout : Outcome α).Halts := by
  simp [Outcome.Halts]

@[simp] theorem Outcome.not_halts_undefined {α : Type} :
    ¬ (Outcome.undefined : Outcome α).Halts := by
  simp [Outcome.Halts]

theorem Outcome.bind_halts_iff {α β : Type} {x : Outcome α} {f : α → Outcome β} :
    (x.bind f).Halts ↔ x.Halts ∧ ∀ a, x = .ok a → (f a).Halts := by
  cases x <;> simp

theorem Outcome.bind_halts {α β : Type} {x : Outcome α} {f : α → Outcome β}
    (hx : x.Halts) (hf : ∀ a, x = .ok a → (f a).Halts) : (x.bind f).Halts :=
  Outcome.bind_halts_iff.mpr ⟨hx, hf⟩

theorem Outcome.bind_congr_halts {α β : Type} {x y : Outcome α} {f g : α → Outcome β}
    (hx : x.Halts → y = x) (hf : ∀ a, x = .ok a → (f a).Halts → g a = f a)
    (h : (x.bind f).Halts) : y.bind g = x.bind f := by
  obtain ⟨h1, h2⟩ := Outcome.bind_halts_iff.mp h
  rw [hx h1]
  cases x with
  | ok a => exact hf a rfl (h2 a rfl)
  | exit1 e => rfl
  | undefined => rfl
  | timeout => rfl

/-! ## Lemmas on the lexer -/

theorem scanWhile_length (p : Char → Bool) (file text : List Char) :
    (scanWhile p text file).2.length ≤ file.length := by
  induction file generalizing text with
  | nil => simp [scanWhile]
  | cons c file ih =>
    unfold scanWhile
    split
    · exact Nat.le_succ_of_le (ih _)
    · exact Nat.le_refl _

/-- One step of `getNextToken` on a nonempty stream: the character is skipped, or a
token other than end-of-input is returned and the stream has lost that character
at least. -/
theorem getNextToken_cons (c : Char) (file : List Char) (r : Token × List Char)
    (hr : getNextToken (c :: file) = r) :
    r = getNextToken file ∨ (r.1.type ≠ .TOKEN_EOF ∧ r.2.length ≤ file.length) := by
  have h1 := scanWhile_length isalnum file [c]
  have h2 := scanWhile_length isdigit file [c]
  rw [getNextToken] at hr
  by_cases c1 : isspace c = true
  · rw [if_pos c1] at hr; exact Or.inl hr.symm
  rw [if_neg c1] at hr
  by_cases c2 : isalpha c = true
  · rw [if_pos c2] at hr
    right
    subst hr
    dsimp only
    split_ifs <;> exact ⟨by simp, h1⟩
  rw [if_neg c2] at hr
  by_cases c3 : isdigit c = true
  · rw [if_pos c3] at hr
    right
    subst hr
    exact ⟨by simp, h2⟩
  rw [if_neg c3] at hr
  subst hr
  split_ifs
  all_goals first
    | (left; rfl)
    | (right; exact ⟨by simp, Nat.le_refl _⟩)
    | (right; exact ⟨by simp, by simp⟩)

theorem getNextToken_length_le (file : List Char) :
    (getNextToken file).2.length ≤ file.length := by
  induction file with
  | nil => simp [getNextToken]
  | cons c file ih =>
    rcases getNextToken_cons c file _ rfl with h | h
    · rw [h]; exact Nat.le_succ_of_le ih
    · exact Nat.le_succ_of_le h.2

theorem getNextToken_length_lt (file : List Char)
    (h : (getNextToken file).1.type ≠ .TOKEN_EOF) :
    (getNextToken file).2.length < file.length := by
  induction file with
  | nil => simp [getNextToken] at h
  | cons c file ih =>
    rcases getNextToken_cons c file _ rfl with h1 | h1
    · rw [h1] at h ⊢; exact Nat.lt_succ_of_lt (ih h)
    · exact Nat.lt_succ_of_le h1.2

theorem lexAll_stable (n m : Nat) (file : List Char)
    (hn : file.length ≤ n) (hm : file.length ≤ m) : lexAll n file = lexAll m file := by
  induction n generalizing m file with
  | zero =>
    have hf : file = [] := List.length_eq_zero.mp (Nat.le_zero.mp hn)
    subst hf
    cases m <;> simp [lexAll, getNextToken]
  | succ n ih =>
    cases m with
    | zero =>
      have hf : file = [] := List.length_eq_zero.mp (Nat.le_zero.mp hm)
      subst hf
      simp [lexAll, getNextToken]
    | succ m =>
      simp only [lexAll]
      split_ifs with h
      · rfl
      · have hlt := getNextToken_length_lt file h
        rw [ih m _ (by omega) (by omega)]

/-- The token sequence of a stream, one call of `getNextToken` at a time. -/
theorem tokens_unfold (file : List Char) :
    tokens file =
      if (getNextToken file).1.type = .TOKEN_EOF then []
      else (getNextToken file).1 :: tokens (getNextToken file).2 := by
  unfold tokens
  cases file with
  | nil => simp [lexAll, getNextToken]
  | cons c file =>
    simp only [List.length_cons, lexAll]
    split_ifs with h
    · rfl
    · have hlt := getNextToken_length_lt (c :: file) h
      simp only [List.length_cons] at hlt
      rw [lexAll_stable _ (getNextToken (c :: file)).2.length _ (by omega) (Nat.le_refl _)]

theorem tokens_length_le_aux (n : Nat) : ∀ file : List Char, file.length ≤ n →
    (tokens file).length ≤ file.length := by
  induction n with
  | zero =>
    intro file h
    have hf : file = [] := List.length_eq_zero.mp (Nat.le_zero.mp h)
    subst hf
    simp [tokens, lexAll]
  | succ n ih =>
    intro file h
    rw [tokens_unfold]
    split_ifs with h1
    · simp
    · have hlt := getNextToken_length_lt file h1
      have := ih (getNextToken file).2 (by omega)
      simp only [List.length_cons]
      omega

theorem tokens_length_le (file : List Char) : (tokens file).length ≤ file.length :=
  tokens_length_le_aux file.length file (Nat.le_refl _)

/-- Calling `getNextToken` when the current token is not end-of-input consumes
exactly that token. -/
theorem PState.pending_next (s : PState) (h : s.token.type ≠ .TOKEN_EOF) :
    s.pending = s.token.type :: s.next.pending := by
  unfold PState.pending PState.next
  rw [if_neg h, tokens_unfold]
  dsimp only
  split_ifs <;> simp

theorem PState.pending_of_eof (s : PState) (h : s.token.type = .TOKEN_EOF) :
    s.pending = [] := by
  unfold PState.pending
  rw [if_pos h]

theorem PState.pending_head (s : PState) (t : TokenType) (r : List TokenType)
    (h : s.pending = t :: r) : s.token.type = t ∧ t ≠ .TOKEN_EOF ∧ s.next.pending = r := by
  by_cases he : s.token.type = .TOKEN_EOF
  · rw [s.pending_of_eof he] at h; cases h
  · rw [s.pending_next he] at h
    injection h with h1 h2
    exact ⟨h1, h1 ▸ he, h2⟩

/-! ## Soundness of the parser: what it accepts is derivable -/

theorem parseExpression_sound : ∀ fuel : Nat,
    (∀ s n s1, parseFactor fuel s = .ok (n, s1) →
      ∃ ts, Derives .factor ts ∧ s.pending = ts ++ s1.pending) ∧
    (∀ node s n s1, parseTermLoop fuel node s = .ok (n, s1) →
      ∃ ts, Derives .termTail ts ∧ s.pending = ts ++ s1.pending) ∧
    (∀ s n s1, parseTerm fuel s = .ok (n, s1) →
      ∃ ts, Derives .term ts ∧ s.pending = ts ++ s1.pending) ∧
    (∀ s n s1, parseExpression fuel s = .ok (n, s1) →
      ∃ ts, Derives .expression ts ∧ s.pending = ts ++ s1.pending) := by
  intro fuel
  induction fuel with
  | zero => simp [parseFactor, parseTermLoop, parseTerm, parseExpression]
  | succ fuel ih =>
    obtain ⟨ihF, ihL, ihT, ihE⟩ := ih
    refine ⟨?_, ?_, ?_, ?_⟩
    · intro s n s1 h
      rw [parseFactor] at h
      split_ifs at h with h1 h2 h3
      · injection h with h; injection h with _ h; subst h
        exact ⟨_, .factorNumber, by rw [s.pending_next (by rw [h1]; decide), h1]; rfl⟩
      · injection h with h; injection h with _ h; subst h
        exact ⟨_, .factorIdentifier, by rw [s.pending_next (by rw [h2]; decide), h2]; rfl⟩
      · obtain ⟨r, hr, h⟩ := Outcome.bind_eq_ok.mp h
        split_ifs at h with h4
        injection h with h; injection h with _ h; subst h
        obtain ⟨te, hte, hp⟩ := ihE _ _ _ hr
        have h4 : r.2.token.type = .TOKEN_RPAREN := by simpa using h4
        refine ⟨_, .factorParen hte, ?_⟩
        rw [s.pending_next (by rw [h3]; decide), h3, hp,
          r.2.pending_next (by rw [h4]; decide), h4]
        simp
    · intro node s n s1 h
      rw [parseTermLoop] at h
      split_ifs at h with h1
      · obtain ⟨r, hr, h⟩ := Outcome.bind_eq_ok.mp h
        obtain ⟨tf, htf, hpf⟩ := ihF _ _ _ hr
        obtain ⟨tl, htl, hpl⟩ := ihL _ _ _ _ h
        refine ⟨_, .termTailCons h1 htf htl, ?_⟩
        rw [s.pending_next (by rcases h1 with h1 | h1 <;> rw [h1] <;> decide), hpf, hpl]
        simp
      · injection h with h; injection h with _ h; subst h
        exact ⟨[], .termTailNil, rfl⟩
    · intro s n s1 h
      rw [parseTerm] at h
      obtain ⟨r, hr, h⟩ := Outcome.bind_eq_ok.mp h
      obtain ⟨tf, htf, hpf⟩ := ihF _ _ _ hr
      obtain ⟨tl, htl, hpl⟩ := ihL _ _ _ _ h
      exact ⟨_, .term htf htl, by rw [hpf, hpl]; simp⟩
    · intro s n s1 h
      rw [parseExpression] at h
      obtain ⟨tt, htt, hp⟩ := ihT _ _ _ h
      exact ⟨_, .expression htt, hp⟩

theorem parseVarDecl_sound (s : PState) (n : ASTNode) (s1 : PState)
    (h : parseVarDecl s = .ok (n, s1)) :
    s.pending = .TOKEN_IDENTIFIER :: .TOKEN_SEMICOLON :: s1.pending := by
  unfold parseVarDecl at h
  dsimp only at h
  split_ifs at h with h1 h2
  injection h with h; injection h with _ h; subst h
  have h1 : s.token.type = .TOKEN_IDENTIFIER := by simpa using h1
  have h2 : s.next.token.type = .TOKEN_SEMICOLON := by simpa using h2
  rw [s.pending_next (by rw [h1]; decide), h1, s.next.pending_next (by rw [h2]; decide), h2]

theorem parseAssign_sound (fuel : Nat) (s : PState) (n : ASTNode) (s1 : PState)
    (hs : s.token.type = .TOKEN_IDENTIFIER) (h : parseAssign fuel s = .ok (n, s1)) :
    ∃ e, Derives .expression e ∧
      s.pending = .TOKEN_IDENTIFIER :: .TOKEN_ASSIGN :: e ++ .TOKEN_SEMICOLON :: s1.pending := by
  unfold parseAssign at h
  dsimp only at h
  split_ifs at h with h1
  have h1 : s.next.token.type = .TOKEN_ASSIGN := by simpa using h1
  obtain ⟨r, hr, h⟩ := Outcome.bind_eq_ok.mp h
  split_ifs at h with h2
  have h2 : r.2.token.type = .TOKEN_SEMICOLON := by simpa using h2
  injection h with h; injection h with _ h; subst h
  obtain ⟨e, he, hp⟩ := (parseExpression_sound fuel).2.2.2 _ _ _ hr
  refine ⟨e, he, ?_⟩
  rw [s.pending_next (by rw [hs]; decide), hs, s.next.pending_next (by rw [h1]; decide), h1, hp,
    r.2.pending_next (by rw [h2]; decide), h2]
  simp

theorem parseStatement_sound : ∀ fuel : Nat,
    (∀ s n s1, parseIf fuel s = .ok (n, s1) →
      ∃ e b, Derives .expression e ∧ Derives .statement b ∧
        s.pending = .TOKEN_LPAREN :: e ++
          .TOKEN_RPAREN :: .TOKEN_LBRACE :: b ++ .TOKEN_RBRACE :: s1.pending) ∧
    (∀ s n s1, parseStatement fuel s = .ok (n, s1) →
      ∃ ts, Derives .statement ts ∧ s.pending = ts ++ s1.pending) := by
  intro fuel
  induction fuel with
  | zero => simp [parseIf, parseStatement]
  | succ fuel ih =>
    obtain ⟨ihI, ihS⟩ := ih
    refine ⟨?_, ?_⟩
    · intro s n s1 h
      rw [parseIf] at h
      split_ifs at h with h1
      have h1 : s.token.type = .TOKEN_LPAREN := by simpa using h1
      obtain ⟨c, hc, h⟩ := Outcome.bind_eq_ok.mp h
      dsimp only at h
      split_ifs at h with h2 h3
      have h2 : c.2.token.type = .TOKEN_RPAREN := by simpa using h2
      have h3 : c.2.next.token.type = .TOKEN_LBRACE := by simpa using h3
      obtain ⟨b, hb, h⟩ := Outcome.bind_eq_ok.mp h
      split_ifs at h with h4
      have h4 : b.2.token.type = .TOKEN_RBRACE := by simpa using h4
      injection h with h; injection h with _ h; subst h
      obtain ⟨e, he, hpe⟩ := (parseExpression_sound fuel).2.2.2 _ _ _ hc
      obtain ⟨tb, htb, hpb⟩ := ihS _ _ _ hb
      refine ⟨e, tb, he, htb, ?_⟩
      rw [s.pending_next (by rw [h1]; decide), h1, hpe,
        c.2.pending_next (by rw [h2]; decide), h2,
        c.2.next.pending_next (by rw [h3]; decide), h3, hpb,
        b.2.pending_next (by rw [h4]; decide), h4]
      simp
    · intro s n s1 h
      rw [parseStatement] at h
      split_ifs at h with h1 h2 h3
      · have hp := parseVarDecl_sound _ _ _ h
        refine ⟨_, .statementVarDecl .varDecl, ?_⟩
        rw [s.pending_next (by rw [h1]; decide), h1, hp]
        rfl
      · obtain ⟨e, b, he, hb, hp⟩ := ihI _ _ _ h
        refine ⟨_, .statementIf (.ifStmt he hb), ?_⟩
        rw [s.pending_next (by rw [h2]; decide), h2, hp]
        simp
      · obtain ⟨e, he, hp⟩ := parseAssign_sound _ _ _ _ h3 h
        refine ⟨_, .statementAssign (.assign he), ?_⟩
        rw [hp]
        simp

theorem parseProgramLoop_sound : ∀ (fuel : Nat) (program : ASTNode) (last : Nat) (s : PState)
    (ast : ASTNode), parseProgramLoop fuel program last s = .ok ast →
    Derives .program s.pending := by
  intro fuel
  induction fuel with
  | zero => simp [parseProgramLoop]
  | succ fuel ih =>
    intro program last s ast h
    rw [parseProgramLoop] at h
    split_ifs at h with h1
    · obtain ⟨r, hr, h⟩ := Outcome.bind_eq_ok.mp h
      obtain ⟨ts, hts, hp⟩ := (parseStatement_sound fuel).2 _ _ _ hr
      rw [hp]
      cases program with
      | NULL => exact .programCons hts (ih _ _ _ _ h)
      | node t l r v => exact .programCons hts (ih _ _ _ _ h)
    · have h1 : s.token.type = .TOKEN_EOF := by simpa using h1
      rw [s.pending_of_eof h1]
      exact .programNil

/-- The state in which `parseProgram` enters its loop has the whole token sequence of
the input pending. -/
theorem pending_initial (file : List Char) :
    (PState.next ⟨file, ⟨.TOKEN_EOF, ""⟩⟩).pending = (tokens file).map Token.type := by
  unfold PState.pending PState.next
  rw [tokens_unfold file]
  dsimp only
  split_ifs <;> simp

theorem parseProgram_sound (file : List Char) (ast : ASTNode)
    (h : parseProgram file = .ok ast) : Derives .program ((tokens file).map Token.type) := by
  rw [← pending_initial]
  exact parseProgramLoop_sound _ _ _ _ _ h

/-! ## Termination of the parser: the fuel of `parseProgram` is never used up -/

theorem PState.pending_length_next (s : PState) (h : s.token.type ≠ .TOKEN_EOF) :
    s.pending.length = s.next.pending.length + 1 := by
  rw [s.pending_next h]; rfl

theorem parseExpression_halts : ∀ fuel : Nat,
    (∀ s, 3 * s.pending.length + 1 ≤ fuel → (parseFactor fuel s).Halts) ∧
    (∀ node s, 3 * s.pending.length + 1 ≤ fuel → (parseTermLoop fuel node s).Halts) ∧
    (∀ s, 3 * s.pending.length + 2 ≤ fuel → (parseTerm fuel s).Halts) ∧
    (∀ s, 3 * s.pending.length + 3 ≤ fuel → (parseExpression fuel s).Halts) := by
  intro fuel
  induction fuel with
  | zero => simp
  | succ fuel ih =>
    obtain ⟨ihF, ihL, ihT, ihE⟩ := ih
    refine ⟨?_, ?_, ?_, ?_⟩
    · intro s hf
      rw [parseFactor]
      split_ifs with h1 h2 h3
      · simp
      · simp
      · have hn := s.pending_length_next (by rw [h3]; decide)
        refine Outcome.bind_halts (ihE _ (by omega)) ?_
        intro r _
        split_ifs <;> simp
      · simp
    · intro node s hf
      rw [parseTermLoop]
      split_ifs with h1
      · have hn := s.pending_length_next (by rcases h1 with h1 | h1 <;> rw [h1] <;> decide)
        refine Outcome.bind_halts (ihF _ (by omega)) ?_
        intro r hr
        obtain ⟨ts, _, hp⟩ := (parseExpression_sound fuel).1 _ _ _ hr
        have hl := congrArg List.length hp
        rw [List.length_append] at hl
        exact ihL _ _ (by omega)
      · simp
    · intro s hf
      rw [parseTerm]
      refine Outcome.bind_halts (ihF _ (by omega)) ?_
      intro r hr
      obtain ⟨ts, _, hp⟩ := (parseExpression_sound fuel).1 _ _ _ hr
      have hl := congrArg List.length hp
      rw [List.length_append] at hl
      exact ihL _ _ (by omega)
    · intro s hf
      rw [parseExpression]
      exact ihT _ (by omega)

theorem parseVarDecl_halts (s : PState) : (parseVarDecl s).Halts := by
  unfold parseVarDecl
  dsimp only
  split_ifs <;> simp

theorem parseAssign_halts (fuel : Nat) (s : PState) (hs : s.token.type ≠ .TOKEN_EOF)
    (hf : 3 * s.pending.length ≤ fuel + 3) : (parseAssign fuel s).Halts := by
  unfold parseAssign
  dsimp only
  split_ifs with h1
  · simp
  · have h1 : s.next.token.type = .TOKEN_ASSIGN := by simpa using h1
    have hn := s.pending_length_next hs
    have hn1 := s.next.pending_length_next (by rw [h1]; decide)
    refine Outcome.bind_halts ((parseExpression_halts fuel).2.2.2 _ (by omega)) ?_
    intro r _
    split_ifs <;> simp

theorem parseStatement_halts : ∀ fuel : Nat,
    (∀ s, 3 * s.pending.length + 3 ≤ fuel → (parseIf fuel s).Halts) ∧
    (∀ s, 3 * s.pending.length + 4 ≤ fuel → (parseStatement fuel s).Halts) := by
  intro fuel
  induction fuel with
  | zero => simp
  | succ fuel ih =>
    obtain ⟨ihI, ihS⟩ := ih
    refine ⟨?_, ?_⟩
    · intro s hf
      rw [parseIf]
      split_ifs with h1
      · simp
      · have h1 : s.token.type = .TOKEN_LPAREN := by simpa using h1
        have hn := s.pending_length_next (by rw [h1]; decide)
        refine Outcome.bind_halts ((parseExpression_halts fuel).2.2.2 _ (by omega)) ?_
        intro c hc
        obtain ⟨ts, _, hp⟩ := (parseExpression_sound fuel).2.2.2 _ _ _ hc
        have hl := congrArg List.length hp
        rw [List.length_append] at hl
        dsimp only
        split_ifs with h2 h3
        · simp
        · simp
        · have h2 : c.2.token.type = .TOKEN_RPAREN := by simpa using h2
          have h3 : c.2.next.token.type = .TOKEN_LBRACE := by simpa using h3
          have hn2 := c.2.pending_length_next (by rw [h2]; decide)
          have hn3 := c.2.next.pending_length_next (by rw [h3]; decide)
          refine Outcome.bind_halts (ihS _ (by omega)) ?_
          intro b _
          split_ifs <;> simp
    · intro s hf
      rw [parseStatement]
      split_ifs with h1 h2 h3
      · exact parseVarDecl_halts _
      · have hn := s.pending_length_next (by rw [h2]; decide)
        exact ihI _ (by omega)
      · exact parseAssign_halts _ _ (by rw [h3]; decide) (by omega)
      · simp

theorem Derives.statement_length {ts : List TokenType} (h : Derives .statement ts) :
    0 < ts.length := by
  cases h with
  | statementVarDecl h => cases h; simp
  | statementIf h => cases h; simp
  | statementAssign h => cases h; simp

theorem parseProgramLoop_halts : ∀ (fuel : Nat) (program : ASTNode) (last : Nat) (s : PState),
    3 * s.pending.length + 5 ≤ fuel → (parseProgramLoop fuel program last s).Halts := by
  intro fuel
  induction fuel with
  | zero => simp
  | succ fuel ih =>
    intro program last s hf
    rw [parseProgramLoop]
    split_ifs with h1
    · refine Outcome.bind_halts ((parseStatement_halts fuel).2 _ (by omega)) ?_
      intro r hr
      obtain ⟨ts, hts, hp⟩ := (parseStatement_sound fuel).2 _ _ _ hr
      have hl := congrArg List.length hp
      rw [List.length_append] at hl
      have hpos := hts.statement_length
      cases program with
      | NULL => exact ih _ _ _ (by omega)
      | node t l r v => exact ih _ _ _ (by omega)
    · simp

/-- The procedure `parseProgram` comes to an end on every input: it returns a tree or
stops with a diagnostic. -/
theorem parseProgram_halts (file : List Char) : (parseProgram file).Halts := by
  unfold parseProgram
  apply parseProgramLoop_halts
  rw [pending_initial, List.length_map]
  have := tokens_length_le file
  unfold parseFuel
  omega

/-! ## More fuel does not change a result -/

theorem parseExpression_fuel_mono : ∀ fuel : Nat,
    (∀ more s, fuel ≤ more → (parseFactor fuel s).Halts →
      parseFactor more s = parseFactor fuel s) ∧
    (∀ more node s, fuel ≤ more → (parseTermLoop fuel node s).Halts →
      parseTermLoop more node s = parseTermLoop fuel node s) ∧
    (∀ more s, fuel ≤ more → (parseTerm fuel s).Halts →
      parseTerm more s = parseTerm fuel s) ∧
    (∀ more s, fuel ≤ more → (parseExpression fuel s).Halts →
      parseExpression more s = parseExpression fuel s) := by
  intro fuel
  induction fuel with
  | zero => simp [parseFactor, parseTermLoop, parseTerm, parseExpression]
  | succ fuel ih =>
    obtain ⟨ihF, ihL, ihT, ihE⟩ := ih
    refine ⟨?_, ?_, ?_, ?_⟩
    · intro more s hle h
      obtain ⟨m, rfl⟩ : ∃ m, more = m + 1 := ⟨more - 1, by omega⟩
      rw [parseFactor] at h
      rw [parseFactor, parseFactor]
      split_ifs at h ⊢ with h1 h2 h3
      · rfl
      · rfl
      · exact Outcome.bind_congr_halts (ihE m _ (by omega)) (fun _ _ _ => rfl) h
      · rfl
    · intro more node s hle h
      obtain ⟨m, rfl⟩ : ∃ m, more = m + 1 := ⟨more - 1, by omega⟩
      rw [parseTermLoop] at h
      rw [parseTermLoop, parseTermLoop]
      split_ifs at h ⊢ with h1
      · exact Outcome.bind_congr_halts (ihF m _ (by omega))
          (fun _ _ hh => ihL m _ _ (by omega) hh) h
      · rfl
    · intro more s hle h
      obtain ⟨m, rfl⟩ : ∃ m, more = m + 1 := ⟨more - 1, by omega⟩
      rw [parseTerm] at h
      rw [parseTerm, parseTerm]
      exact Outcome.bind_congr_halts (ihF m _ (by omega))
        (fun _ _ hh => ihL m _ _ (by omega) hh) h
    · intro more s hle h
      obtain ⟨m, rfl⟩ : ∃ m, more = m + 1 := ⟨more - 1, by omega⟩
      rw [parseExpression] at h
      rw [parseExpression, parseExpression]
      exact ihT m _ (by omega) h

theorem parseAssign_fuel_mono (fuel more : Nat) (s : PState) (hle : fuel ≤ more)
    (h : (parseAssign fuel s).Halts) : parseAssign more s = parseAssign fuel s := by
  unfold parseAssign at h ⊢
  dsimp only at h ⊢
  split_ifs at h ⊢ with h1
  · rfl
  · exact Outcome.bind_congr_halts ((parseExpression_fuel_mono fuel).2.2.2 more _ hle)
      (fun _ _ _ => rfl) h

theorem parseStatement_fuel_mono : ∀ fuel : Nat,
    (∀ more s, fuel ≤ more → (parseIf fuel s).Halts → parseIf more s = parseIf fuel s) ∧
    (∀ more s, fuel ≤ more → (parseStatement fuel s).Halts →
      parseStatement more s = parseStatement fuel s) := by
  intro fuel
  induction fuel with
  | zero => simp [parseIf, parseStatement]
  | succ fuel ih =>
    obtain ⟨ihI, ihS⟩ := ih
    refine ⟨?_, ?_⟩
    · intro more s hle h
      obtain ⟨m, rfl⟩ : ∃ m, more = m + 1 := ⟨more - 1, by omega⟩
      rw [parseIf] at h
      rw [parseIf, parseIf]
      split_ifs at h ⊢ with h1
      · rfl
      · refine Outcome.bind_congr_halts
          ((parseExpression_fuel_mono fuel).2.2.2 m _ (by omega)) ?_ h
        intro c _ hh
        dsimp only at hh ⊢
        split_ifs at hh ⊢ with h2 h3
        · rfl
        · rfl
        · exact Outcome.bind_congr_halts (ihS m _ (by omega)) (fun _ _ _ => rfl) hh
    · intro more s hle h
      obtain ⟨m, rfl⟩ : ∃ m, more = m + 1 := ⟨more - 1, by omega⟩
      rw [parseStatement] at h
      rw [parseStatement, parseStatement]
      split_ifs at h ⊢ with h1 h2 h3
      · rfl
      · exact ihI m _ (by omega) h
      · exact parseAssign_fuel_mono _ _ _ (by omega) h
      · rfl

theorem parseProgramLoop_fuel_mono : ∀ (fuel more : Nat) (program : ASTNode) (last : Nat)
    (s : PState), fuel ≤ more → (parseProgramLoop fuel program last s).Halts →
    parseProgramLoop more program last s = parseProgramLoop fuel program last s := by
  intro fuel
  induction fuel with
  | zero => simp [parseProgramLoop]
  | succ fuel ih =>
    intro more program last s hle h
    obtain ⟨m, rfl⟩ : ∃ m, more = m + 1 := ⟨more - 1, by omega⟩
    rw [parseProgramLoop] at h
    rw [parseProgramLoop, parseProgramLoop]
    split_ifs at h ⊢ with h1
    · refine Outcome.bind_congr_halts ((parseStatement_fuel_mono fuel).2 m _ (by omega)) ?_ h
      intro r _ hh
      cases program with
      | NULL => exact ih m _ _ _ (by omega) hh
      | node t l r v => exact ih m _ _ _ (by omega) hh
    · rfl

theorem parseFactor_ok_mono {fuel more : Nat} {s : PState} {r : ASTNode × PState}
    (h : parseFactor fuel s = .ok r) (hle : fuel ≤ more) : parseFactor more s = .ok r := by
  rw [(parseExpression_fuel_mono fuel).1 more s hle (by rw [h]; simp), h]

theorem parseTermLoop_ok_mono {fuel more : Nat} {node : ASTNode} {s : PState}
    {r : ASTNode × PState} (h : parseTermLoop fuel node s = .ok r) (hle : fuel ≤ more) :
    parseTermLoop more node s = .ok r := by
  rw [(parseExpression_fuel_mono fuel).2.1 more node s hle (by rw [h]; simp), h]

theorem parseExpression_ok_mono {fuel more : Nat} {s : PState} {r : ASTNode × PState}
    (h : parseExpression fuel s = .ok r) (hle : fuel ≤ more) :
    parseExpression more s = .ok r := by
  rw [(parseExpression_fuel_mono fuel).2.2.2 more s hle (by rw [h]; simp), h]

theorem parseStatement_ok_mono {fuel more : Nat} {s : PState} {r : ASTNode × PState}
    (h : parseStatement fuel s = .ok r) (hle : fuel ≤ more) :
    parseStatement more s = .ok r := by
  rw [(parseStatement_fuel_mono fuel).2 more s hle (by rw [h]; simp), h]

theorem parseProgramLoop_ok_mono {fuel more : Nat} {program : ASTNode} {last : Nat}
    {s : PState} {r : ASTNode} (h : parseProgramLoop fuel program last s = .ok r)
    (hle : fuel ≤ more) : parseProgramLoop more program last s = .ok r := by
  rw [parseProgramLoop_fuel_mono fuel more program last s hle (by rw [h]; simp), h]

/-! ## Completeness of the parser: what is derivable is accepted -/

theorem PState.token_of_pending_nil (s : PState) (h : s.pending = []) :
    s.token.type = .TOKEN_EOF := by
  by_contra hne
  rw [s.pending_next hne] at h
  cases h

theorem PState.token_of_head (s : PState) (t : TokenType)
    (h : s.pending.head? ≠ some t) (ht : t ≠ .TOKEN_EOF) : s.token.type ≠ t := by
  intro heq
  rw [s.pending_next (heq ▸ ht), heq] at h
  exact h rfl

theorem Derives.accepts {nt : NonTerminal} {ts : List TokenType} (h : Derives nt ts) :
    Accepts nt ts := by
  induction h with
  | programNil =>
    intro program last s hp
    refine ⟨1, program, ?_⟩
    rw [parseProgramLoop, if_neg (by simpa using s.token_of_pending_nil hp)]
  | @programCons st p hs _ ihs ihp =>
    intro program last s hp
    obtain ⟨f1, n, s1, h1, hp1⟩ := ihs s p hp
    have hne : s.token.type ≠ .TOKEN_EOF := by
      intro he
      have := hs.statement_length
      rw [s.pending_of_eof he] at hp
      have := congrArg List.length hp
      simp at this
      omega
    cases program with
    | NULL =>
      obtain ⟨f2, ast, h2⟩ := ihp n 0 s1 hp1
      refine ⟨max f1 f2 + 1, ast, ?_⟩
      rw [parseProgramLoop, if_pos hne, parseStatement_ok_mono h1 (le_max_left _ _)]
      exact parseProgramLoop_ok_mono h2 (le_max_right _ _)
    | node t l r v =>
      obtain ⟨f2, ast, h2⟩ := ihp (setLastRight last (.node t l r v) n) (last + 1) s1 hp1
      refine ⟨max f1 f2 + 1, ast, ?_⟩
      rw [parseProgramLoop, if_pos hne, parseStatement_ok_mono h1 (le_max_left _ _)]
      exact parseProgramLoop_ok_mono h2 (le_max_right _ _)
  | statementVarDecl _ ih => exact ih
  | statementIf _ ih => exact ih
  | statementAssign _ ih => exact ih
  | varDecl =>
    intro s rest hp
    obtain ⟨h1, _, hp⟩ := s.pending_head _ _ hp
    obtain ⟨h2, _, hp⟩ := s.next.pending_head _ _ hp
    obtain ⟨h3, _, hp⟩ := s.next.next.pending_head _ _ hp
    refine ⟨1, createNode .NODE_VAR_DECL (some s.next.token.text), _, ?_, hp⟩
    rw [parseStatement, if_pos h1]
    unfold parseVarDecl
    simp [h2, h3]
  | @assign e _ ihe =>
    intro s rest hp
    simp only [List.cons_append, List.append_assoc, List.singleton_append] at hp
    obtain ⟨h1, _, hp⟩ := s.pending_head _ _ hp
    obtain ⟨h2, _, hp⟩ := s.next.pending_head _ _ hp
    obtain ⟨f, n, s1, he, hp1⟩ := ihe _ _ hp (by simp) (by simp)
    obtain ⟨h3, _, hp⟩ := s1.pending_head _ _ hp1
    refine ⟨f + 1, (createNode .NODE_ASSIGN (some s.token.text)).setLeft n, _, ?_, hp⟩
    rw [parseStatement, if_neg (by rw [h1]; decide), if_neg (by rw [h1]; decide), if_pos h1]
    unfold parseAssign
    simp [h2, he, h3]
  | @ifStmt e b _ _ ihe ihb =>
    intro s rest hp
    simp only [List.cons_append, List.append_assoc, List.singleton_append] at hp
    obtain ⟨h1, _, hp⟩ := s.pending_head _ _ hp
    obtain ⟨h2, _, hp⟩ := s.next.pending_head _ _ hp
    obtain ⟨fe, c, s1, he, hp1⟩ := ihe _ _ hp (by simp) (by simp)
    obtain ⟨h3, _, hp⟩ := s1.pending_head _ _ hp1
    obtain ⟨h4, _, hp⟩ := s1.next.pending_head _ _ hp
    obtain ⟨fb, bn, s2, hb, hp2⟩ := ihb _ _ hp
    obtain ⟨h5, _, hp⟩ := s2.pending_head _ _ hp2
    refine ⟨max fe fb + 2, ((createNode .NODE_IF none).setLeft c).setRight bn, _, ?_, hp⟩
    rw [parseStatement, if_neg (by rw [h1]; decide), if_pos h1, parseIf]
    simp [h2, parseExpression_ok_mono he (le_max_left fe fb), h3, h4,
      parseStatement_ok_mono hb (le_max_right fe fb), h5]
  | expression _ ih =>
    intro s rest hp hr1 hr2
    obtain ⟨f, n, s1, h, hp1⟩ := ih s rest hp hr1 hr2
    exact ⟨f + 1, n, s1, by rw [parseExpression]; exact h, hp1⟩
  | @term f r _ _ ihf ihr =>
    intro s rest hp hr1 hr2
    rw [List.append_assoc] at hp
    obtain ⟨f1, n1, s1, h1, hp1⟩ := ihf s _ hp
    obtain ⟨f2, n2, s2, h2, hp2⟩ := ihr n1 s1 rest hp1 hr1 hr2
    refine ⟨max f1 f2 + 1, n2, s2, ?_, hp2⟩
    rw [parseTerm, parseFactor_ok_mono h1 (le_max_left _ _)]
    exact parseTermLoop_ok_mono h2 (le_max_right _ _)
  | termTailNil =>
    intro node s rest hp hr1 hr2
    rw [List.nil_append] at hp
    refine ⟨1, node, s, ?_, hp⟩
    rw [parseTermLoop, if_neg]
    rw [← hp] at hr1 hr2
    have a1 := s.token_of_head _ hr1 (by decide)
    have a2 := s.token_of_head _ hr2 (by decide)
    simp [a1, a2]
  | @termTailCons op f r hop _ _ ihf ihr =>
    intro node s rest hp hr1 hr2
    simp only [List.cons_append, List.append_assoc] at hp
    obtain ⟨h1, _, hp⟩ := s.pending_head _ _ hp
    obtain ⟨f1, n1, s1, hf1, hp1⟩ := ihf s.next _ hp
    obtain ⟨f2, n2, s2, h2, hp2⟩ := ihr _ s1 rest hp1 hr1 hr2
    refine ⟨max f1 f2 + 1, n2, s2, ?_, hp2⟩
    rw [parseTermLoop, if_pos (by rw [h1]; exact hop)]
    dsimp only
    rw [parseFactor_ok_mono hf1 (le_max_left _ _)]
    exact parseTermLoop_ok_mono h2 (le_max_right _ _)
  | factorNumber =>
    intro s rest hp
    obtain ⟨h1, _, hp⟩ := s.pending_head _ _ hp
    exact ⟨1, createNode .NODE_NUM (some s.token.text), _, by rw [parseFactor, if_pos h1], hp⟩
  | factorIdentifier =>
    intro s rest hp
    obtain ⟨h1, _, hp⟩ := s.pending_head _ _ hp
    exact ⟨1, createNode .NODE_VAR (some s.token.text), _,
      by rw [parseFactor, if_neg (by rw [h1]; decide), if_pos h1], hp⟩
  | @factorParen e _ ihe =>
    intro s rest hp
    simp only [List.cons_append, List.append_assoc, List.singleton_append] at hp
    obtain ⟨h1, _, hp⟩ := s.pending_head _ _ hp
    obtain ⟨f, n, s1, he, hp1⟩ := ihe _ _ hp (by simp) (by simp)
    obtain ⟨h2, _, hp⟩ := s1.pending_head _ _ hp1
    refine ⟨f + 1, n, _, ?_, hp⟩
    rw [parseFactor, if_neg (by rw [h1]; decide), if_neg (by rw [h1]; decide), if_pos h1, he]
    simp [h2]

/-- Every input whose token sequence is derivable from `Program` is accepted. -/
theorem parseProgram_complete (file : List Char)
    (h : Derives .program ((tokens file).map Token.type)) :
    ∃ ast, parseProgram file = .ok ast := by
  obtain ⟨fuel, ast, hok⟩ := h.accepts .NULL 0 _ (pending_initial file)
  refine ⟨ast, ?_⟩
  unfold parseProgram
  rcases Nat.le_total fuel (parseFuel file) with hle | hle
  · exact parseProgramLoop_ok_mono hok hle
  · rw [← parseProgramLoop_fuel_mono _ _ _ _ _ hle (parseProgram_halts file), hok]

/-! ## The symbol table -/

theorem scanTable_eq_find (name : String) (table : List Symbol) (n : Nat) :
    scanTable name table n =
      ((table.take n).find? (fun s => decide (s.name = name))).map Symbol.address := by
  induction table generalizing n with
  | nil => simp [scanTable]
  | cons s rest ih =>
    cases n with
    | zero => simp [scanTable]
    | succ n =>
      rw [scanTable, List.take_succ_cons, List.find?_cons]
      by_cases h : s.name = name
      · simp [h]
      · simp [h, ih]

theorem GenState.lookup_eq_find (st : GenState) (name : String) :
    st.lookup name = (st.entries.find? (fun s => decide (s.name = name))).map Symbol.address :=
  scanTable_eq_find _ _ _

theorem GenState.lookup_eq_none_iff (st : GenState) (name : String) :
    st.lookup name = none ↔ ∀ s ∈ st.entries, s.name ≠ name := by
  rw [st.lookup_eq_find]
  simp

theorem GenState.lookup_append (st st1 : GenState) (l : List Symbol) (name : String) (a : Nat)
    (he : st1.entries = st.entries ++ l) (h : st.lookup name = some a) :
    st1.lookup name = some a := by
  rw [GenState.lookup_eq_find] at h ⊢
  rw [he, List.find?_append]
  cases hf : st.entries.find? (fun s => decide (s.name = name)) with
  | none => rw [hf] at h; cases h
  | some x => rw [hf] at h; simpa using h

theorem take_set_succ {α : Type} (l : List α) (n : Nat) (x : α) (h : n < l.length) :
    (l.set n x).take (n + 1) = l.take n ++ [x] := by
  induction l generalizing n with
  | nil => cases h
  | cons y l ih =>
    cases n with
    | zero => simp
    | succ n =>
      simp only [List.length_cons, Nat.add_lt_add_iff_right] at h
      simp [ih n h]

/-- The two ways in which `findOrAddSymbol` returns: the name was found, or it was
entered at position `symbolCount` with the address `nextAddress`. -/
theorem findOrAddSymbol_eq_ok (name : String) (st st1 : GenState) (a : Nat) :
    findOrAddSymbol name st = .ok (a, st1) ↔
      (st.lookup name = some a ∧ st1 = st) ∨
      (st.lookup name = none ∧ st.symbolCount < 100 ∧ st.nextAddress < INT_MAX ∧
        a = st.nextAddress ∧
        st1 = ⟨st.symbolTable.set st.symbolCount ⟨name, st.nextAddress⟩,
          st.symbolCount + 1, st.nextAddress + 1⟩) := by
  unfold findOrAddSymbol GenState.lookup
  cases h : scanTable name st.symbolTable st.symbolCount with
  | some b =>
    simp only [Outcome.ok.injEq, Prod.mk.injEq, Option.some.injEq, reduceCtorEq, false_and,
      or_false]
    constructor
    · rintro ⟨h1, h2⟩; exact ⟨h1, h2.symm⟩
    · rintro ⟨h1, h2⟩; exact ⟨h1, h2.symm⟩
  | none =>
    simp only [reduceCtorEq, false_and, false_or, true_and]
    split_ifs with h1 h2
    · simp; omega
    · simp; omega
    · simp only [Outcome.ok.injEq, Prod.mk.injEq]
      constructor
      · rintro ⟨h3, h4⟩; exact ⟨by omega, by omega, h3.symm, h4.symm⟩
      · rintro ⟨_, _, h3, h4⟩; exact ⟨h3.symm, h4.symm⟩

theorem findOrAddSymbol_entries (name : String) (st st1 : GenState) (a : Nat) (hw : st.WF)
    (h : findOrAddSymbol name st = .ok (a, st1)) :
    st1.WF ∧ st1.lookup name = some a ∧
      (st1.entries = st.entries ∨ st1.entries = st.entries ++ [⟨name, a⟩]) := by
  rcases (findOrAddSymbol_eq_ok _ _ _ _).mp h with ⟨h1, rfl⟩ | ⟨h1, h2, _, rfl, rfl⟩
  · exact ⟨hw, h1, Or.inl rfl⟩
  · have he : GenState.entries ⟨st.symbolTable.set st.symbolCount ⟨name, st.nextAddress⟩,
        st.symbolCount + 1, st.nextAddress + 1⟩ = st.entries ++ [⟨name, st.nextAddress⟩] := by
      unfold GenState.entries
      exact take_set_succ _ _ _ (by rw [hw.1]; exact h2)
    refine ⟨⟨by simp [hw.1], by simp; omega⟩, ?_, Or.inr he⟩
    rw [GenState.lookup_eq_find, he, List.find?_append]
    have hn : st.entries.find? (fun s => decide (s.name = name)) = none := by
      have := h1
      rw [GenState.lookup_eq_find] at this
      simpa using this
    rw [hn]
    simp

theorem drawLabel_eq_ok (st st1 : GenState) (k : Nat) :
    drawLabel st = .ok (k, st1) ↔
      st.nextAddress < INT_MAX ∧ k = st.nextAddress ∧
        st1 = { st with nextAddress := st.nextAddress + 1 } := by
  unfold drawLabel
  split_ifs with h
  · simp; omega
  · simp only [Outcome.ok.injEq, Prod.mk.injEq]
    constructor
    · rintro ⟨h1, h2⟩; exact ⟨by omega, h1.symm, h2.symm⟩
    · rintro ⟨_, h1, h2⟩; exact ⟨h1.symm, h2.symm⟩

theorem GenStep.run_entries (x : GenStep) (st st1 : GenState) (hw : st.WF)
    (h : x.run st = .ok st1) : st1.WF ∧ ∃ l, st1.entries = st.entries ++ l := by
  cases x with
  | resolve name =>
    obtain ⟨r, hr, h⟩ := Outcome.bind_eq_ok.mp h
    injection h with h; subst h
    obtain ⟨h1, _, h3 | h3⟩ := findOrAddSymbol_entries name st r.2 r.1 hw hr
    · exact ⟨h1, [], by simp [h3]⟩
    · exact ⟨h1, _, h3⟩
  | label =>
    obtain ⟨r, hr, h⟩ := Outcome.bind_eq_ok.mp h
    injection h with h; subst h
    obtain ⟨_, _, h3⟩ := (drawLabel_eq_ok st r.2 r.1).mp hr
    rw [h3]
    exact ⟨hw, [], by simp [GenState.entries]⟩

theorem runSteps_entries (steps : List GenStep) (st st1 : GenState) (hw : st.WF)
    (h : runSteps steps st = .ok st1) : st1.WF ∧ ∃ l, st1.entries = st.entries ++ l := by
  induction steps generalizing st with
  | nil =>
    injection h with h; subst h
    exact ⟨hw, [], by simp⟩
  | cons x rest ih =>
    obtain ⟨st2, h2, h⟩ := Outcome.bind_eq_ok.mp h
    obtain ⟨hw2, l2, he2⟩ := x.run_entries st st2 hw h2
    obtain ⟨hw1, l1, he1⟩ := ih st2 hw2 h
    exact ⟨hw1, l2 ++ l1, by rw [he1, he2, List.append_assoc]⟩

theorem runSteps_append (a b : List GenStep) (st : GenState) :
    runSteps (a ++ b) st = (runSteps a st).bind fun st1 => runSteps b st1 := by
  induction a generalizing st with
  | nil => rfl
  | cons x rest ih =>
    simp only [List.cons_append, runSteps]
    cases x.run st <;> simp [ih]

/-! ## The generator as a sequence of operations on the globals -/

theorem generateExpression_steps (e : ASTNode) : ∀ (st st1 : GenState) (out : List Instr),
    generateExpression e st = .ok (st1, out) → runSteps (exprSteps e) st = .ok st1 := by
  induction e with
  | NULL => intro st st1 out h; simp [generateExpression] at h
  | node t l r v ihl ihr =>
    intro st st1 out h
    cases t with
    | NODE_NUM =>
      simp only [generateExpression, Outcome.ok.injEq, Prod.mk.injEq] at h
      simp [exprSteps, runSteps, h.1]
    | NODE_VAR =>
      rw [generateExpression] at h
      obtain ⟨a, ha, h⟩ := Outcome.bind_eq_ok.mp h
      simp only [Outcome.ok.injEq, Prod.mk.injEq] at h
      simp [exprSteps, runSteps, GenStep.run, ha, h.1]
    | NODE_BIN_OP =>
      rw [generateExpression] at h
      obtain ⟨r1, h1, h⟩ := Outcome.bind_eq_ok.mp h
      obtain ⟨r2, h2, h⟩ := Outcome.bind_eq_ok.mp h
      simp only [Outcome.ok.injEq, Prod.mk.injEq] at h
      rw [exprSteps, runSteps_append, ihl _ _ _ h1, Outcome.bind_ok, ihr _ _ _ h2, h.1]
    | NODE_VAR_DECL => simp [generateExpression] at h
    | NODE_ASSIGN => simp [generateExpression] at h
    | NODE_IF => simp [generateExpression] at h

theorem generateCode_steps (n : ASTNode) : ∀ (st st1 : GenState) (out : List Instr),
    generateCode n st = .ok (st1, out) → runSteps (codeSteps n) st = .ok st1 := by
  induction n with
  | NULL =>
    intro st st1 out h
    simp only [generateCode, Outcome.ok.injEq, Prod.mk.injEq] at h
    simp [codeSteps, runSteps, h.1]
  | node t l r v ihl ihr =>
    intro st st1 out h
    cases t with
    | NODE_VAR_DECL =>
      rw [generateCode] at h
      obtain ⟨a, ha, h⟩ := Outcome.bind_eq_ok.mp h
      simp [codeSteps, runSteps, GenStep.run, ha, ihr _ _ _ h]
    | NODE_ASSIGN =>
      rw [generateCode] at h
      obtain ⟨a, ha, h⟩ := Outcome.bind_eq_ok.mp h
      obtain ⟨r1, h1, h⟩ := Outcome.bind_eq_ok.mp h
      obtain ⟨r2, h2, h⟩ := Outcome.bind_eq_ok.mp h
      simp only [Outcome.ok.injEq, Prod.mk.injEq] at h
      simp [codeSteps, runSteps, GenStep.run, ha, runSteps_append,
        generateExpression_steps _ _ _ _ h1, ihr _ _ _ h2, h.1]
    | NODE_IF =>
      rw [generateCode] at h
      obtain ⟨a, ha, h⟩ := Outcome.bind_eq_ok.mp h
      obtain ⟨r1, h1, h⟩ := Outcome.bind_eq_ok.mp h
      obtain ⟨r2, h2, h⟩ := Outcome.bind_eq_ok.mp h
      obtain ⟨r3, h3, h⟩ := Outcome.bind_eq_ok.mp h
      simp only [Outcome.ok.injEq, Prod.mk.injEq] at h
      simp [codeSteps, runSteps, GenStep.run, ha, runSteps_append,
        generateExpression_steps _ _ _ _ h1, ihr _ _ _ h2, ihr _ _ _ h3, h.1]
    | NODE_BIN_OP => simp [generateCode] at h
    | NODE_NUM => simp [generateCode] at h
    | NODE_VAR => simp [generateCode] at h

/-! ## Binary operations (C1) and assignments (C10) -/

/-- C1: for a binary-operation node with operator text "+" or "-" whose operands `a`
and `b` generate without failure, `generateExpression` writes exactly the lines of
`a`, then PUSH, then the lines of `b` (generated from the globals as `a` left them), then
POP, then the single line ADD or SUB, and nothing else; `a` and `b` are arbitrary, so
this applies again to operands that are binary operations. -/
theorem generateExpression_binop_shape (op : String) (a b : ASTNode) (st st1 st2 : GenState)
    (outA outB : List Instr) (hop : op = "+" ∨ op = "-")
    (ha : generateExpression a st = .ok (st1, outA))
    (hb : generateExpression b st1 = .ok (st2, outB)) :
    generateExpression (.node .NODE_BIN_OP a b op) st =
        .ok (st2, outA ++ [.PUSH] ++ outB ++ [.POP] ++ [if op = "+" then .ADD else .SUB]) ∧
      Instr.line .PUSH = "PUSH" ∧ Instr.line .POP = "POP" ∧
      Instr.line .ADD = "ADD" ∧ Instr.line .SUB = "SUB" := by
  refine ⟨?_, rfl, rfl, rfl, rfl⟩
  rw [generateExpression, ha, Outcome.bind_ok, hb, Outcome.bind_ok]
  rcases hop with h | h <;> subst h <;> simp [opLines]

theorem generateExpression_binop_shape_witness :
    ("+" = "+" ∨ "+" = "-") ∧
      generateExpression (.node .NODE_BIN_OP (.node .NODE_NUM .NULL .NULL "3")
          (.node .NODE_VAR .NULL .NULL "x") "-") GenState.init =
        .ok (⟨GenState.init.symbolTable.set 0 ⟨"x", 0⟩, 1, 1⟩,
          [.LOADI "3", .PUSH, .LOAD 0, .POP, .SUB]) ∧
      generateExpression (.node .NODE_NUM .NULL .NULL "1")
          ⟨GenState.init.symbolTable.set 0 ⟨"x", 0⟩, 1, 1⟩ =
        .ok (⟨GenState.init.symbolTable.set 0 ⟨"x", 0⟩, 1, 1⟩, [.LOADI "1"]) ∧
      generateExpression (.node .NODE_BIN_OP
          (.node .NODE_BIN_OP (.node .NODE_NUM .NULL .NULL "3")
            (.node .NODE_VAR .NULL .NULL "x") "-")
          (.node .NODE_NUM .NULL .NULL "1") "+") GenState.init =
        .ok (⟨GenState.init.symbolTable.set 0 ⟨"x", 0⟩, 1, 1⟩,
          [.LOADI "3", .PUSH, .LOAD 0, .POP, .SUB] ++ [.PUSH] ++ [.LOADI "1"] ++ [.POP] ++
            [if "+" = "+" then .ADD else .SUB]) :=
  ⟨Or.inl rfl, by decide, by decide,
    (generateExpression_binop_shape "+"
      (.node .NODE_BIN_OP (.node .NODE_NUM .NULL .NULL "3") (.node .NODE_VAR .NULL .NULL "x") "-")
      (.node .NODE_NUM .NULL .NULL "1") GenState.init
      ⟨GenState.init.symbolTable.set 0 ⟨"x", 0⟩, 1, 1⟩
      ⟨GenState.init.symbolTable.set 0 ⟨"x", 0⟩, 1, 1⟩
      [.LOADI "3", .PUSH, .LOAD 0, .POP, .SUB] [.LOADI "1"] (Or.inl rfl)
      (by decide) (by decide)).1⟩

/-- C10: for an assignment node `x = E;` with no statement after it, `generateCode`
first resolves `x` (the operations on the globals are `resolve x` followed by those of
`E`), then writes exactly the lines of `E` followed by the single line STORE a, `a`
being the address found or created for `x`; the source `int x; x = 1 + 2;` compiles to
LOADI 1, PUSH, LOADI 2, POP, ADD, STORE 0. -/
theorem generateCode_assign_last (x : String) (e : ASTNode) (st st1 st2 : GenState) (a : Nat)
    (out : List Instr) (hx : findOrAddSymbol x st = .ok (a, st1))
    (he : generateExpression e st1 = .ok (st2, out)) :
    generateCode (.node .NODE_ASSIGN e .NULL x) st = .ok (st2, out ++ [.STORE a]) ∧
      codeSteps (.node .NODE_ASSIGN e .NULL x) = .resolve x :: exprSteps e ∧
      (compile "int x; x = 1 + 2;".toList).bind (fun l => .ok (l.map Instr.line)) =
        .ok ["LOADI 1", "PUSH", "LOADI 2", "POP", "ADD", "STORE 0"] := by
  refine ⟨?_, ?_, by decide⟩
  · rw [generateCode, hx, Outcome.bind_ok, he, Outcome.bind_ok, generateCode]
    simp
  · simp [codeSteps]

theorem generateCode_assign_last_witness :
    findOrAddSymbol "x" GenState.init =
        .ok (0, ⟨GenState.init.symbolTable.set 0 ⟨"x", 0⟩, 1, 1⟩) ∧
      generateExpression (.node .NODE_VAR .NULL .NULL "y")
          ⟨GenState.init.symbolTable.set 0 ⟨"x", 0⟩, 1, 1⟩ =
        .ok (⟨(GenState.init.symbolTable.set 0 ⟨"x", 0⟩).set 1 ⟨"y", 1⟩, 2, 2⟩, [.LOAD 1]) ∧
      generateCode (.node .NODE_ASSIGN (.node .NODE_VAR .NULL .NULL "y") .NULL "x")
          GenState.init =
        .ok (⟨(GenState.init.symbolTable.set 0 ⟨"x", 0⟩).set 1 ⟨"y", 1⟩, 2, 2⟩,
          [.LOAD 1] ++ [.STORE 0]) :=
  ⟨by decide, by decide,
    (generateCode_assign_last "x" (.node .NODE_VAR .NULL .NULL "y") GenState.init
      ⟨GenState.init.symbolTable.set 0 ⟨"x", 0⟩, 1, 1⟩
      ⟨(GenState.init.symbolTable.set 0 ⟨"x", 0⟩).set 1 ⟨"y", 1⟩, 2, 2⟩ 0 [.LOAD 1]
      (by decide) (by decide)).1⟩

/-! ## The `right` pointer of an `if` node (C2, C3, C4) -/

/-- C2, at the program `if (x) { x = 0; }`: the lines written are those of the
condition, JUMPZ ELSE_0, those of the body, ELSE_0:, and then the lines of the body a
second time, because the `right` pointer of the `if` node, which holds the body, is
also what `generateCode` continues with as the next statement. -/
theorem compile_single_if_repeats_body :
    (compile "if (x) { x = 0; }".toList).bind (fun l => .ok (l.map Instr.line)) =
      .ok ["LOAD 1", "JUMPZ ELSE_0", "LOADI 0", "STORE 1", "ELSE_0:", "LOADI 0", "STORE 1"] := by
  decide

/-- C3, at the program `if (x) { y = 1; } z = 2;`: the tree returned by `parseProgram`
no longer holds the body `y = 1;` (linking the next statement overwrote the `right`
pointer of the `if` node), and the lines of `z = 2;` are written twice, once between
JUMPZ and the label and once after the label. -/
theorem compile_if_then_statement :
    parseProgram "if (x) { y = 1; } z = 2;".toList =
        .ok (.node .NODE_IF (.node .NODE_VAR .NULL .NULL "x")
          (.node .NODE_ASSIGN (.node .NODE_NUM .NULL .NULL "2") .NULL "z") "") ∧
      (compile "if (x) { y = 1; } z = 2;".toList).bind (fun l => .ok (l.map Instr.line)) =
        .ok ["LOAD 1", "JUMPZ ELSE_0", "LOADI 2", "STORE 2", "ELSE_0:", "LOADI 2", "STORE 2"] := by
  decide

/-- C4, at the program `if (x) { x = 0; }`, which has one top-level statement: the
chain of `right` pointers from the root returned by `parseProgram` has two nodes, the
`if` node and its body. -/
theorem parseProgram_chain_trailing_if :
    parseProgram "if (x) { x = 0; }".toList =
        .ok (.node .NODE_IF (.node .NODE_VAR .NULL .NULL "x")
          (.node .NODE_ASSIGN (.node .NODE_NUM .NULL .NULL "0") .NULL "x") "") ∧
      chainLength (.node .NODE_IF (.node .NODE_VAR .NULL .NULL "x")
          (.node .NODE_ASSIGN (.node .NODE_NUM .NULL .NULL "0") .NULL "x") "") = 2 := by
  decide

/-! ## The language of the parser (C5, C6) -/

theorem Derives.no_equal {nt : NonTerminal} {ts : List TokenType} (h : Derives nt ts) :
    TokenType.TOKEN_EQUAL ∉ ts := by
  induction h with
  | termTailCons hop _ _ ihf ihr => rcases hop with h | h <;> subst h <;> simp [ihf, ihr]
  | _ => simp_all

/-- C5: `parseProgram` returns a tree exactly for the inputs whose token sequence is
derivable from `Program := Statement*`; on every other input it stops with a
diagnostic and exit status 1 (it never runs on for ever), in particular on `int x`,
where the semicolon is missing. -/
theorem parseProgram_accepts_iff :
    (∀ file : List Char, (∃ ast, parseProgram file = .ok ast) ↔
        Derives .program ((tokens file).map Token.type)) ∧
      (∀ file : List Char, ¬ Derives .program ((tokens file).map Token.type) →
        ∃ msg, parseProgram file = .exit1 msg) ∧
      parseProgram "int x".toList = .exit1 "Expected ';' after variable declaration\n" := by
  refine ⟨?_, ?_, by decide⟩
  · intro file
    exact ⟨fun ⟨ast, h⟩ => parseProgram_sound file ast h, parseProgram_complete file⟩
  · intro file hn
    rcases parseProgram_halts file with ⟨ast, h⟩ | h
    · exact absurd (parseProgram_sound file ast h) hn
    · exact h

theorem parseProgram_accepts_iff_witness :
    Derives .program ((tokens "int x;".toList).map Token.type) ∧
      ∃ msg, parseProgram "x = ;".toList = .exit1 msg :=
  ⟨(parseProgram_accepts_iff.1 "int x;".toList).mp
      ⟨.node .NODE_VAR_DECL .NULL .NULL "x", by decide⟩,
    parseProgram_accepts_iff.2.1 "x = ;".toList (fun h => by
      obtain ⟨ast, h2⟩ := (parseProgram_accepts_iff.1 "x = ;".toList).mpr h
      have h3 : parseProgram "x = ;".toList = .exit1 "Unexpected token: ;\n" := by decide
      rw [h3] at h2
      cases h2)⟩

/-- C6: on every input whose token sequence holds an equality token `==`,
`parseProgram` stops with a diagnostic and exit status 1 and returns no tree; on
`if (x == 1) { x = 0; }` the diagnostic is that of the check for `)` after the
condition of the `if`. -/
theorem parseProgram_rejects_equal :
    (∀ file : List Char, (∃ t ∈ tokens file, t.type = .TOKEN_EQUAL) →
        ∃ msg, parseProgram file = .exit1 msg) ∧
      parseProgram "if (x == 1) { x = 0; }".toList =
        .exit1 "Expected ')' after if condition\n" := by
  refine ⟨?_, by decide⟩
  intro file ⟨t, ht, hty⟩
  rcases parseProgram_halts file with ⟨ast, h⟩ | h
  · exfalso
    refine (parseProgram_sound file ast h).no_equal ?_
    exact List.mem_map.mpr ⟨t, ht, hty⟩
  · exact h

theorem parseProgram_rejects_equal_witness :
    (∃ t ∈ tokens "x = 1 == 1;".toList, t.type = .TOKEN_EQUAL) ∧
      ∃ msg, parseProgram "x = 1 == 1;".toList = .exit1 msg :=
  ⟨⟨⟨.TOKEN_EQUAL, "=="⟩, by decide, rfl⟩,
    parseProgram_rejects_equal.1 "x = 1 == 1;".toList ⟨⟨.TOKEN_EQUAL, "=="⟩, by decide, rfl⟩⟩

/-! ## Programs of declarations -/

theorem isspace_of_isalpha (c : Char) (h : isalpha c = true) : isspace c = false := by
  unfold isspace
  simp only [Bool.or_eq_false_iff, beq_eq_false_iff_ne, ne_eq]
  refine ⟨⟨⟨⟨⟨?_, ?_⟩, ?_⟩, ?_⟩, ?_⟩, ?_⟩ <;> (rintro rfl; revert h; decide)

theorem scanWhile_run (p : Char → Bool) (d : Char) (rest : List Char) (hd : p d = false) :
    ∀ (cs text : List Char), (∀ x ∈ cs, p x = true) → text.length + cs.length ≤ 99 →
    scanWhile p text (cs ++ d :: rest) = (text ++ cs, d :: rest) := by
  intro cs
  induction cs with
  | nil => intro text _ _; simp [scanWhile, hd]
  | cons c cs ih =>
    intro text hp hl
    simp only [List.length_cons] at hl
    have hlt : text.length < MAX_TOKEN_LEN - 1 := by unfold MAX_TOKEN_LEN; omega
    rw [List.cons_append, scanWhile, if_pos (hp c (List.mem_cons_self _ _)), if_pos hlt,
      ih _ (fun x hx => hp x (List.mem_cons_of_mem _ hx)) (by simp; omega)]
    simp

theorem getNextToken_int (rest : List Char) :
    getNextToken ('i' :: 'n' :: 't' :: ' ' :: rest) = (⟨.TOKEN_INT, "int"⟩, ' ' :: rest) := by
  have h := scanWhile_run isalnum ' ' rest (by decide) ['n', 't'] ['i'] (by decide) (by decide)
  rw [getNextToken, if_neg (by decide), if_pos (by decide)]
  simp only [List.cons_append, List.nil_append] at h
  rw [h]
  rfl


theorem getNextToken_identifier (n : String) (rest : List Char) (hn : isIdentifier n = true) :
    getNextToken (' ' :: (n.data ++ ';' :: rest)) = (⟨.TOKEN_IDENTIFIER, n⟩, ';' :: rest) := by
  unfold isIdentifier at hn
  cases hd : n.data with
  | nil => rw [hd] at hn; cases hn
  | cons c cs =>
    rw [hd] at hn
    simp only [Bool.and_eq_true, List.all_eq_true, decide_eq_true_eq, bne_iff_ne, ne_eq] at hn
    obtain ⟨⟨⟨⟨h1, h2⟩, h3⟩, h4⟩, h5⟩ := hn
    have hs := scanWhile_run isalnum ';' rest (by decide) cs [c] h2
      (by simp only [List.length_cons] at h3; simp; omega)
    have hstr : String.mk (c :: cs) = n := by rw [← hd]
    rw [getNextToken, if_pos (by decide), List.cons_append, getNextToken,
      if_neg (by rw [isspace_of_isalpha c h1]; decide), if_pos h1]
    simp only [hs, List.singleton_append, hstr, if_neg h4, if_neg h5]

theorem getNextToken_semicolon (rest : List Char) :
    getNextToken (';' :: rest) = (⟨.TOKEN_SEMICOLON, ";"⟩, rest) := by
  rw [getNextToken]
  simp only [show isspace ';' = false by decide, show isalpha ';' = false by decide,
    show isdigit ';' = false by decide]
  simp

/-- Parsing one declaration of the source of a declaration program. -/
theorem parseStatement_declaration (fuel : Nat) (n : String) (rest : List Char) (t : Token)
    (hn : isIdentifier n = true) :
    parseStatement (fuel + 1)
        (PState.next ⟨['i', 'n', 't', ' '] ++ n.data ++ [';'] ++ rest, t⟩) =
      .ok (createNode .NODE_VAR_DECL (some n), PState.next ⟨rest, t⟩) := by
  have e1 : PState.next ⟨['i', 'n', 't', ' '] ++ n.data ++ [';'] ++ rest, t⟩ =
      ⟨' ' :: (n.data ++ ';' :: rest), ⟨.TOKEN_INT, "int"⟩⟩ := by
    unfold PState.next
    simp only [List.cons_append, List.nil_append, List.append_assoc, getNextToken_int]
  have e2 : PState.next ⟨' ' :: (n.data ++ ';' :: rest), ⟨.TOKEN_INT, "int"⟩⟩ =
      ⟨';' :: rest, ⟨.TOKEN_IDENTIFIER, n⟩⟩ := by
    unfold PState.next
    simp only [getNextToken_identifier n rest hn]
  have e3 : PState.next ⟨';' :: rest, ⟨.TOKEN_IDENTIFIER, n⟩⟩ =
      ⟨rest, ⟨.TOKEN_SEMICOLON, ";"⟩⟩ := by
    unfold PState.next
    simp only [getNextToken_semicolon]
  rw [e1, parseStatement, if_pos rfl, e2]
  unfold parseVarDecl
  simp only [e3]
  simp [PState.next]

theorem setLastRight_declProgram (n : String) : ∀ (m : String) (pre : List String),
    setLastRight pre.length (declProgram (m :: pre)) (createNode .NODE_VAR_DECL (some n)) =
      declProgram (m :: (pre ++ [n])) := by
  intro m pre
  induction pre generalizing m with
  | nil => rfl
  | cons a pre ih =>
    show ASTNode.node .NODE_VAR_DECL .NULL
      (setLastRight pre.length (declProgram (a :: pre)) (createNode .NODE_VAR_DECL (some n))) m = _
    rw [ih a]
    rfl

theorem next_declSource_token (n : String) (rest : List Char) (t : Token) :
    (PState.next ⟨['i', 'n', 't', ' '] ++ n.data ++ [';'] ++ rest, t⟩).token.type =
      .TOKEN_INT := by
  unfold PState.next
  simp only [List.cons_append, List.nil_append, List.append_assoc, getNextToken_int]

theorem parseProgramLoop_declSource_cons (t : Token) (names : List String) :
    (∀ n ∈ names, isIdentifier n = true) → ∀ (m : String) (pre : List String),
    parseProgramLoop (names.length + 1) (declProgram (m :: pre)) pre.length
        (PState.next ⟨declSource names, t⟩) =
      .ok (declProgram (m :: (pre ++ names))) := by
  induction names with
  | nil =>
    intro _ m pre
    rw [parseProgramLoop, if_neg (by simp [PState.next, declSource, getNextToken])]
    simp
  | cons n ns ih =>
    intro h m pre
    have hn := h n (List.mem_cons_self _ _)
    rw [declSource, List.length_cons, parseProgramLoop,
      if_pos (by rw [next_declSource_token]; decide),
      parseStatement_declaration _ n _ t hn, Outcome.bind_ok]
    show parseProgramLoop (ns.length + 1)
      (setLastRight pre.length (declProgram (m :: pre)) (createNode .NODE_VAR_DECL (some n)))
      (pre.length + 1) _ = _
    rw [setLastRight_declProgram]
    have := ih (fun x hx => h x (List.mem_cons_of_mem _ hx)) m (pre ++ [n])
    rw [List.length_append, List.length_singleton, List.append_assoc,
      List.singleton_append] at this
    exact this

/-- The source text `int n1;int n2;...` of declarations of identifiers parses into the
chain of their declaration nodes. -/
theorem parseProgram_declSource (names : List String)
    (h : ∀ n ∈ names, isIdentifier n = true) :
    parseProgram (declSource names) = .ok (declProgram names) := by
  have hloop : parseProgramLoop (names.length + 1) .NULL 0
      (PState.next ⟨declSource names, ⟨.TOKEN_EOF, ""⟩⟩) = .ok (declProgram names) := by
    cases names with
    | nil =>
      rw [parseProgramLoop, if_neg (by simp [PState.next, declSource, getNextToken])]
      rfl
    | cons n ns =>
      have hn := h n (List.mem_cons_self _ _)
      rw [declSource, List.length_cons, parseProgramLoop,
        if_pos (by rw [next_declSource_token]; decide),
        parseStatement_declaration _ n _ _ hn, Outcome.bind_ok]
      exact parseProgramLoop_declSource_cons _ ns
        (fun x hx => h x (List.mem_cons_of_mem _ hx)) n []
  unfold parseProgram
  rcases Nat.le_total (names.length + 1) (parseFuel (declSource names)) with hle | hle
  · exact parseProgramLoop_ok_mono hloop hle
  · rw [← parseProgramLoop_fuel_mono _ _ _ _ _ hle (parseProgram_halts _), hloop]

/-! ## Stability and capacity of the symbol table (C8, C9) -/

theorem GenState.init_WF : GenState.init.WF := ⟨rfl, by decide⟩

theorem GenState.entries_length (st : GenState) (hw : st.WF) :
    st.entries.length = st.symbolCount := by
  unfold GenState.entries
  rw [List.length_take, hw.1]
  exact Nat.min_eq_left hw.2

theorem findOrAddSymbol_known (name : String) (st : GenState) (a : Nat)
    (h : st.lookup name = some a) : findOrAddSymbol name st = .ok (a, st) :=
  (findOrAddSymbol_eq_ok _ _ _ _).mpr (Or.inl ⟨h, rfl⟩)

theorem findOrAddSymbol_new (name : String) (st : GenState) (hw : st.WF)
    (h : st.lookup name = none) (hc : st.symbolCount < 100) (hn : st.nextAddress < INT_MAX) :
    ∃ st1, findOrAddSymbol name st = .ok (st.nextAddress, st1) ∧ st1.WF ∧
      st1.entries = st.entries ++ [⟨name, st.nextAddress⟩] ∧
      st1.nextAddress = st.nextAddress + 1 ∧ st1.symbolCount = st.symbolCount + 1 := by
  refine ⟨⟨st.symbolTable.set st.symbolCount ⟨name, st.nextAddress⟩,
    st.symbolCount + 1, st.nextAddress + 1⟩, ?_, ⟨by simp [hw.1], by simp; omega⟩, ?_, rfl, rfl⟩
  · exact (findOrAddSymbol_eq_ok _ _ _ _).mpr (Or.inr ⟨h, hc, hn, rfl, rfl⟩)
  · unfold GenState.entries
    exact take_set_succ _ _ _ (by rw [hw.1]; exact hc)

theorem findOrAddSymbol_eq_overflow (name : String) (st : GenState) :
    findOrAddSymbol name st = .exit1 "Symbol table overflow\n" ↔
      st.lookup name = none ∧ 100 ≤ st.symbolCount := by
  unfold findOrAddSymbol GenState.lookup
  cases h : scanTable name st.symbolTable st.symbolCount with
  | some b => simp
  | none =>
    simp only [true_and]
    split_ifs with h1 h2
    · simp; omega
    · simp; omega
    · simp; omega

/-- The declarations of `names`, generated from globals in which addresses and
entries have advanced together: generation succeeds without output when the names
already entered and the declared ones are at most 100 in all, and stops with the
overflow diagnostic otherwise. -/
theorem generateCode_declProgram (names : List String) : ∀ st : GenState, st.WF →
    (st.entries.map Symbol.name).Nodup → st.nextAddress = st.symbolCount →
    (((st.entries.map Symbol.name).toFinset ∪ names.toFinset).card ≤ 100 →
      ∃ st1, generateCode (declProgram names) st = .ok (st1, [])) ∧
    (100 < ((st.entries.map Symbol.name).toFinset ∪ names.toFinset).card →
      generateCode (declProgram names) st = .exit1 "Symbol table overflow\n") := by
  induction names with
  | nil =>
    intro st hw hnd _
    have hcard : (st.entries.map Symbol.name).toFinset.card = st.symbolCount := by
      rw [List.toFinset_card_of_nodup hnd, List.length_map, st.entries_length hw]
    refine ⟨fun _ => ⟨st, rfl⟩, fun h => ?_⟩
    simp only [List.toFinset_nil, Finset.union_empty] at h
    have := hw.2
    omega
  | cons n ns ih =>
    intro st hw hnd hna
    have hcard : (st.entries.map Symbol.name).toFinset.card = st.symbolCount := by
      rw [List.toFinset_card_of_nodup hnd, List.length_map, st.entries_length hw]
    rw [declProgram, generateCode]
    cases hl : st.lookup n with
    | some a =>
      rw [findOrAddSymbol_known n st a hl, Outcome.bind_ok]
      have hmem : n ∈ (st.entries.map Symbol.name).toFinset := by
        rw [GenState.lookup_eq_find] at hl
        obtain ⟨x, hx, _⟩ := Option.map_eq_some'.mp hl
        have h1 := List.find?_some hx
        have h2 := List.mem_of_find?_eq_some hx
        simp only [decide_eq_true_eq] at h1
        exact List.mem_toFinset.mpr (List.mem_map.mpr ⟨x, h2, h1⟩)
      have heq : (st.entries.map Symbol.name).toFinset ∪ (n :: ns).toFinset =
          (st.entries.map Symbol.name).toFinset ∪ ns.toFinset := by
        ext x
        simp only [List.toFinset_cons, Finset.mem_union, Finset.mem_insert]
        constructor
        · rintro (h | h | h)
          · exact Or.inl h
          · exact Or.inl (h ▸ hmem)
          · exact Or.inr h
        · rintro (h | h)
          · exact Or.inl h
          · exact Or.inr (Or.inr h)
      rw [heq]
      exact ih st hw hnd hna
    | none =>
      have hnot : n ∉ (st.entries.map Symbol.name).toFinset := by
        intro hm
        obtain ⟨x, hx, hxn⟩ := List.mem_map.mp (List.mem_toFinset.mp hm)
        exact (st.lookup_eq_none_iff n).mp hl x hx hxn
      by_cases hc : st.symbolCount < 100
      · obtain ⟨st1, h1, hw1, he1, hn1, hc1⟩ :=
          findOrAddSymbol_new n st hw hl hc (by unfold INT_MAX; omega)
        rw [h1, Outcome.bind_ok]
        have hnd1 : (st1.entries.map Symbol.name).Nodup := by
          rw [he1, List.map_append]
          refine List.Nodup.append hnd (List.nodup_singleton _) ?_
          intro x hx hx2
          simp only [List.map_cons, List.map_nil, List.mem_singleton] at hx2
          subst hx2
          exact hnot (List.mem_toFinset.mpr hx)
        have heq : (st.entries.map Symbol.name).toFinset ∪ (n :: ns).toFinset =
            (st1.entries.map Symbol.name).toFinset ∪ ns.toFinset := by
          rw [he1]
          ext x
          simp only [List.toFinset_cons, Finset.mem_union, Finset.mem_insert, List.map_append,
            List.map_cons, List.map_nil, List.toFinset_append, List.toFinset_nil,
            insert_emptyc_eq, Finset.mem_singleton]
          tauto
        rw [heq]
        exact ih st1 hw1 hnd1 (by omega)
      · have hover : findOrAddSymbol n st = .exit1 "Symbol table overflow\n" :=
          (findOrAddSymbol_eq_overflow n st).mpr ⟨hl, by omega⟩
        rw [hover, Outcome.bind_exit1]
        refine ⟨fun h => ?_, fun _ => rfl⟩
        exfalso
        have hsub : insert n (st.entries.map Symbol.name).toFinset ⊆
            (st.entries.map Symbol.name).toFinset ∪ (n :: ns).toFinset := by
          intro x hx
          simp only [Finset.mem_insert] at hx
          simp only [List.toFinset_cons, Finset.mem_union, Finset.mem_insert]
          tauto
        have h2 := Finset.card_le_card hsub
        rw [Finset.card_insert_of_not_mem hnot] at h2
        omega

/-- C8: once `findOrAddSymbol` has returned the address `k` for a name, then after any
sequence of further successful `findOrAddSymbol` calls and label allocations a call
with the same name returns `k` again and leaves the globals (table, `symbolCount`,
`nextAddress`) as they were. -/
theorem findOrAddSymbol_stable (name : String) (st st1 st2 : GenState) (k : Nat)
    (steps : List GenStep) (hw : st.WF) (h : findOrAddSymbol name st = .ok (k, st1))
    (hs : runSteps steps st1 = .ok st2) : findOrAddSymbol name st2 = .ok (k, st2) := by
  obtain ⟨hw1, hl1, _⟩ := findOrAddSymbol_entries name st st1 k hw h
  obtain ⟨_, l, he⟩ := runSteps_entries steps st1 st2 hw1 hs
  exact findOrAddSymbol_known name st2 k (GenState.lookup_append st1 st2 l name k he hl1)

theorem findOrAddSymbol_stable_witness :
    GenState.init.WF ∧
      findOrAddSymbol "x" GenState.init =
        .ok (0, ⟨GenState.init.symbolTable.set 0 ⟨"x", 0⟩, 1, 1⟩) ∧
      runSteps [.label, .resolve "y", .resolve "x"]
          ⟨GenState.init.symbolTable.set 0 ⟨"x", 0⟩, 1, 1⟩ =
        .ok ⟨((GenState.init.symbolTable.set 0 ⟨"x", 0⟩).set 1 ⟨"y", 2⟩), 2, 3⟩ ∧
      findOrAddSymbol "x"
          ⟨((GenState.init.symbolTable.set 0 ⟨"x", 0⟩).set 1 ⟨"y", 2⟩), 2, 3⟩ =
        .ok (0, ⟨((GenState.init.symbolTable.set 0 ⟨"x", 0⟩).set 1 ⟨"y", 2⟩), 2, 3⟩) :=
  ⟨GenState.init_WF, by decide, by decide,
    findOrAddSymbol_stable "x" GenState.init ⟨GenState.init.symbolTable.set 0 ⟨"x", 0⟩, 1, 1⟩
      ⟨((GenState.init.symbolTable.set 0 ⟨"x", 0⟩).set 1 ⟨"y", 2⟩), 2, 3⟩ 0
      [.label, .resolve "y", .resolve "x"] GenState.init_WF (by decide) (by decide)⟩

/-- The capacity of the table: `findOrAddSymbol` stops with the diagnostic "Symbol table
overflow" exactly when the name is not in the table and the table holds 100 entries; a
name that is in the table is found also when the table is full. A program of
declarations only, of which at most 100 names are distinct, compiles, and one that
declares more than 100 distinct names stops with that diagnostic: this holds for the
chain of declaration nodes of any names and for the source text `int n1;int n2;...` of
any identifiers. -/
theorem findOrAddSymbol_overflow_iff :
    (∀ (st : GenState) (name : String), st.WF →
      (findOrAddSymbol name st = .exit1 "Symbol table overflow\n" ↔
        (∀ s ∈ st.entries, s.name ≠ name) ∧ st.symbolCount = 100)) ∧
    (∀ (st : GenState) (name : String) (s : Symbol), s ∈ st.entries → s.name = name →
      ∃ k, findOrAddSymbol name st = .ok (k, st)) ∧
    (∀ names : List String, names.toFinset.card ≤ 100 →
      ∃ st, generateCode (declProgram names) GenState.init = .ok (st, [])) ∧
    (∀ names : List String, 100 < names.toFinset.card →
      generateCode (declProgram names) GenState.init = .exit1 "Symbol table overflow\n") ∧
    (∀ names : List String, (∀ n ∈ names, isIdentifier n = true) →
      names.toFinset.card ≤ 100 → compile (declSource names) = .ok []) ∧
    (∀ names : List String, (∀ n ∈ names, isIdentifier n = true) →
      100 < names.toFinset.card →
      compile (declSource names) = .exit1 "Symbol table overflow\n") := by
  have hinit : GenState.init.entries = [] := rfl
  have hle : ∀ names : List String, names.toFinset.card ≤ 100 →
      ∃ st, generateCode (declProgram names) GenState.init = .ok (st, []) := by
    intro names h
    refine (generateCode_declProgram names GenState.init GenState.init_WF ?_ rfl).1 ?_
    · rw [hinit]; exact List.nodup_nil
    · rw [hinit]; simpa using h
  have hgt : ∀ names : List String, 100 < names.toFinset.card →
      generateCode (declProgram names) GenState.init = .exit1 "Symbol table overflow\n" := by
    intro names h
    refine (generateCode_declProgram names GenState.init GenState.init_WF ?_ rfl).2 ?_
    · rw [hinit]; exact List.nodup_nil
    · rw [hinit]; simpa using h
  refine ⟨?_, ?_, hle, hgt, ?_, ?_⟩
  · intro st name hw
    rw [findOrAddSymbol_eq_overflow, GenState.lookup_eq_none_iff]
    have := hw.2
    constructor
    · rintro ⟨h1, h2⟩; exact ⟨h1, by omega⟩
    · rintro ⟨h1, h2⟩; exact ⟨h1, by omega⟩
  · intro st name s hs hn
    cases hl : st.lookup name with
    | none => exact absurd hn ((st.lookup_eq_none_iff name).mp hl s hs)
    | some a => exact ⟨a, findOrAddSymbol_known name st a hl⟩
  · intro names hid h
    obtain ⟨st, hst⟩ := hle names h
    unfold compile
    rw [parseProgram_declSource names hid, Outcome.bind_ok]
    unfold generateAssembly
    rw [hst, Outcome.bind_ok]
  · intro names hid h
    unfold compile
    rw [parseProgram_declSource names hid, Outcome.bind_ok]
    unfold generateAssembly
    rw [hgt names h, Outcome.bind_exit1]

theorem findOrAddSymbol_overflow_iff_witness :
    (∃ k, findOrAddSymbol "x" ⟨GenState.init.symbolTable.set 0 ⟨"x", 0⟩, 1, 1⟩ =
        .ok (k, ⟨GenState.init.symbolTable.set 0 ⟨"x", 0⟩, 1, 1⟩)) ∧
      (∀ n ∈ ["a", "b2", "a"], isIdentifier n = true) ∧
      compile (declSource ["a", "b2", "a"]) = .ok [] :=
  ⟨findOrAddSymbol_overflow_iff.2.1 ⟨GenState.init.symbolTable.set 0 ⟨"x", 0⟩, 1, 1⟩ "x"
      ⟨"x", 0⟩ (by decide) rfl,
    by decide,
    findOrAddSymbol_overflow_iff.2.2.2.2.1 ["a", "b2", "a"] (by decide) (by decide)⟩

/-! ## Addresses (C7) -/

theorem firstResolved_not_mem (steps : List GenStep) : ∀ (known : List String) (n : String),
    n ∈ firstResolved known steps → n ∉ known := by
  induction steps with
  | nil => intro known n h; simp [firstResolved] at h
  | cons x rest ih =>
    intro known n h
    cases x with
    | label => exact ih known n h
    | resolve m =>
      rw [firstResolved] at h
      split_ifs at h with hm
      · exact ih known n h
      · rcases List.mem_cons.mp h with h | h
        · subst h; exact hm
        · intro hk
          exact ih (known ++ [m]) n h (List.mem_append_left _ hk)

theorem firstResolved_nodup (steps : List GenStep) : ∀ known : List String,
    (firstResolved known steps).Nodup := by
  induction steps with
  | nil => intro known; simp [firstResolved]
  | cons x rest ih =>
    intro known
    cases x with
    | label => exact ih known
    | resolve m =>
      rw [firstResolved]
      split_ifs with hm
      · exact ih known
      · refine List.nodup_cons.mpr ⟨?_, ih _⟩
        intro h
        exact firstResolved_not_mem rest _ m h (List.mem_append_right _ (List.mem_singleton.mpr rfl))

theorem mapIdx_congr_mem {α β : Type} (l : List α) (f g : Nat → α → β)
    (h : ∀ (j : Nat) (a : α), a ∈ l → f j a = g j a) : l.mapIdx f = l.mapIdx g := by
  apply List.ext_getElem
  · simp
  · intro i h1 h2
    simp only [List.getElem_mapIdx]
    exact h i _ (List.getElem_mem _)

theorem GenState.mem_names_of_lookup (st : GenState) (name : String) (a : Nat)
    (h : st.lookup name = some a) : name ∈ st.entries.map Symbol.name := by
  rw [GenState.lookup_eq_find] at h
  obtain ⟨x, hx, _⟩ := Option.map_eq_some'.mp h
  have h1 := List.find?_some hx
  simp only [decide_eq_true_eq] at h1
  exact List.mem_map.mpr ⟨x, List.mem_of_find?_eq_some hx, h1⟩

theorem GenState.not_mem_names_of_lookup (st : GenState) (name : String)
    (h : st.lookup name = none) : name ∉ st.entries.map Symbol.name := by
  intro hm
  obtain ⟨x, hx, hxn⟩ := List.mem_map.mp hm
  exact (st.lookup_eq_none_iff name).mp h x hx hxn

/-- The entries a sequence of operations adds to the table: the names it resolves
first, in that order, the `j`-th of them at the address that is the counter at the
start plus `j` plus the number of labels allocated before the name is resolved. -/
theorem runSteps_new_entries (steps : List GenStep) : ∀ st st1 : GenState, st.WF →
    runSteps steps st = .ok st1 →
    st1.entries = st.entries ++
      (firstResolved (st.entries.map Symbol.name) steps).mapIdx
        (fun j n => ⟨n, st.nextAddress + j + labelsBefore n steps⟩) := by
  induction steps with
  | nil =>
    intro st st1 _ h
    injection h with h; subst h
    simp [firstResolved]
  | cons x rest ih =>
    intro st st1 hw h
    obtain ⟨st2, h2, h⟩ := Outcome.bind_eq_ok.mp h
    cases x with
    | label =>
      obtain ⟨r, hr, h2⟩ := Outcome.bind_eq_ok.mp h2
      injection h2 with h2; subst h2
      obtain ⟨_, _, h3⟩ := (drawLabel_eq_ok st r.2 r.1).mp hr
      have hw2 : r.2.WF := by rw [h3]; exact hw
      have he2 : r.2.entries = st.entries := by rw [h3]; rfl
      have hn2 : r.2.nextAddress = st.nextAddress + 1 := by rw [h3]
      rw [ih r.2 st1 hw2 h, he2, hn2, firstResolved]
      congr 1
      apply mapIdx_congr_mem
      intro j a _
      simp only [labelsBefore]
      congr 1
      omega
    | resolve m =>
      obtain ⟨r, hr, h2⟩ := Outcome.bind_eq_ok.mp h2
      injection h2 with h2; subst h2
      rcases (findOrAddSymbol_eq_ok _ _ _ _).mp hr with ⟨hl, hst⟩ | ⟨hl, hc, hn, _, _⟩
      · have hm := st.mem_names_of_lookup m r.1 hl
        rw [ih r.2 st1 (hst ▸ hw) h, hst, firstResolved, if_pos hm]
        congr 1
        apply mapIdx_congr_mem
        intro j a ha
        have hne : m ≠ a := by
          intro heq
          exact firstResolved_not_mem rest _ a ha (heq ▸ hm)
        simp [labelsBefore, hne]
      · obtain ⟨st3, h3, hw3, he3, hn3, _⟩ := findOrAddSymbol_new m st hw hl hc hn
        rw [hr] at h3
        injection h3 with h3
        subst h3
        have hm := st.not_mem_names_of_lookup m hl
        rw [ih st3 st1 hw3 h, he3, hn3, firstResolved, if_neg hm, List.mapIdx_cons,
          List.append_assoc, List.map_append]
        congr 1
        simp only [List.map_cons, List.map_nil, List.singleton_append, labelsBefore, if_true,
          Nat.add_zero]
        congr 1
        apply mapIdx_congr_mem
        intro j a ha
        have hne : m ≠ a := by
          intro heq
          exact firstResolved_not_mem rest _ a ha
            (heq ▸ List.mem_append_right _ (List.mem_singleton.mpr rfl))
        simp only [if_neg hne]
        congr 1
        omega

theorem operands_append (a b : List Instr) : operands (a ++ b) = operands a ++ operands b := by
  simp [operands]

theorem operands_opLines (op : String) : operands (opLines op) = [] := by
  unfold opLines
  split_ifs <;> rfl

/-- The operand of every LOAD line of an expression is the address any later table of
the compilation holds for the name. -/
theorem generateExpression_operands (e : ASTNode) : ∀ (st st1 : GenState) (out : List Instr),
    st.WF → generateExpression e st = .ok (st1, out) →
    ∀ (st2 : GenState) (l : List Symbol), st2.entries = st1.entries ++ l →
      (operands out).map some = (exprNames e).map st2.lookup := by
  induction e with
  | NULL => intro st st1 out _ h; simp [generateExpression] at h
  | node t l r v ihl ihr =>
    intro st st1 out hw h st2 l2 he
    cases t with
    | NODE_NUM =>
      simp only [generateExpression, Outcome.ok.injEq, Prod.mk.injEq] at h
      rw [← h.2]
      rfl
    | NODE_VAR =>
      rw [generateExpression] at h
      obtain ⟨a, ha, h⟩ := Outcome.bind_eq_ok.mp h
      simp only [Outcome.ok.injEq, Prod.mk.injEq] at h
      obtain ⟨_, hl, _⟩ := findOrAddSymbol_entries v st a.2 a.1 hw ha
      rw [← h.2, exprNames]
      rw [h.1] at hl
      simp [operands, Instr.operand?, GenState.lookup_append st1 st2 l2 v a.1 he hl]
    | NODE_BIN_OP =>
      rw [generateExpression] at h
      obtain ⟨r1, h1, h⟩ := Outcome.bind_eq_ok.mp h
      obtain ⟨r2, h2, h⟩ := Outcome.bind_eq_ok.mp h
      simp only [Outcome.ok.injEq, Prod.mk.injEq] at h
      obtain ⟨hw1, _⟩ := runSteps_entries _ _ _ hw (generateExpression_steps _ _ _ _ h1)
      obtain ⟨_, lr, her⟩ := runSteps_entries _ _ _ hw1 (generateExpression_steps _ _ _ _ h2)
      rw [h.1] at her
      have e1 := ihl st r1.1 r1.2 hw h1 st2 (lr ++ l2) (by rw [he, her, List.append_assoc])
      have e2 := ihr r1.1 r2.1 r2.2 hw1 h2 st2 l2 (by rw [h.1]; exact he)
      rw [← h.2, exprNames]
      simp only [operands_append, operands_opLines, List.map_append, e1, e2]
      simp [operands, Instr.operand?]
    | NODE_VAR_DECL => simp [generateExpression] at h
    | NODE_ASSIGN => simp [generateExpression] at h
    | NODE_IF => simp [generateExpression] at h

/-- The operand of every LOAD and STORE line of a statement sequence is the address any
later table of the compilation holds for the name. -/
theorem generateCode_operands (n : ASTNode) : ∀ (st st1 : GenState) (out : List Instr),
    st.WF → generateCode n st = .ok (st1, out) →
    ∀ (st2 : GenState) (l : List Symbol), st2.entries = st1.entries ++ l →
      (operands out).map some = (codeNames n).map st2.lookup := by
  induction n with
  | NULL =>
    intro st st1 out _ h st2 l _
    simp only [generateCode, Outcome.ok.injEq, Prod.mk.injEq] at h
    rw [← h.2]
    rfl
  | node t l r v ihl ihr =>
    intro st st1 out hw h st2 l2 he
    cases t with
    | NODE_VAR_DECL =>
      rw [generateCode] at h
      obtain ⟨a, ha, h⟩ := Outcome.bind_eq_ok.mp h
      obtain ⟨hwa, _, _⟩ := findOrAddSymbol_entries v st a.2 a.1 hw ha
      rw [codeNames]
      exact ihr a.2 st1 out hwa h st2 l2 he
    | NODE_ASSIGN =>
      rw [generateCode] at h
      obtain ⟨a, ha, h⟩ := Outcome.bind_eq_ok.mp h
      obtain ⟨r1, h1, h⟩ := Outcome.bind_eq_ok.mp h
      obtain ⟨r2, h2, h⟩ := Outcome.bind_eq_ok.mp h
      simp only [Outcome.ok.injEq, Prod.mk.injEq] at h
      obtain ⟨hwa, hla, _⟩ := findOrAddSymbol_entries v st a.2 a.1 hw ha
      obtain ⟨hw1, l1, he1⟩ := runSteps_entries _ _ _ hwa (generateExpression_steps _ _ _ _ h1)
      obtain ⟨_, lr, her⟩ := runSteps_entries _ _ _ hw1 (generateCode_steps _ _ _ _ h2)
      rw [h.1] at her
      have e1 := generateExpression_operands l a.2 r1.1 r1.2 hwa h1 st2 (lr ++ l2)
        (by rw [he, her, List.append_assoc])
      have e2 := ihr r1.1 r2.1 r2.2 hw1 h2 st2 l2 (by rw [h.1]; exact he)
      have e3 : st2.lookup v = some a.1 :=
        GenState.lookup_append a.2 st2 (l1 ++ (lr ++ l2)) v a.1
          (by rw [he, her, he1, List.append_assoc, List.append_assoc]) hla
      rw [← h.2, codeNames]
      simp only [operands_append, List.map_append, e1, e2]
      simp [operands, Instr.operand?, e3]
    | NODE_IF =>
      rw [generateCode] at h
      obtain ⟨a, ha, h⟩ := Outcome.bind_eq_ok.mp h
      obtain ⟨r1, h1, h⟩ := Outcome.bind_eq_ok.mp h
      obtain ⟨r2, h2, h⟩ := Outcome.bind_eq_ok.mp h
      obtain ⟨r3, h3, h⟩ := Outcome.bind_eq_ok.mp h
      simp only [Outcome.ok.injEq, Prod.mk.injEq] at h
      obtain ⟨_, _, hst⟩ := (drawLabel_eq_ok st a.2 a.1).mp ha
      have hwa : a.2.WF := by rw [hst]; exact hw
      obtain ⟨hw1, _⟩ := runSteps_entries _ _ _ hwa (generateExpression_steps _ _ _ _ h1)
      obtain ⟨hw2, lb, heb⟩ := runSteps_entries _ _ _ hw1 (generateCode_steps _ _ _ _ h2)
      obtain ⟨_, lc, hec⟩ := runSteps_entries _ _ _ hw2 (generateCode_steps _ _ _ _ h3)
      rw [h.1] at hec
      have e1 := generateExpression_operands l a.2 r1.1 r1.2 hwa h1 st2 (lb ++ (lc ++ l2))
        (by rw [he, hec, heb, List.append_assoc, List.append_assoc])
      have e2 := ihr r1.1 r2.1 r2.2 hw1 h2 st2 (lc ++ l2) (by rw [he, hec, List.append_assoc])
      have e3 := ihr r2.1 r3.1 r3.2 hw2 h3 st2 l2 (by rw [h.1]; exact he)
      rw [← h.2, codeNames]
      simp only [operands_append, List.map_append, e1, e2, e3]
      simp [operands, Instr.operand?]
    | NODE_BIN_OP => simp [generateCode] at h
    | NODE_NUM => simp [generateCode] at h
    | NODE_VAR => simp [generateCode] at h

theorem find_mapIdx_nodup (l : List String) : ∀ (f : Nat → String → Nat), l.Nodup →
    ∀ (i : Nat) (hi : i < l.length),
    (l.mapIdx (fun j v => (⟨v, f j v⟩ : Symbol))).find? (fun s => decide (s.name = l[i])) =
      some ⟨l[i], f i l[i]⟩ := by
  induction l with
  | nil => intro f _ i hi; cases hi
  | cons a l ih =>
    intro f hnd i hi
    rw [List.mapIdx_cons]
    cases i with
    | zero => simp
    | succ k =>
      have hk : k < l.length := by simpa using hi
      have hne : a ≠ l[k] := by
        intro heq
        exact (List.nodup_cons.mp hnd).1 (heq ▸ List.getElem_mem _)
      simp only [List.getElem_cons_succ, List.find?_cons, hne, decide_False]
      exact ih (fun j v => f (j + 1) v) (List.nodup_cons.mp hnd).2 k hk

/-- C7, as the claim states it, fails at the program `if (x) { x = 0; }`: the label of
the `if` takes the value 0 of the counter before the condition is generated, so `x`,
the first name of the program, gets address 1, not 0, and the output begins with
LOAD 1, not LOAD 0. -/
theorem compile_if_first_name_address :
    (parseProgram "if (x) { x = 0; }".toList).bind (fun ast => generateCode ast GenState.init) =
        .ok (⟨GenState.init.symbolTable.set 0 ⟨"x", 1⟩, 1, 2⟩,
          [.LOAD 1, .JUMPZ 0, .LOADI "0", .STORE 1, .LABEL 0, .LOADI "0", .STORE 1]) ∧
      GenState.lookup ⟨GenState.init.symbolTable.set 0 ⟨"x", 1⟩, 1, 2⟩ "x" ≠ some 0 ∧
      Instr.line (.LOAD 1) ≠ "LOAD 0" := by
  decide

/-- C7, amended: when code generation of a program succeeds, the globals are those
left by its sequence of `findOrAddSymbol` calls and label allocations; the table holds
the names resolved, each once, in the order of their first resolution v0, v1, ...;
the address of vi is i plus the number of `if` labels taken from the shared counter
before vi was first resolved; the lookup of vi gives that address, and the operand of
every LOAD and STORE line is the address the table holds for its name.
For `if (x) { x = 0; }` the label is 0, `x` gets address 1 and the output begins
LOAD 1, JUMPZ ELSE_0, LOADI 0, STORE 1, ELSE_0:. -/
theorem generateCode_addresses (ast : ASTNode) (st : GenState) (out : List Instr)
    (h : generateCode ast GenState.init = .ok (st, out)) :
    runSteps (codeSteps ast) GenState.init = .ok st ∧
      (firstResolved [] (codeSteps ast)).Nodup ∧
      st.entries = (firstResolved [] (codeSteps ast)).mapIdx
        (fun i v => ⟨v, i + labelsBefore v (codeSteps ast)⟩) ∧
      (∀ (i : Nat) (hi : i < (firstResolved [] (codeSteps ast)).length),
        st.lookup ((firstResolved [] (codeSteps ast))[i]) =
          some (i + labelsBefore ((firstResolved [] (codeSteps ast))[i]) (codeSteps ast))) ∧
      (operands out).map some = (codeNames ast).map st.lookup ∧
      ((parseProgram "if (x) { x = 0; }".toList).bind
          (fun ast => (generateCode ast GenState.init).bind
            (fun r => .ok (r.1.lookup "x", (r.2.take 5).map Instr.line)))) =
        .ok (some 1, ["LOAD 1", "JUMPZ ELSE_0", "LOADI 0", "STORE 1", "ELSE_0:"]) := by
  have hsteps := generateCode_steps ast _ _ _ h
  have he := runSteps_new_entries _ _ _ GenState.init_WF hsteps
  have hinit : GenState.init.entries = [] := rfl
  have hnext : GenState.init.nextAddress = 0 := rfl
  rw [hinit, hnext] at he
  simp only [List.map_nil, List.nil_append, Nat.zero_add] at he
  have hnd := firstResolved_nodup (codeSteps ast) []
  refine ⟨hsteps, hnd, he, ?_, ?_, by decide⟩
  · intro i hi
    rw [GenState.lookup_eq_find, he, find_mapIdx_nodup _ _ hnd i hi]
    rfl
  · exact generateCode_operands ast _ _ _ GenState.init_WF h st [] (by simp)

theorem generateCode_addresses_witness :
    generateCode (.node .NODE_IF (.node .NODE_VAR .NULL .NULL "x")
          (.node .NODE_ASSIGN (.node .NODE_NUM .NULL .NULL "0") .NULL "y") "") GenState.init =
        .ok (⟨(GenState.init.symbolTable.set 0 ⟨"x", 1⟩).set 1 ⟨"y", 2⟩, 2, 3⟩,
          [.LOAD 1, .JUMPZ 0, .LOADI "0", .STORE 2, .LABEL 0, .LOADI "0", .STORE 2]) ∧
      GenState.entries ⟨(GenState.init.symbolTable.set 0 ⟨"x", 1⟩).set 1 ⟨"y", 2⟩, 2, 3⟩ =
        (firstResolved [] (codeSteps (.node .NODE_IF (.node .NODE_VAR .NULL .NULL "x")
          (.node .NODE_ASSIGN (.node .NODE_NUM .NULL .NULL "0") .NULL "y") ""))).mapIdx
        (fun i v => ⟨v, i + labelsBefore v (codeSteps (.node .NODE_IF
          (.node .NODE_VAR .NULL .NULL "x")
          (.node .NODE_ASSIGN (.node .NODE_NUM .NULL .NULL "0") .NULL "y") ""))⟩) :=
  ⟨by decide,
    (generateCode_addresses (.node .NODE_IF (.node .NODE_VAR .NULL .NULL "x")
        (.node .NODE_ASSIGN (.node .NODE_NUM .NULL .NULL "0") .NULL "y") "")
      ⟨(GenState.init.symbolTable.set 0 ⟨"x", 1⟩).set 1 ⟨"y", 2⟩, 2, 3⟩
      [.LOAD 1, .JUMPZ 0, .LOADI "0", .STORE 2, .LABEL 0, .LOADI "0", .STORE 2]
      (by decide)).2.2.1⟩

/-! ## The lexer (C13, C14, C15) -/

/-- The loops of `getNextToken` on a run `cs` of characters that satisfy `p`, followed
by the end of the stream or a character that does not: the text grows by the characters
of the run up to 99 in all, and the whole run is consumed. -/
theorem scanWhile_maximal (p : Char → Bool) (rest : List Char)
    (hrest : ∀ d, rest.head? = some d → p d = false) :
    ∀ (cs text : List Char), (∀ x ∈ cs, p x = true) → text.length ≤ 99 →
    scanWhile p text (cs ++ rest) = (text ++ cs.take (99 - text.length), rest) := by
  intro cs
  induction cs with
  | nil =>
    intro text _ _
    cases rest with
    | nil => simp [scanWhile]
    | cons d r => simp [scanWhile, hrest d rfl]
  | cons c cs ih =>
    intro text hp hl
    rw [List.cons_append, scanWhile, if_pos (hp c (List.mem_cons_self _ _))]
    by_cases hlt : text.length < MAX_TOKEN_LEN - 1
    · have hlt2 : text.length < 99 := hlt
      rw [if_pos hlt, ih _ (fun x hx => hp x (List.mem_cons_of_mem _ hx))
        (by simp only [List.length_append, List.length_singleton]; omega)]
      have e : 99 - text.length = (99 - (text ++ [c]).length) + 1 := by
        simp only [List.length_append, List.length_singleton]; omega
      rw [e, List.take_succ_cons]
      simp
    · have hge : ¬ text.length < 99 := hlt
      rw [if_neg hlt, ih _ (fun x hx => hp x (List.mem_cons_of_mem _ hx)) hl]
      have e : 99 - text.length = 0 := by omega
      rw [e]
      simp

theorem getNextToken_skip (skipped file : List Char)
    (h : ∀ c ∈ skipped, isSkipped c = true) :
    getNextToken (skipped ++ file) = getNextToken file := by
  induction skipped with
  | nil => rfl
  | cons c cs ih =>
    have hc := h c (List.mem_cons_self _ _)
    have ih2 := ih (fun x hx => h x (List.mem_cons_of_mem _ hx))
    rw [List.cons_append, getNextToken]
    by_cases hs : isspace c = true
    · rw [if_pos hs, ih2]
    · simp only [isSkipped, hs, Bool.false_or, Bool.and_eq_true, Bool.not_eq_true', isSymbol,
        Bool.or_eq_false_iff, decide_eq_false_iff_not] at hc
      obtain ⟨⟨h1, h2⟩, ⟨⟨⟨⟨⟨⟨⟨a1, a2⟩, a3⟩, a4⟩, a5⟩, a6⟩, a7⟩, a8⟩⟩ := hc
      rw [if_neg hs, if_neg (by rw [h1]; decide), if_neg (by rw [h2]; decide), if_neg a1,
        if_neg a2, if_neg a3, if_neg a4, if_neg a5, if_neg a6, if_neg a7, if_neg a8, ih2]

/-- C13: when the next character that is not skipped is a letter that starts a maximal
run `w` of letters and digits, `getNextToken` returns a token whose text is the first
min(|w|, 99) characters of `w`, leaves the stream at the first character after `w`
(also when `w` was cut), and gives the token the kind of the keyword `int` exactly when
the text is "int", of the keyword `if` exactly when it is "if", and of an identifier
in every other case. -/
theorem getNextToken_identifier_run (skipped cs rest : List Char) (c : Char)
    (hs : ∀ x ∈ skipped, isSkipped x = true) (hc : isalpha c = true)
    (hcs : ∀ x ∈ cs, isalnum x = true)
    (hrest : ∀ d, rest.head? = some d → isalnum d = false) :
    (getNextToken (skipped ++ (c :: cs) ++ rest)).1.text = String.mk ((c :: cs).take 99) ∧
      (getNextToken (skipped ++ (c :: cs) ++ rest)).1.text.length = min (c :: cs).length 99 ∧
      (getNextToken (skipped ++ (c :: cs) ++ rest)).2 = rest ∧
      ((getNextToken (skipped ++ (c :: cs) ++ rest)).1.type = .TOKEN_INT ↔
        (getNextToken (skipped ++ (c :: cs) ++ rest)).1.text = "int") ∧
      ((getNextToken (skipped ++ (c :: cs) ++ rest)).1.type = .TOKEN_IF ↔
        (getNextToken (skipped ++ (c :: cs) ++ rest)).1.text = "if") ∧
      ((getNextToken (skipped ++ (c :: cs) ++ rest)).1.type = .TOKEN_IDENTIFIER ↔
        (getNextToken (skipped ++ (c :: cs) ++ rest)).1.text ≠ "int" ∧
        (getNextToken (skipped ++ (c :: cs) ++ rest)).1.text ≠ "if") := by
  have hscan := scanWhile_maximal isalnum rest hrest cs [c] hcs (by simp)
  have htake : [c] ++ cs.take (99 - [c].length) = (c :: cs).take 99 := by simp
  rw [htake] at hscan
  have hlen : (String.mk ((c :: cs).take 99)).length = min (c :: cs).length 99 := by
    show ((c :: cs).take 99).length = _
    rw [List.length_take, Nat.min_comm]
  rw [List.append_assoc, getNextToken_skip skipped _ hs, List.cons_append, getNextToken,
    if_neg (by rw [isspace_of_isalpha c hc]; decide), if_pos hc]
  simp only [hscan]
  generalize String.mk ((c :: cs).take 99) = text at hlen ⊢
  by_cases h1 : text = "int"
  · rw [if_pos h1]
    refine ⟨rfl, hlen, rfl, ?_, ?_, ?_⟩
    · simp [h1]
    · simp only [reduceCtorEq, false_iff]; rw [h1]; decide
    · simp [h1]
  · rw [if_neg h1]
    by_cases h2 : text = "if"
    · rw [if_pos h2]
      refine ⟨rfl, hlen, rfl, ?_, ?_, ?_⟩
      · simp [h1]
      · simp [h2]
      · simp [h2]
    · rw [if_neg h2]
      refine ⟨rfl, hlen, rfl, ?_, ?_, ?_⟩
      · simp [h1]
      · simp [h2]
      · simp [h1, h2]

theorem getNextToken_identifier_run_witness :
    (∀ x ∈ [' ', '$', '\n'], isSkipped x = true) ∧ isalpha 'i' = true ∧
      (∀ x ∈ ['n', 't', '9'], isalnum x = true) ∧
      (∀ d, ['+', 'x'].head? = some d → isalnum d = false) ∧
      (getNextToken ([' ', '$', '\n'] ++ ('i' :: ['n', 't', '9']) ++ ['+', 'x'])).1.text =
        String.mk (('i' :: ['n', 't', '9']).take 99) ∧
      (getNextToken ([' ', '$', '\n'] ++ ('i' :: ['n', 't', '9']) ++ ['+', 'x'])).2 =
        ['+', 'x'] :=
  ⟨by decide, by decide, by decide, by decide,
    (getNextToken_identifier_run [' ', '$', '\n'] ['n', 't', '9'] ['+', 'x'] 'i'
      (by decide) (by decide) (by decide) (by decide)).1,
    (getNextToken_identifier_run [' ', '$', '\n'] ['n', 't', '9'] ['+', 'x'] 'i'
      (by decide) (by decide) (by decide) (by decide)).2.2.1⟩

/-- C14: when the next character that is not skipped is `=`: if the character after it
is `=` too, `getNextToken` returns the equality token with text "==" and consumes
both; otherwise it returns the assignment token with text "=" and leaves the stream at
the character it looked at, so that the next call starts there; when `=` was the last
character the stream is left empty and the next call returns end-of-input. -/
theorem getNextToken_assign_or_equal (skipped rest : List Char)
    (hs : ∀ x ∈ skipped, isSkipped x = true) :
    getNextToken (skipped ++ '=' :: '=' :: rest) = (⟨.TOKEN_EQUAL, "=="⟩, rest) ∧
      (rest.head? ≠ some '=' →
        getNextToken (skipped ++ '=' :: rest) = (⟨.TOKEN_ASSIGN, "="⟩, rest)) ∧
      getNextToken (skipped ++ ['=']) = (⟨.TOKEN_ASSIGN, "="⟩, []) ∧
      getNextToken [] = (⟨.TOKEN_EOF, ""⟩, []) := by
  refine ⟨?_, ?_, ?_, rfl⟩
  · rw [getNextToken_skip skipped _ hs, getNextToken, if_neg (by decide), if_neg (by decide),
      if_neg (by decide), if_pos rfl, if_pos (by simp)]
    rfl
  · intro h
    rw [getNextToken_skip skipped _ hs, getNextToken, if_neg (by decide), if_neg (by decide),
      if_neg (by decide), if_pos rfl, if_neg h]
  · rw [getNextToken_skip skipped _ hs, getNextToken, if_neg (by decide), if_neg (by decide),
      if_neg (by decide), if_pos rfl, if_neg (by simp)]

theorem getNextToken_assign_or_equal_witness :
    (∀ x ∈ ['\t', '#'], isSkipped x = true) ∧
      getNextToken (['\t', '#'] ++ '=' :: '=' :: ['1']) = (⟨.TOKEN_EQUAL, "=="⟩, ['1']) ∧
      getNextToken (['\t', '#'] ++ '=' :: ['1', ';']) = (⟨.TOKEN_ASSIGN, "="⟩, ['1', ';']) :=
  ⟨by decide, (getNextToken_assign_or_equal ['\t', '#'] ['1'] (by decide)).1,
    (getNextToken_assign_or_equal ['\t', '#'] ['1', ';'] (by decide)).2.1 (by decide)⟩

theorem blankUnrecognised_eq_self (c : Char) (h : isRecognised c = true) :
    blankUnrecognised c = c := by
  unfold blankUnrecognised
  rw [if_pos h]

theorem blankUnrecognised_eq_space (c : Char) (h : isRecognised c = false) :
    blankUnrecognised c = ' ' := by
  unfold blankUnrecognised
  rw [if_neg (by rw [h]; decide)]

theorem scanWhile_map_blank (p : Char → Bool) (hp : ∀ c, p c = true → isRecognised c = true)
    (hspace : p ' ' = false) : ∀ (file text : List Char),
    scanWhile p text (file.map blankUnrecognised) =
      ((scanWhile p text file).1, (scanWhile p text file).2.map blankUnrecognised) := by
  intro file
  induction file with
  | nil => intro text; rfl
  | cons c file ih =>
    intro text
    by_cases hc : p c = true
    · rw [List.map_cons, blankUnrecognised_eq_self c (hp c hc), scanWhile, scanWhile,
        if_pos hc, if_pos hc, ih]
    · by_cases hr : isRecognised c = true
      · rw [List.map_cons, blankUnrecognised_eq_self c hr, scanWhile, scanWhile,
          if_neg hc, if_neg hc]
        simp [blankUnrecognised_eq_self c hr]
      · have hr2 : isRecognised c = false := by simpa using hr
        rw [List.map_cons, blankUnrecognised_eq_space c hr2, scanWhile, scanWhile,
          if_neg hc, if_neg (by rw [hspace]; decide)]
        simp [blankUnrecognised_eq_space c hr2]

theorem isRecognised_of_not (c : Char) (h1 : isspace c = false) (h2 : isalpha c = false)
    (h3 : isdigit c = false) (h4 : isSymbol c = false) : isRecognised c = false := by
  unfold isRecognised
  have : isalnum c = false := by
    show (c.isAlpha || c.isDigit) = false
    rw [Bool.or_eq_false_iff]
    exact ⟨h2, h3⟩
  rw [h1, this, h4]
  rfl

theorem head_map_blank (file : List Char) :
    (file.map blankUnrecognised).head? = some '=' ↔ file.head? = some '=' := by
  cases file with
  | nil => simp
  | cons d r =>
    simp only [List.map_cons, List.head?_cons, Option.some.injEq]
    by_cases hr : isRecognised d = true
    · rw [blankUnrecognised_eq_self d hr]
    · have hr2 : isRecognised d = false := by simpa using hr
      rw [blankUnrecognised_eq_space d hr2]
      constructor
      · intro h; exact absurd h (by decide)
      · intro h; subst h; exact absurd hr2 (by decide)

/-- One call of `getNextToken` on the input with unrecognised characters blanked: the
same token, and the rest of the stream blanked. -/
theorem getNextToken_map_blank (file : List Char) :
    getNextToken (file.map blankUnrecognised) =
      ((getNextToken file).1, (getNextToken file).2.map blankUnrecognised) := by
  induction file with
  | nil => rfl
  | cons c file ih =>
    by_cases c1 : isspace c = true
    · have hr : isRecognised c = true := by simp [isRecognised, c1]
      rw [List.map_cons, blankUnrecognised_eq_self c hr, getNextToken, if_pos c1, ih,
        getNextToken, if_pos c1]
    by_cases c2 : isalpha c = true
    · have hr : isRecognised c = true := by
        have : isalnum c = true := by
          show (c.isAlpha || c.isDigit) = true
          rw [show c.isAlpha = true from c2]; rfl
        simp [isRecognised, this]
      have hscan := scanWhile_map_blank isalnum
        (fun x hx => by simp [isRecognised, hx]) (by decide) file [c]
      rw [List.map_cons, blankUnrecognised_eq_self c hr, getNextToken, if_neg c1, if_pos c2,
        getNextToken, if_neg c1, if_pos c2]
      simp only [hscan]
      split_ifs <;> rfl
    by_cases c3 : isdigit c = true
    · have hr : isRecognised c = true := by
        have : isalnum c = true := by
          show (c.isAlpha || c.isDigit) = true
          rw [show c.isDigit = true from c3]; simp
        simp [isRecognised, this]
      have hscan := scanWhile_map_blank isdigit
        (fun x hx => by
          have : isalnum x = true := by
            show (x.isAlpha || x.isDigit) = true
            rw [show x.isDigit = true from hx]; simp
          simp [isRecognised, this]) (by decide) file [c]
      rw [List.map_cons, blankUnrecognised_eq_self c hr, getNextToken, if_neg c1, if_neg c2,
        if_pos c3, getNextToken, if_neg c1, if_neg c2, if_pos c3]
      simp only [hscan]
    by_cases c4 : isSymbol c = true
    · have hr : isRecognised c = true := by simp [isRecognised, c4]
      rw [List.map_cons, blankUnrecognised_eq_self c hr, getNextToken, if_neg c1, if_neg c2,
        if_neg c3, getNextToken, if_neg c1, if_neg c2, if_neg c3]
      by_cases e1 : c = '='
      · rw [if_pos e1, if_pos e1]
        by_cases hh : file.head? = some '='
        · rw [if_pos hh, if_pos ((head_map_blank file).mpr hh)]
          simp
        · rw [if_neg hh, if_neg (fun h => hh ((head_map_blank file).mp h))]
      · rw [if_neg e1, if_neg e1]
        simp only [isSymbol, e1, decide_False, Bool.false_or, Bool.or_eq_true,
          decide_eq_true_eq] at c4
        split_ifs
        all_goals first
          | rfl
          | (exfalso; tauto)
    · have h1 : isspace c = false := by simpa using c1
      have h2 : isalpha c = false := by simpa using c2
      have h3 : isdigit c = false := by simpa using c3
      have h4 : isSymbol c = false := by simpa using c4
      have hr := isRecognised_of_not c h1 h2 h3 h4
      simp only [isSymbol, Bool.or_eq_false_iff, decide_eq_false_iff_not] at h4
      obtain ⟨⟨⟨⟨⟨⟨⟨a1, a2⟩, a3⟩, a4⟩, a5⟩, a6⟩, a7⟩, a8⟩ := h4
      rw [List.map_cons, blankUnrecognised_eq_space c hr, getNextToken, if_pos (by decide), ih,
        getNextToken, if_neg c1, if_neg c2, if_neg c3, if_neg a1, if_neg a2, if_neg a3,
        if_neg a4, if_neg a5, if_neg a6, if_neg a7, if_neg a8]

theorem lexAll_map_blank (n : Nat) : ∀ file : List Char,
    lexAll n (file.map blankUnrecognised) = lexAll n file := by
  induction n with
  | zero => intro file; rfl
  | succ n ih =>
    intro file
    rw [lexAll, lexAll, getNextToken_map_blank]
    split_ifs with h
    · rfl
    · rw [ih]

theorem getNextToken_not_unknown (file : List Char) :
    (getNextToken file).1.type ≠ .TOKEN_UNKNOWN := by
  induction file with
  | nil => simp [getNextToken]
  | cons c file ih =>
    rw [getNextToken]
    by_cases c1 : isspace c = true
    · rw [if_pos c1]; exact ih
    rw [if_neg c1]
    by_cases c2 : isalpha c = true
    · rw [if_pos c2]
      dsimp only
      split_ifs <;> exact fun h => TokenType.noConfusion h
    rw [if_neg c2]
    by_cases c3 : isdigit c = true
    · rw [if_pos c3]
      exact fun h => TokenType.noConfusion h
    rw [if_neg c3]
    split_ifs
    all_goals first
      | exact ih
      | exact fun h => TokenType.noConfusion h

theorem lexAll_not_unknown (n : Nat) : ∀ file : List Char, ∀ t ∈ lexAll n file,
    t.type ≠ .TOKEN_UNKNOWN := by
  induction n with
  | zero => intro file t h; simp [lexAll] at h
  | succ n ih =>
    intro file t h
    rw [lexAll] at h
    split_ifs at h with h1
    · simp at h
    · rcases List.mem_cons.mp h with h | h
      · rw [h]; exact getNextToken_not_unknown file
      · exact ih _ t h

/-- C15: `getNextToken` returns a token on every input, never one of the unknown kind,
and the token sequence of an input is the token sequence of the input in which every
unrecognised character (not whitespace, letter, digit or one of `= + - { } ( ) ;`) is
replaced by a space; the sequence ends with the same end-of-input token with empty
text. -/
theorem tokens_blankUnrecognised :
    (∀ file : List Char, (getNextToken file).1.type ≠ .TOKEN_UNKNOWN) ∧
      (∀ file : List Char, ∀ t ∈ tokens file, t.type ≠ .TOKEN_UNKNOWN) ∧
      (∀ file : List Char, tokens (file.map blankUnrecognised) = tokens file) ∧
      (∀ file : List Char, tokens (file.map blankUnrecognised) ++ [⟨.TOKEN_EOF, ""⟩] =
        tokens file ++ [⟨.TOKEN_EOF, ""⟩]) ∧
      getNextToken [] = (⟨.TOKEN_EOF, ""⟩, []) := by
  have h : ∀ file : List Char, tokens (file.map blankUnrecognised) = tokens file := by
    intro file
    unfold tokens
    rw [List.length_map, lexAll_map_blank]
  exact ⟨getNextToken_not_unknown, fun file => lexAll_not_unknown _ file, h,
    fun file => by rw [h], rfl⟩

/-! ## Stack balance of expression code (C20) -/

theorem count_take_eq_zero (ops : List Instr) (x : Instr) (m : Nat) (h : x ∉ ops) :
    (ops.take m).count x = 0 :=
  List.count_eq_zero.mpr (fun hm => h (List.mem_of_mem_take hm))

/-- Code of the shape `a, PUSH, b, POP, op`: if no prefix of `a` and none of `b` has more
POP than PUSH lines, none of the whole has. -/
theorem prefix_balanced_binop (o1 o2 ops : List Instr)
    (h1 : ∀ k, (o1.take k).count Instr.POP ≤ (o1.take k).count Instr.PUSH)
    (h2 : ∀ k, (o2.take k).count Instr.POP ≤ (o2.take k).count Instr.PUSH)
    (hops : Instr.POP ∉ ops) :
    ∀ k, ((o1 ++ [Instr.PUSH] ++ o2 ++ [Instr.POP] ++ ops).take k).count Instr.POP ≤
      ((o1 ++ [Instr.PUSH] ++ o2 ++ [Instr.POP] ++ ops).take k).count Instr.PUSH := by
  intro k
  have e : o1 ++ [Instr.PUSH] ++ o2 ++ [Instr.POP] ++ ops =
      o1 ++ (Instr.PUSH :: (o2 ++ (Instr.POP :: ops))) := by
    simp
  rw [e, List.take_append_eq_append_take, List.count_append, List.count_append]
  have a1 := h1 k
  cases hj : k - o1.length with
  | zero => simp; exact a1
  | succ j =>
    rw [List.take_succ_cons, List.take_append_eq_append_take]
    have a2 := h2 j
    cases hm : j - o2.length with
    | zero =>
      simp only [List.take_zero, List.append_nil, List.count_cons, List.count_append]
      simp
      omega
    | succ m =>
      rw [List.take_succ_cons]
      have a3 := count_take_eq_zero ops Instr.POP m hops
      simp only [List.count_cons, List.count_append, a3]
      simp
      omega

theorem opLines_of_operator (op : String) (h : op = "+" ∨ op = "-") :
    opLines op = [.ADD] ∨ opLines op = [.SUB] := by
  rcases h with h | h <;> subst h
  · left; rfl
  · right; rfl

/-- C20: for an expression tree of literals, variable references and "+"/"-"
operations, the lines `generateExpression` writes contain as many PUSH as POP lines,
one of each for every binary-operation node; no prefix of the output has more POP than
PUSH lines; and the number of lines is the number of leaves plus three times the number
of binary-operation nodes. -/
theorem generateExpression_stack_balanced (e : ASTNode) : ∀ (st st1 : GenState)
    (out : List Instr), isExpression e = true → generateExpression e st = .ok (st1, out) →
    out.count Instr.PUSH = binOpCount e ∧ out.count Instr.POP = binOpCount e ∧
      (∀ k, (out.take k).count Instr.POP ≤ (out.take k).count Instr.PUSH) ∧
      out.length = leafCount e + 3 * binOpCount e := by
  induction e with
  | NULL => intro st st1 out h; simp [isExpression] at h
  | node t l r v ihl ihr =>
    intro st st1 out he h
    cases t with
    | NODE_NUM =>
      simp only [generateExpression, Outcome.ok.injEq, Prod.mk.injEq] at h
      rw [← h.2]
      refine ⟨rfl, rfl, ?_, rfl⟩
      intro k
      cases k <;> simp
    | NODE_VAR =>
      rw [generateExpression] at h
      obtain ⟨a, _, h⟩ := Outcome.bind_eq_ok.mp h
      simp only [Outcome.ok.injEq, Prod.mk.injEq] at h
      rw [← h.2]
      refine ⟨rfl, rfl, ?_, rfl⟩
      intro k
      cases k <;> simp
    | NODE_BIN_OP =>
      simp only [isExpression, Bool.and_eq_true, Bool.or_eq_true, decide_eq_true_eq] at he
      obtain ⟨⟨hop, hl⟩, hr⟩ := he
      rw [generateExpression] at h
      obtain ⟨r1, h1, h⟩ := Outcome.bind_eq_ok.mp h
      obtain ⟨r2, h2, h⟩ := Outcome.bind_eq_ok.mp h
      simp only [Outcome.ok.injEq, Prod.mk.injEq] at h
      obtain ⟨b1, b2, b3, b4⟩ := ihl _ _ _ hl h1
      obtain ⟨c1, c2, c3, c4⟩ := ihr _ _ _ hr h2
      rw [← h.2]
      have hops := opLines_of_operator v hop
      refine ⟨?_, ?_, ?_, ?_⟩
      · rcases hops with ho | ho <;> rw [ho] <;>
          simp [List.count_append, List.count_cons, b1, c1, binOpCount] <;> omega
      · rcases hops with ho | ho <;> rw [ho] <;>
          simp [List.count_append, List.count_cons, b2, c2, binOpCount] <;> omega
      · apply prefix_balanced_binop _ _ _ b3 c3
        rcases hops with ho | ho <;> rw [ho] <;> simp
      · rcases hops with ho | ho <;> rw [ho] <;>
          simp [b4, c4, binOpCount, leafCount] <;> omega
    | NODE_VAR_DECL => simp [isExpression] at he
    | NODE_ASSIGN => simp [isExpression] at he
    | NODE_IF => simp [isExpression] at he

theorem generateExpression_stack_balanced_witness :
    isExpression (.node .NODE_BIN_OP
        (.node .NODE_BIN_OP (.node .NODE_NUM .NULL .NULL "3") (.node .NODE_VAR .NULL .NULL "x") "-")
        (.node .NODE_NUM .NULL .NULL "1") "+") = true ∧
      generateExpression (.node .NODE_BIN_OP
          (.node .NODE_BIN_OP (.node .NODE_NUM .NULL .NULL "3")
            (.node .NODE_VAR .NULL .NULL "x") "-")
          (.node .NODE_NUM .NULL .NULL "1") "+") GenState.init =
        .ok (⟨GenState.init.symbolTable.set 0 ⟨"x", 0⟩, 1, 1⟩,
          [.LOADI "3", .PUSH, .LOAD 0, .POP, .SUB, .PUSH, .LOADI "1", .POP, .ADD]) ∧
      List.length [Instr.LOADI "3", .PUSH, .LOAD 0, .POP, .SUB, .PUSH, .LOADI "1", .POP, .ADD] =
        leafCount (.node .NODE_BIN_OP
          (.node .NODE_BIN_OP (.node .NODE_NUM .NULL .NULL "3")
            (.node .NODE_VAR .NULL .NULL "x") "-")
          (.node .NODE_NUM .NULL .NULL "1") "+") +
        3 * binOpCount (.node .NODE_BIN_OP
          (.node .NODE_BIN_OP (.node .NODE_NUM .NULL .NULL "3")
            (.node .NODE_VAR .NULL .NULL "x") "-")
          (.node .NODE_NUM .NULL .NULL "1") "+") :=
  ⟨by decide, by decide,
    (generateExpression_stack_balanced _ GenState.init
      ⟨GenState.init.symbolTable.set 0 ⟨"x", 0⟩, 1, 1⟩
      [.LOADI "3", .PUSH, .LOAD 0, .POP, .SUB, .PUSH, .LOADI "1", .POP, .ADD]
      (by decide) (by decide)).2.2.2⟩

/-! ## Freshness of labels (C17) -/

theorem FreshIn.nil (n : Nat) : FreshIn n n [] [] :=
  ⟨List.nodup_nil, fun _ h => absurd h (List.not_mem_nil _),
    fun _ h => absurd h (List.not_mem_nil _)⟩

theorem FreshIn.append {lo mid hi : Nat} {l1 l2 a1 a2 : List Nat}
    (h1 : FreshIn lo mid l1 a1) (h2 : FreshIn mid hi l2 a2) (hlo : lo ≤ mid)
    (hhi : mid ≤ hi) : FreshIn lo hi (l1 ++ l2) (a1 ++ a2) := by
  obtain ⟨n1, r1, f1⟩ := h1
  obtain ⟨n2, r2, f2⟩ := h2
  refine ⟨?_, ?_, ?_⟩
  · refine List.Nodup.append n1 n2 ?_
    intro k hk1 hk2
    have := (r1 k hk1).2
    have := (r2 k hk2).1
    omega
  · intro k hk
    rcases List.mem_append.mp hk with hk | hk
    · have := r1 k hk; omega
    · have := r2 k hk; omega
  · intro a ha
    rcases List.mem_append.mp ha with ha | ha
    · obtain ⟨b1, b2, b3⟩ := f1 a ha
      refine ⟨b1, by omega, ?_⟩
      intro hm
      rcases List.mem_append.mp hm with hm | hm
      · exact b3 hm
      · have := (r2 a hm).1; omega
    · obtain ⟨b1, b2, b3⟩ := f2 a ha
      refine ⟨by omega, b2, ?_⟩
      intro hm
      rcases List.mem_append.mp hm with hm | hm
      · have := (r1 a hm).2; omega
      · exact b3 hm

theorem FreshIn.perm {lo hi : Nat} {l1 l2 a : List Nat} (h : FreshIn lo hi l1 a)
    (hp : l1.Perm l2) : FreshIn lo hi l2 a := by
  obtain ⟨n1, r1, f1⟩ := h
  refine ⟨hp.nodup_iff.mp n1, fun k hk => r1 k (hp.mem_iff.mpr hk), ?_⟩
  intro x hx
  obtain ⟨b1, b2, b3⟩ := f1 x hx
  exact ⟨b1, b2, fun hm => b3 (hp.mem_iff.mpr hm)⟩

theorem FreshIn.label (n : Nat) : FreshIn n (n + 1) [n] [] :=
  ⟨List.nodup_singleton n, fun k hk => by rw [List.mem_singleton.mp hk]; omega,
    fun _ h => absurd h (List.not_mem_nil _)⟩

theorem FreshIn.address (n : Nat) : FreshIn n (n + 1) [] [n] :=
  ⟨List.nodup_nil, fun _ h => absurd h (List.not_mem_nil _),
    fun a ha => by rw [List.mem_singleton.mp ha]; exact ⟨Nat.le_refl _, by omega, List.not_mem_nil _⟩⟩

/-- A call of `findOrAddSymbol` that returns: at most one entry is added, with the value
of the counter as address, and the counter does not go down. -/
theorem findOrAddSymbol_fresh (name : String) (st st1 : GenState) (a : Nat) (hw : st.WF)
    (h : findOrAddSymbol name st = .ok (a, st1)) :
    st1.WF ∧ st.nextAddress ≤ st1.nextAddress ∧
      ∃ l, st1.entries = st.entries ++ l ∧
        FreshIn st.nextAddress st1.nextAddress [] (l.map Symbol.address) := by
  rcases (findOrAddSymbol_eq_ok _ _ _ _).mp h with ⟨_, rfl⟩ | ⟨hl, hc, hn, _, _⟩
  · exact ⟨hw, Nat.le_refl _, [], by simp, FreshIn.nil _⟩
  · obtain ⟨st3, h3, hw3, he3, hn3, _⟩ := findOrAddSymbol_new name st hw hl hc hn
    rw [h] at h3
    injection h3 with h3
    injection h3 with _ h3
    subst h3
    refine ⟨hw3, by omega, _, he3, ?_⟩
    rw [hn3]
    exact FreshIn.address _

theorem labelDefs_append (a b : List Instr) : labelDefs (a ++ b) = labelDefs a ++ labelDefs b := by
  simp [labelDefs]

/-- An expression draws no label; the entries it adds take their addresses from the
counter. -/
theorem generateExpression_fresh (e : ASTNode) : ∀ (st st1 : GenState) (out : List Instr),
    st.WF → generateExpression e st = .ok (st1, out) →
    labelDefs out = [] ∧ st1.WF ∧ st.nextAddress ≤ st1.nextAddress ∧
      ∃ l, st1.entries = st.entries ++ l ∧
        FreshIn st.nextAddress st1.nextAddress [] (l.map Symbol.address) := by
  induction e with
  | NULL => intro st st1 out _ h; simp [generateExpression] at h
  | node t l r v ihl ihr =>
    intro st st1 out hw h
    cases t with
    | NODE_NUM =>
      simp only [generateExpression, Outcome.ok.injEq, Prod.mk.injEq] at h
      rw [← h.1, ← h.2]
      exact ⟨rfl, hw, Nat.le_refl _, [], by simp, FreshIn.nil _⟩
    | NODE_VAR =>
      rw [generateExpression] at h
      obtain ⟨a, ha, h⟩ := Outcome.bind_eq_ok.mp h
      simp only [Outcome.ok.injEq, Prod.mk.injEq] at h
      rw [← h.1, ← h.2]
      exact ⟨rfl, findOrAddSymbol_fresh v st a.2 a.1 hw ha⟩
    | NODE_BIN_OP =>
      rw [generateExpression] at h
      obtain ⟨r1, h1, h⟩ := Outcome.bind_eq_ok.mp h
      obtain ⟨r2, h2, h⟩ := Outcome.bind_eq_ok.mp h
      simp only [Outcome.ok.injEq, Prod.mk.injEq] at h
      obtain ⟨a1, a2, a3, l1, a4, a5⟩ := ihl _ _ _ hw h1
      obtain ⟨b1, b2, b3, l2, b4, b5⟩ := ihr _ _ _ a2 h2
      rw [← h.1, ← h.2]
      refine ⟨?_, b2, by omega, l1 ++ l2, by rw [b4, a4, List.append_assoc], ?_⟩
      · simp only [labelDefs_append, a1, b1, List.nil_append, List.append_nil]
        unfold opLines
        split_ifs <;> rfl
      · rw [List.map_append]
        exact FreshIn.append a5 b5 a3 b3
    | NODE_VAR_DECL => simp [generateExpression] at h
    | NODE_ASSIGN => simp [generateExpression] at h
    | NODE_IF => simp [generateExpression] at h

/-- The label numbers of the label-definition lines of a run of `generateCode` and the
addresses of the entries it adds are all drawn from the counter, each value once. -/
theorem generateCode_fresh (n : ASTNode) : ∀ (st st1 : GenState) (out : List Instr),
    st.WF → generateCode n st = .ok (st1, out) →
    st1.WF ∧ st.nextAddress ≤ st1.nextAddress ∧
      ∃ l, st1.entries = st.entries ++ l ∧
        FreshIn st.nextAddress st1.nextAddress (labelDefs out) (l.map Symbol.address) := by
  induction n with
  | NULL =>
    intro st st1 out hw h
    simp only [generateCode, Outcome.ok.injEq, Prod.mk.injEq] at h
    rw [← h.1, ← h.2]
    exact ⟨hw, Nat.le_refl _, [], by simp, FreshIn.nil _⟩
  | node t l r v ihl ihr =>
    intro st st1 out hw h
    cases t with
    | NODE_VAR_DECL =>
      rw [generateCode] at h
      obtain ⟨a, ha, h⟩ := Outcome.bind_eq_ok.mp h
      obtain ⟨a2, a3, l1, a4, a5⟩ := findOrAddSymbol_fresh v st a.2 a.1 hw ha
      obtain ⟨b2, b3, l2, b4, b5⟩ := ihr _ _ _ a2 h
      refine ⟨b2, by omega, l1 ++ l2, by rw [b4, a4, List.append_assoc], ?_⟩
      rw [List.map_append]
      have := FreshIn.append a5 b5 a3 b3
      rwa [List.nil_append] at this
    | NODE_ASSIGN =>
      rw [generateCode] at h
      obtain ⟨a, ha, h⟩ := Outcome.bind_eq_ok.mp h
      obtain ⟨r1, h1, h⟩ := Outcome.bind_eq_ok.mp h
      obtain ⟨r2, h2, h⟩ := Outcome.bind_eq_ok.mp h
      simp only [Outcome.ok.injEq, Prod.mk.injEq] at h
      obtain ⟨a2, a3, l1, a4, a5⟩ := findOrAddSymbol_fresh v st a.2 a.1 hw ha
      obtain ⟨c1, c2, c3, l2, c4, c5⟩ := generateExpression_fresh l _ _ _ a2 h1
      obtain ⟨b2, b3, l3, b4, b5⟩ := ihr _ _ _ c2 h2
      rw [← h.1, ← h.2]
      refine ⟨b2, by omega, l1 ++ l2 ++ l3,
        by rw [b4, c4, a4, List.append_assoc, List.append_assoc, List.append_assoc], ?_⟩
      have e : labelDefs (r1.2 ++ [Instr.STORE a.1] ++ r2.2) = [] ++ [] ++ labelDefs r2.2 := by
        simp only [labelDefs_append, c1, List.nil_append]
        rfl
      rw [e, List.map_append, List.map_append]
      exact FreshIn.append (FreshIn.append a5 c5 a3 c3) b5 (by omega) b3
    | NODE_IF =>
      rw [generateCode] at h
      obtain ⟨a, ha, h⟩ := Outcome.bind_eq_ok.mp h
      obtain ⟨r1, h1, h⟩ := Outcome.bind_eq_ok.mp h
      obtain ⟨r2, h2, h⟩ := Outcome.bind_eq_ok.mp h
      obtain ⟨r3, h3, h⟩ := Outcome.bind_eq_ok.mp h
      simp only [Outcome.ok.injEq, Prod.mk.injEq] at h
      obtain ⟨_, hk, hst⟩ := (drawLabel_eq_ok st a.2 a.1).mp ha
      have hwa : a.2.WF := by rw [hst]; exact hw
      have hea : a.2.entries = st.entries := by rw [hst]; rfl
      have hna : a.2.nextAddress = st.nextAddress + 1 := by rw [hst]
      obtain ⟨c1, c2, c3, l1, c4, c5⟩ := generateExpression_fresh l _ _ _ hwa h1
      obtain ⟨b2, b3, l2, b4, b5⟩ := ihr _ _ _ c2 h2
      obtain ⟨d2, d3, l3, d4, d5⟩ := ihr _ _ _ b2 h3
      rw [← h.1, ← h.2]
      refine ⟨d2, by omega, l1 ++ l2 ++ l3,
        by rw [d4, b4, c4, hea]; simp only [List.append_assoc], ?_⟩
      have hlab := FreshIn.label st.nextAddress
      rw [← hna] at hlab
      have hall := FreshIn.append (FreshIn.append (FreshIn.append hlab c5 (by omega) c3)
        b5 (by omega) b3) d5 (by omega) d3
      have e : labelDefs (r1.2 ++ [Instr.JUMPZ a.1] ++ r2.2 ++ [Instr.LABEL a.1] ++ r3.2) =
          labelDefs r2.2 ++ [st.nextAddress] ++ labelDefs r3.2 := by
        simp only [labelDefs_append, c1, List.nil_append, hk]
        rfl
      rw [e, List.map_append, List.map_append]
      simp only [List.nil_append, List.append_nil] at hall
      refine hall.perm ?_
      exact List.Perm.append_right _ List.perm_append_comm
    | NODE_BIN_OP => simp [generateCode] at h
    | NODE_NUM => simp [generateCode] at h
    | NODE_VAR => simp [generateCode] at h

/-- C17: in every run of `generateCode` that returns, started from globals in which
all addresses in the table are below the counter (as at program start), the counter
does not go down, no two label-definition lines `ELSE_k:` of the output carry the same
number, every label number was a value of the counter during the run, and no label
number is the address of a symbol in the table after the run. -/
theorem generateCode_labels_fresh (ast : ASTNode) (st st1 : GenState) (out : List Instr)
    (hw : st.WF) (hold : ∀ s ∈ st.entries, s.address < st.nextAddress)
    (h : generateCode ast st = .ok (st1, out)) :
    st.nextAddress ≤ st1.nextAddress ∧ (labelDefs out).Nodup ∧
      (∀ k ∈ labelDefs out, st.nextAddress ≤ k ∧ k < st1.nextAddress) ∧
      (∀ k ∈ labelDefs out, ∀ s ∈ st1.entries, s.address ≠ k) := by
  obtain ⟨_, hle, l, he, hnd, hr, hf⟩ := generateCode_fresh ast st st1 out hw h
  refine ⟨hle, hnd, hr, ?_⟩
  intro k hk s hs heq
  rw [he] at hs
  rcases List.mem_append.mp hs with hs | hs
  · have := hold s hs
    have := (hr k hk).1
    omega
  · exact (hf s.address (List.mem_map.mpr ⟨s, hs, rfl⟩)).2.2 (heq ▸ hk)

theorem generateCode_labels_fresh_witness :
    GenState.init.WF ∧
      (∀ s ∈ GenState.init.entries, s.address < GenState.init.nextAddress) ∧
      generateCode (.node .NODE_IF (.node .NODE_VAR .NULL .NULL "x")
          (.node .NODE_IF (.node .NODE_VAR .NULL .NULL "y") .NULL "") "") GenState.init =
        .ok (⟨(GenState.init.symbolTable.set 0 ⟨"x", 1⟩).set 1 ⟨"y", 3⟩, 2, 5⟩,
          [.LOAD 1, .JUMPZ 0, .LOAD 3, .JUMPZ 2, .LABEL 2, .LABEL 0,
            .LOAD 3, .JUMPZ 4, .LABEL 4]) ∧
      (labelDefs [Instr.LOAD 1, .JUMPZ 0, .LOAD 3, .JUMPZ 2, .LABEL 2, .LABEL 0,
        .LOAD 3, .JUMPZ 4, .LABEL 4]).Nodup :=
  ⟨GenState.init_WF, by decide, by decide,
    (generateCode_labels_fresh (.node .NODE_IF (.node .NODE_VAR .NULL .NULL "x")
        (.node .NODE_IF (.node .NODE_VAR .NULL .NULL "y") .NULL "") "") GenState.init
      ⟨(GenState.init.symbolTable.set 0 ⟨"x", 1⟩).set 1 ⟨"y", 3⟩, 2, 5⟩
      [.LOAD 1, .JUMPZ 0, .LOAD 3, .JUMPZ 2, .LABEL 2, .LABEL 0, .LOAD 3, .JUMPZ 4, .LABEL 4]
      GenState.init_WF (by decide) (by decide)).2.1⟩

/-! ## The trees of the parser: what it returns is the tree of the grammar -/

theorem PState.pendingTokens_next (s : PState) (h : s.token.type ≠ .TOKEN_EOF) :
    s.pendingTokens = s.token :: s.next.pendingTokens := by
  unfold PState.pendingTokens PState.next
  rw [if_neg h, tokens_unfold]

theorem PState.pendingTokens_of_eof (s : PState) (h : s.token.type = .TOKEN_EOF) :
    s.pendingTokens = [] := by
  unfold PState.pendingTokens
  rw [if_pos h]

theorem PState.pendingTokens_head (s : PState) (t : Token) (r : List Token)
    (h : s.pendingTokens = t :: r) :
    s.token = t ∧ t.type ≠ .TOKEN_EOF ∧ s.next.pendingTokens = r := by
  by_cases he : s.token.type = .TOKEN_EOF
  · rw [s.pendingTokens_of_eof he] at h; cases h
  · rw [s.pendingTokens_next he] at h
    injection h with h1 h2
    exact ⟨h1, h1 ▸ he, h2⟩

theorem pendingTokens_initial (file : List Char) :
    (PState.next ⟨file, ⟨.TOKEN_EOF, ""⟩⟩).pendingTokens = tokens file := by
  unfold PState.pendingTokens PState.next
  rw [tokens_unfold file]

theorem parseExpression_builds : ∀ fuel : Nat,
    (∀ s n s1, parseFactor fuel s = .ok (n, s1) →
      ∃ ts, Builds .factor ts n ∧ s.pendingTokens = ts ++ s1.pendingTokens) ∧
    (∀ acc s n s1, parseTermLoop fuel acc s = .ok (n, s1) →
      ∃ ts, Builds (.termTail acc) ts n ∧ s.pendingTokens = ts ++ s1.pendingTokens) ∧
    (∀ s n s1, parseTerm fuel s = .ok (n, s1) →
      ∃ ts, Builds .term ts n ∧ s.pendingTokens = ts ++ s1.pendingTokens) ∧
    (∀ s n s1, parseExpression fuel s = .ok (n, s1) →
      ∃ ts, Builds .expression ts n ∧ s.pendingTokens = ts ++ s1.pendingTokens) := by
  intro fuel
  induction fuel with
  | zero => simp [parseFactor, parseTermLoop, parseTerm, parseExpression]
  | succ fuel ih =>
    obtain ⟨ihF, ihL, ihT, ihE⟩ := ih
    refine ⟨?_, ?_, ?_, ?_⟩
    · intro s n s1 h
      rw [parseFactor] at h
      split_ifs at h with h1 h2 h3
      · injection h with h; injection h with hn h; subst h; subst hn
        exact ⟨_, .factorNumber s.token h1, s.pendingTokens_next (by rw [h1]; decide)⟩
      · injection h with h; injection h with hn h; subst h; subst hn
        exact ⟨_, .factorIdentifier s.token h2, s.pendingTokens_next (by rw [h2]; decide)⟩
      · obtain ⟨r, hr, h⟩ := Outcome.bind_eq_ok.mp h
        split_ifs at h with h4
        injection h with h; injection h with hn h; subst h; subst hn
        obtain ⟨te, hte, hp⟩ := ihE _ _ _ hr
        have h4 : r.2.token.type = .TOKEN_RPAREN := by simpa using h4
        refine ⟨_, .factorParen s.token r.2.token h3 h4 hte, ?_⟩
        rw [s.pendingTokens_next (by rw [h3]; decide), hp,
          r.2.pendingTokens_next (by rw [h4]; decide)]
        simp
    · intro acc s n s1 h
      rw [parseTermLoop] at h
      split_ifs at h with h1
      · obtain ⟨r, hr, h⟩ := Outcome.bind_eq_ok.mp h
        obtain ⟨tf, htf, hpf⟩ := ihF _ _ _ hr
        obtain ⟨tl, htl, hpl⟩ := ihL _ _ _ _ h
        refine ⟨_, .termTailCons acc s.token h1 htf htl, ?_⟩
        rw [s.pendingTokens_next (by rcases h1 with h1 | h1 <;> rw [h1] <;> decide), hpf, hpl]
        simp
      · injection h with h; injection h with hn h; subst h; subst hn
        exact ⟨[], .termTailNil acc, rfl⟩
    · intro s n s1 h
      rw [parseTerm] at h
      obtain ⟨r, hr, h⟩ := Outcome.bind_eq_ok.mp h
      obtain ⟨tf, htf, hpf⟩ := ihF _ _ _ hr
      obtain ⟨tl, htl, hpl⟩ := ihL _ _ _ _ h
      exact ⟨_, .term htf htl, by rw [hpf, hpl]; simp⟩
    · intro s n s1 h
      rw [parseExpression] at h
      obtain ⟨tt, htt, hp⟩ := ihT _ _ _ h
      exact ⟨_, .expression htt, hp⟩

theorem parseVarDecl_builds (s : PState) (n : ASTNode) (s1 : PState)
    (h : parseVarDecl s = .ok (n, s1)) :
    s.token.type = .TOKEN_IDENTIFIER ∧ s.next.token.type = .TOKEN_SEMICOLON ∧
      n = .node .NODE_VAR_DECL .NULL .NULL s.token.text ∧
      s.pendingTokens = s.token :: s.next.token :: s1.pendingTokens := by
  unfold parseVarDecl at h
  dsimp only at h
  split_ifs at h with h1 h2
  injection h with h; injection h with hn h; subst h; subst hn
  have h1 : s.token.type = .TOKEN_IDENTIFIER := by simpa using h1
  have h2 : s.next.token.type = .TOKEN_SEMICOLON := by simpa using h2
  refine ⟨h1, h2, rfl, ?_⟩
  rw [s.pendingTokens_next (by rw [h1]; decide), s.next.pendingTokens_next (by rw [h2]; decide)]

theorem parseAssign_builds (fuel : Nat) (s : PState) (n : ASTNode) (s1 : PState)
    (hs : s.token.type = .TOKEN_IDENTIFIER) (h : parseAssign fuel s = .ok (n, s1)) :
    ∃ ts, Builds .statement ts n ∧ s.pendingTokens = ts ++ s1.pendingTokens := by
  unfold parseAssign at h
  dsimp only at h
  split_ifs at h with h1
  have h1 : s.next.token.type = .TOKEN_ASSIGN := by simpa using h1
  obtain ⟨r, hr, h⟩ := Outcome.bind_eq_ok.mp h
  split_ifs at h with h2
  have h2 : r.2.token.type = .TOKEN_SEMICOLON := by simpa using h2
  injection h with h; injection h with hn h; subst h; subst hn
  obtain ⟨e, he, hp⟩ := (parseExpression_builds fuel).2.2.2 _ _ _ hr
  refine ⟨_, .assign s.token s.next.token r.2.token hs h1 h2 he, ?_⟩
  rw [s.pendingTokens_next (by rw [hs]; decide), s.next.pendingTokens_next (by rw [h1]; decide),
    hp, r.2.pendingTokens_next (by rw [h2]; decide)]
  simp

theorem parseStatement_builds : ∀ fuel : Nat,
    (∀ s n s1, parseIf fuel s = .ok (n, s1) →
      ∃ (lp rp lb rb : Token) (e b : List Token) (cond body : ASTNode),
        lp.type = .TOKEN_LPAREN ∧ rp.type = .TOKEN_RPAREN ∧ lb.type = .TOKEN_LBRACE ∧
        rb.type = .TOKEN_RBRACE ∧ Builds .expression e cond ∧ Builds .statement b body ∧
        n = .node .NODE_IF cond body "" ∧
        s.pendingTokens = lp :: e ++ rp :: lb :: b ++ rb :: s1.pendingTokens) ∧
    (∀ s n s1, parseStatement fuel s = .ok (n, s1) →
      ∃ ts, Builds .statement ts n ∧ s.pendingTokens = ts ++ s1.pendingTokens) := by
  intro fuel
  induction fuel with
  | zero => simp [parseIf, parseStatement]
  | succ fuel ih =>
    obtain ⟨ihI, ihS⟩ := ih
    refine ⟨?_, ?_⟩
    · intro s n s1 h
      rw [parseIf] at h
      split_ifs at h with h1
      have h1 : s.token.type = .TOKEN_LPAREN := by simpa using h1
      obtain ⟨c, hc, h⟩ := Outcome.bind_eq_ok.mp h
      dsimp only at h
      split_ifs at h with h2 h3
      have h2 : c.2.token.type = .TOKEN_RPAREN := by simpa using h2
      have h3 : c.2.next.token.type = .TOKEN_LBRACE := by simpa using h3
      obtain ⟨b, hb, h⟩ := Outcome.bind_eq_ok.mp h
      split_ifs at h with h4
      have h4 : b.2.token.type = .TOKEN_RBRACE := by simpa using h4
      injection h with h; injection h with hn h; subst h; subst hn
      obtain ⟨e, he, hpe⟩ := (parseExpression_builds fuel).2.2.2 _ _ _ hc
      obtain ⟨tb, htb, hpb⟩ := ihS _ _ _ hb
      refine ⟨s.token, c.2.token, c.2.next.token, b.2.token, e, tb, c.1, b.1,
        h1, h2, h3, h4, he, htb, rfl, ?_⟩
      rw [s.pendingTokens_next (by rw [h1]; decide), hpe,
        c.2.pendingTokens_next (by rw [h2]; decide),
        c.2.next.pendingTokens_next (by rw [h3]; decide), hpb,
        b.2.pendingTokens_next (by rw [h4]; decide)]
      simp
    · intro s n s1 h
      rw [parseStatement] at h
      split_ifs at h with h1 h2 h3
      · obtain ⟨a1, a2, a3, a4⟩ := parseVarDecl_builds _ _ _ h
        subst a3
        refine ⟨_, Builds.varDecl s.token s.next.token s.next.next.token h1 a1 a2, ?_⟩
        rw [s.pendingTokens_next (by rw [h1]; decide), a4]
        rfl
      · obtain ⟨lp, rp, lb, rb, e, b, cond, body, a1, a2, a3, a4, he, hb, hn, hp⟩ :=
          ihI _ _ _ h
        subst hn
        refine ⟨_, Builds.ifStmt s.token lp rp lb rb h2 a1 a2 a3 a4 he hb, ?_⟩
        rw [s.pendingTokens_next (by rw [h2]; decide), hp]
        simp
      · exact parseAssign_builds _ _ _ _ h3 h

theorem Builds.statement_node {ts : List Token} {n : ASTNode} (h : Builds .statement ts n) :
    n ≠ .NULL ∧ 0 < ts.length := by
  cases h <;> simp

theorem linkStatements_ne_null (stmts : List ASTNode) (hne : stmts ≠ [])
    (h : ∀ x ∈ stmts, x ≠ ASTNode.NULL) : linkStatements stmts ≠ .NULL := by
  cases stmts with
  | nil => exact absurd rfl hne
  | cons a rest =>
    have ha := h a (List.mem_cons_self _ _)
    cases rest with
    | nil => exact ha
    | cons b rest =>
      cases a with
      | NULL => exact absurd rfl ha
      | node t l r v => simp [linkStatements, ASTNode.setRight]

theorem setLastRight_linkStatements (n : ASTNode) : ∀ (stmts : List ASTNode), stmts ≠ [] →
    (∀ x ∈ stmts, x ≠ ASTNode.NULL) →
    setLastRight (stmts.length - 1) (linkStatements stmts) n = linkStatements (stmts ++ [n]) := by
  intro stmts
  induction stmts with
  | nil => intro h; exact absurd rfl h
  | cons a rest ih =>
    intro _ h
    have ha := h a (List.mem_cons_self _ _)
    cases rest with
    | nil => rfl
    | cons b rest =>
      cases a with
      | NULL => exact absurd rfl ha
      | node t l r v =>
        have := ih (by simp) (fun x hx => h x (List.mem_cons_of_mem _ hx))
        simp only [List.length_cons, Nat.add_sub_cancel] at this
        simp only [List.length_cons, Nat.add_sub_cancel, linkStatements, ASTNode.setRight,
          setLastRight, List.cons_append]
        rw [this]
        rfl

/-- The loop of `parseProgram`, entered with the statements parsed so far linked into
`program`: it returns the tree that links these and the statements still to come. -/
theorem parseProgramLoop_builds : ∀ (fuel : Nat) (stmts : List ASTNode) (s : PState)
    (ast : ASTNode), (∀ x ∈ stmts, x ≠ ASTNode.NULL) →
    parseProgramLoop fuel (linkStatements stmts) (stmts.length - 1) s = .ok ast →
    ∃ more, BuildsProgram s.pendingTokens more ∧ ast = linkStatements (stmts ++ more) := by
  intro fuel
  induction fuel with
  | zero => simp [parseProgramLoop]
  | succ fuel ih =>
    intro stmts s ast hnn h
    rw [parseProgramLoop] at h
    split_ifs at h with h1
    · obtain ⟨r, hr, h⟩ := Outcome.bind_eq_ok.mp h
      obtain ⟨ts, hts, hp⟩ := (parseStatement_builds fuel).2 _ _ _ hr
      have hrn := hts.statement_node.1
      have hnn2 : ∀ x ∈ stmts ++ [r.1], x ≠ ASTNode.NULL := by
        intro x hx
        rcases List.mem_append.mp hx with hx | hx
        · exact hnn x hx
        · rw [List.mem_singleton.mp hx]; exact hrn
      have hlen : (stmts ++ [r.1]).length - 1 = stmts.length := by simp
      cases hprog : linkStatements stmts with
      | NULL =>
        have hnil : stmts = [] := by
          by_contra hne
          exact linkStatements_ne_null stmts hne hnn hprog
        subst hnil
        rw [hprog] at h
        have h' : parseProgramLoop fuel (linkStatements ([] ++ [r.1]))
            (([] ++ [r.1] : List ASTNode).length - 1) r.2 = .ok ast := h
        obtain ⟨more, hm, hast⟩ := ih _ _ _ hnn2 h'
        exact ⟨r.1 :: more, hp ▸ .cons hts hm, by rw [hast]; rfl⟩
      | node t l rr v =>
        have hne : stmts ≠ [] := by
          intro hnil; subst hnil; cases hprog
        rw [hprog] at h
        have hset := setLastRight_linkStatements r.1 stmts hne hnn
        rw [hprog] at hset
        have hlast : stmts.length - 1 + 1 = (stmts ++ [r.1]).length - 1 := by
          have : 0 < stmts.length := List.length_pos.mpr hne
          simp; omega
        have h' : parseProgramLoop fuel (linkStatements (stmts ++ [r.1]))
            ((stmts ++ [r.1]).length - 1) r.2 = .ok ast := by
          rw [← hset, ← hlast]; exact h
        obtain ⟨more, hm, hast⟩ := ih _ _ _ hnn2 h'
        exact ⟨r.1 :: more, hp ▸ .cons hts hm, by rw [hast]; simp⟩
    · have h1 : s.token.type = .TOKEN_EOF := by simpa using h1
      injection h with h
      rw [s.pendingTokens_of_eof h1]
      exact ⟨[], .nil, by rw [← h]; simp⟩

/-- The tree `parseProgram` returns is the linked sequence of the trees the grammar
assigns to the statements of the input. -/
theorem parseProgram_builds (file : List Char) (ast : ASTNode)
    (h : parseProgram file = .ok ast) :
    ∃ stmts, BuildsProgram (tokens file) stmts ∧ ast = linkStatements stmts := by
  unfold parseProgram at h
  have h' : parseProgramLoop (parseFuel file) (linkStatements [])
      (([] : List ASTNode).length - 1) (PState.next ⟨file, ⟨.TOKEN_EOF, ""⟩⟩) = .ok ast := h
  obtain ⟨more, hm, hast⟩ := parseProgramLoop_builds _ [] _ _ (by simp) h'
  rw [pendingTokens_initial] at hm
  exact ⟨more, hm, by rw [hast]; rfl⟩

/-! ## The trees of the parser: the tree of the grammar is what it returns -/

theorem PState.token_not_operator (s : PState) (rest : List Token)
    (hp : s.pendingTokens = rest)
    (hr : ∀ t, rest.head? = some t → t.type ≠ .TOKEN_PLUS ∧ t.type ≠ .TOKEN_MINUS) :
    ¬ (s.token.type = .TOKEN_PLUS ∨ s.token.type = .TOKEN_MINUS) := by
  by_cases he : s.token.type = .TOKEN_EOF
  · rw [he]; decide
  · rw [s.pendingTokens_next he] at hp
    have := hr s.token (by rw [← hp]; rfl)
    tauto

theorem Builds.produces {p : Phrase} {ts : List Token} {n : ASTNode} (h : Builds p ts n) :
    Produces p ts n := by
  induction h with
  | factorNumber t ht =>
    intro s rest hp
    obtain ⟨h1, _, q1⟩ := s.pendingTokens_head _ _ hp
    subst h1
    exact ⟨1, s.next, by rw [parseFactor, if_pos ht]; rfl, q1⟩
  | factorIdentifier t ht =>
    intro s rest hp
    obtain ⟨h1, _, q1⟩ := s.pendingTokens_head _ _ hp
    subst h1
    exact ⟨1, s.next, by rw [parseFactor, if_neg (by rw [ht]; decide), if_pos ht]; rfl, q1⟩
  | @factorParen lp rp e n hl hr _ ihe =>
    intro s rest hp
    simp only [List.cons_append, List.append_assoc, List.singleton_append] at hp
    obtain ⟨h1, _, q1⟩ := s.pendingTokens_head _ _ hp
    subst h1
    obtain ⟨f, s1, he, q2⟩ := ihe _ _ q1 (by simp [hr])
    obtain ⟨h2, _, q3⟩ := s1.pendingTokens_head _ _ q2
    subst h2
    refine ⟨f + 1, s1.next, ?_, q3⟩
    rw [parseFactor, if_neg (by rw [hl]; decide), if_neg (by rw [hl]; decide), if_pos hl, he]
    simp [hr]
  | termTailNil acc =>
    intro s rest hp hr
    rw [List.nil_append] at hp
    refine ⟨1, s, ?_, hp⟩
    rw [parseTermLoop, if_neg (s.token_not_operator rest hp hr)]
  | @termTailCons acc op f r right n hop _ _ ihf ihr =>
    intro s rest hp hr
    simp only [List.cons_append, List.append_assoc] at hp
    obtain ⟨h1, _, q1⟩ := s.pendingTokens_head _ _ hp
    subst h1
    obtain ⟨f1, s1, hf1, q2⟩ := ihf s.next _ q1
    obtain ⟨f2, s2, h2, q3⟩ := ihr s1 rest q2 hr
    refine ⟨max f1 f2 + 1, s2, ?_, q3⟩
    rw [parseTermLoop, if_pos hop]
    dsimp only
    rw [parseFactor_ok_mono hf1 (le_max_left _ _)]
    exact parseTermLoop_ok_mono h2 (le_max_right _ _)
  | @term f r first n _ _ ihf ihr =>
    intro s rest hp hr
    rw [List.append_assoc] at hp
    obtain ⟨f1, s1, h1, q1⟩ := ihf s _ hp
    obtain ⟨f2, s2, h2, q2⟩ := ihr s1 rest q1 hr
    refine ⟨max f1 f2 + 1, s2, ?_, q2⟩
    rw [parseTerm, parseFactor_ok_mono h1 (le_max_left _ _)]
    exact parseTermLoop_ok_mono h2 (le_max_right _ _)
  | expression _ ih =>
    intro s rest hp hr
    obtain ⟨f, s1, h, q1⟩ := ih s rest hp hr
    exact ⟨f + 1, s1, by rw [parseExpression]; exact h, q1⟩
  | varDecl kw id sc hk hi hs =>
    intro s rest hp
    obtain ⟨h1, _, q1⟩ := s.pendingTokens_head _ _ hp
    obtain ⟨h2, _, q2⟩ := s.next.pendingTokens_head _ _ q1
    obtain ⟨h3, _, q3⟩ := s.next.next.pendingTokens_head _ _ q2
    subst h1 h2 h3
    refine ⟨1, s.next.next.next, ?_, q3⟩
    rw [parseStatement, if_pos hk]
    unfold parseVarDecl
    simp [hi, hs, createNode]
  | @assign id eq sc e n hi he hs _ ihe =>
    intro s rest hp
    simp only [List.cons_append, List.append_assoc, List.singleton_append] at hp
    obtain ⟨h1, _, q1⟩ := s.pendingTokens_head _ _ hp
    obtain ⟨h2, _, q2⟩ := s.next.pendingTokens_head _ _ q1
    subst h1 h2
    obtain ⟨f, s1, hex, q3⟩ := ihe _ _ q2 (by simp [hs])
    obtain ⟨h3, _, q4⟩ := s1.pendingTokens_head _ _ q3
    subst h3
    refine ⟨f + 1, s1.next, ?_, q4⟩
    rw [parseStatement, if_neg (by rw [hi]; decide), if_neg (by rw [hi]; decide), if_pos hi]
    unfold parseAssign
    simp [he, hex, hs, createNode, ASTNode.setLeft]
  | @ifStmt kw lp rp lb rb e b cond body hk hl hr hlb hrb _ _ ihe ihb =>
    intro s rest hp
    simp only [List.cons_append, List.append_assoc, List.singleton_append] at hp
    obtain ⟨h1, _, q1⟩ := s.pendingTokens_head _ _ hp
    obtain ⟨h2, _, q2⟩ := s.next.pendingTokens_head _ _ q1
    subst h1 h2
    obtain ⟨fe, s1, hex, q3⟩ := ihe _ _ q2 (by simp [hr])
    obtain ⟨h3, _, q4⟩ := s1.pendingTokens_head _ _ q3
    obtain ⟨h4, _, q5⟩ := s1.next.pendingTokens_head _ _ q4
    subst h3 h4
    obtain ⟨fb, s2, hb, q6⟩ := ihb _ _ q5
    obtain ⟨h5, _, q7⟩ := s2.pendingTokens_head _ _ q6
    subst h5
    refine ⟨max fe fb + 2, s2.next, ?_, q7⟩
    rw [parseStatement, if_neg (by rw [hk]; decide), if_pos hk, parseIf]
    simp [hl, parseExpression_ok_mono hex (le_max_left fe fb), hr, hlb,
      parseStatement_ok_mono hb (le_max_right fe fb), hrb, createNode, ASTNode.setLeft,
      ASTNode.setRight]

theorem parseProgramLoop_produces {ts : List Token} {more : List ASTNode}
    (h : BuildsProgram ts more) : ∀ (stmts : List ASTNode) (s : PState),
    (∀ x ∈ stmts, x ≠ ASTNode.NULL) → s.pendingTokens = ts →
    ∃ fuel, parseProgramLoop fuel (linkStatements stmts) (stmts.length - 1) s =
      .ok (linkStatements (stmts ++ more)) := by
  induction h with
  | nil =>
    intro stmts s _ hp
    refine ⟨1, ?_⟩
    have he : s.token.type = .TOKEN_EOF := by
      by_contra hne
      rw [s.pendingTokens_next hne] at hp
      cases hp
    rw [parseProgramLoop, if_neg (by simpa using he)]
    simp
  | @cons st p n ns hs _ ih =>
    intro stmts s hnn hp
    obtain ⟨f1, s1, h1, hp1⟩ := hs.produces s p hp
    have hne : s.token.type ≠ .TOKEN_EOF := by
      intro he
      have := hs.statement_node.2
      rw [s.pendingTokens_of_eof he] at hp
      have := congrArg List.length hp
      simp at this
      omega
    have hrn := hs.statement_node.1
    have hnn2 : ∀ x ∈ stmts ++ [n], x ≠ ASTNode.NULL := by
      intro x hx
      rcases List.mem_append.mp hx with hx | hx
      · exact hnn x hx
      · rw [List.mem_singleton.mp hx]; exact hrn
    obtain ⟨f2, h2⟩ := ih (stmts ++ [n]) s1 hnn2 hp1
    rw [List.append_assoc, List.singleton_append] at h2
    refine ⟨max f1 f2 + 1, ?_⟩
    rw [parseProgramLoop, if_pos hne, parseStatement_ok_mono h1 (le_max_left _ _),
      Outcome.bind_ok]
    cases hprog : linkStatements stmts with
    | NULL =>
      have hnil : stmts = [] := by
        by_contra hne2
        exact linkStatements_ne_null stmts hne2 hnn hprog
      subst hnil
      exact parseProgramLoop_ok_mono h2 (le_max_right _ _)
    | node t l rr v =>
      have hne2 : stmts ≠ [] := by
        intro hnil; subst hnil; cases hprog
      have hset := setLastRight_linkStatements n stmts hne2 hnn
      rw [hprog] at hset
      have hlast : stmts.length - 1 + 1 = (stmts ++ [n]).length - 1 := by
        have : 0 < stmts.length := List.length_pos.mpr hne2
        simp; omega
      show parseProgramLoop (max f1 f2)
        (setLastRight (stmts.length - 1) (ASTNode.node t l rr v) n) (stmts.length - 1 + 1) s1 = _
      rw [hset, hlast]
      exact parseProgramLoop_ok_mono h2 (le_max_right _ _)

/-- An input whose tokens are a sequence of statements is parsed into the linked
sequence of the trees of the statements. -/
theorem parseProgram_produces (file : List Char) (stmts : List ASTNode)
    (h : BuildsProgram (tokens file) stmts) :
    parseProgram file = .ok (linkStatements stmts) := by
  obtain ⟨fuel, hok⟩ := parseProgramLoop_produces h [] _ (by simp) (pendingTokens_initial file)
  have hok' : parseProgramLoop fuel .NULL 0 (PState.next ⟨file, ⟨.TOKEN_EOF, ""⟩⟩) =
      .ok (linkStatements stmts) := hok
  unfold parseProgram
  rcases Nat.le_total fuel (parseFuel file) with hle | hle
  · exact parseProgramLoop_ok_mono hok' hle
  · rw [← parseProgramLoop_fuel_mono _ _ _ _ _ hle (parseProgram_halts file), hok']

/-! ## Left-associative terms (C12) -/

theorem getNextToken_operator_text (file : List Char) :
    ((getNextToken file).1.type = .TOKEN_PLUS → (getNextToken file).1.text = "+") ∧
      ((getNextToken file).1.type = .TOKEN_MINUS → (getNextToken file).1.text = "-") := by
  induction file with
  | nil => simp [getNextToken]
  | cons c file ih =>
    rw [getNextToken]
    by_cases c1 : isspace c = true
    · rw [if_pos c1]; exact ih
    rw [if_neg c1]
    by_cases c2 : isalpha c = true
    · rw [if_pos c2]
      dsimp only
      split_ifs <;> exact ⟨fun h => h.elim, fun h => h.elim⟩
    rw [if_neg c2]
    by_cases c3 : isdigit c = true
    · rw [if_pos c3]
      refine ⟨fun h => ?_, fun h => ?_⟩ <;>
        first | exact h.elim | exact TokenType.noConfusion h
    rw [if_neg c3]
    split_ifs
    all_goals first
      | exact ih
      | (refine ⟨fun h => ?_, fun h => ?_⟩ <;> first | rfl | exact h.elim)

theorem tokens_operator_text_aux (n : Nat) : ∀ file : List Char, ∀ t ∈ lexAll n file,
    (t.type = .TOKEN_PLUS → t.text = "+") ∧ (t.type = .TOKEN_MINUS → t.text = "-") := by
  induction n with
  | zero => intro file t h; simp [lexAll] at h
  | succ n ih =>
    intro file t h
    rw [lexAll] at h
    split_ifs at h with h1
    · simp at h
    · rcases List.mem_cons.mp h with h | h
      · rw [h]; exact getNextToken_operator_text file
      · exact ih _ t h

/-- The operator tokens of the lexer carry the texts "+" and "-". -/
theorem tokens_operator_text (file : List Char) : ∀ t ∈ tokens file,
    (t.type = .TOKEN_PLUS → t.text = "+") ∧ (t.type = .TOKEN_MINUS → t.text = "-") :=
  tokens_operator_text_aux _ file

theorem Builds.chain (items : List TermItem) : ∀ first : ASTNode,
    (∀ it ∈ items, (it.op.type = .TOKEN_PLUS ∨ it.op.type = .TOKEN_MINUS) ∧
      Builds .factor it.tokens it.tree) →
    Builds (.termTail first) (chainTokens items) (leftNested first items) := by
  induction items with
  | nil => intro first _; exact .termTailNil first
  | cons it rest ih =>
    intro first h
    obtain ⟨hop, hf⟩ := h it (List.mem_cons_self _ _)
    exact .termTailCons first it.op hop hf
      (ih _ (fun x hx => h x (List.mem_cons_of_mem _ hx)))

/-- C12: on an expression `F0 op1 F1 ... opn Fn` of factors `Fi` with trees `ti` and
operators `+` or `-` (followed by a token that is not an operator), `parseTerm`, given
enough fuel, returns the left-nested tree BinOp(opn, BinOp(..., BinOp(op1, t0, t1) ...),
tn), each node with the text of its own operator token, which for tokens of the lexer is
"+" or "-"; `int x; x = 3 - 1 - 1;` compiles to LOADI 3, PUSH, LOADI 1, POP, SUB, PUSH,
LOADI 1, POP, SUB, STORE 0. -/
theorem parseTerm_left_nested (f0 : List Token) (first : ASTNode) (items : List TermItem)
    (s : PState) (rest : List Token) (h0 : Builds .factor f0 first)
    (hitems : ∀ it ∈ items, (it.op.type = .TOKEN_PLUS ∨ it.op.type = .TOKEN_MINUS) ∧
      Builds .factor it.tokens it.tree)
    (hp : s.pendingTokens = f0 ++ chainTokens items ++ rest)
    (hrest : ∀ t, rest.head? = some t → t.type ≠ .TOKEN_PLUS ∧ t.type ≠ .TOKEN_MINUS) :
    (∃ fuel s1, (∀ more, fuel ≤ more →
        parseTerm more s = .ok (leftNested first items, s1)) ∧ s1.pendingTokens = rest) ∧
      (∀ file : List Char, ∀ t ∈ tokens file,
        (t.type = .TOKEN_PLUS → t.text = "+") ∧ (t.type = .TOKEN_MINUS → t.text = "-")) ∧
      (compile "int x; x = 3 - 1 - 1;".toList).bind (fun l => .ok (l.map Instr.line)) =
        .ok ["LOADI 3", "PUSH", "LOADI 1", "POP", "SUB", "PUSH", "LOADI 1", "POP", "SUB",
          "STORE 0"] := by
  refine ⟨?_, tokens_operator_text, by decide⟩
  have hb : Builds .term (f0 ++ chainTokens items) (leftNested first items) :=
    .term h0 (Builds.chain items first hitems)
  obtain ⟨fuel, s1, hok, hp1⟩ := hb.produces s rest hp hrest
  refine ⟨fuel, s1, fun more hle => ?_, hp1⟩
  rw [(parseExpression_fuel_mono fuel).2.2.1 more s hle (by rw [hok]; simp), hok]

theorem parseTerm_left_nested_witness :
    (PState.next ⟨"3 - x - 1;".toList, ⟨.TOKEN_EOF, ""⟩⟩).pendingTokens =
        [⟨.TOKEN_NUMBER, "3"⟩] ++
          chainTokens [⟨⟨.TOKEN_MINUS, "-"⟩, [⟨.TOKEN_IDENTIFIER, "x"⟩],
              .node .NODE_VAR .NULL .NULL "x"⟩,
            ⟨⟨.TOKEN_MINUS, "-"⟩, [⟨.TOKEN_NUMBER, "1"⟩], .node .NODE_NUM .NULL .NULL "1"⟩] ++
          [⟨.TOKEN_SEMICOLON, ";"⟩] ∧
      ∃ fuel s1, (∀ more, fuel ≤ more →
          parseTerm more (PState.next ⟨"3 - x - 1;".toList, ⟨.TOKEN_EOF, ""⟩⟩) =
            .ok (.node .NODE_BIN_OP
              (.node .NODE_BIN_OP (.node .NODE_NUM .NULL .NULL "3")
                (.node .NODE_VAR .NULL .NULL "x") "-")
              (.node .NODE_NUM .NULL .NULL "1") "-", s1)) ∧
        s1.pendingTokens = [⟨.TOKEN_SEMICOLON, ";"⟩] :=
  ⟨by decide,
    (parseTerm_left_nested [⟨.TOKEN_NUMBER, "3"⟩] (.node .NODE_NUM .NULL .NULL "3")
      [⟨⟨.TOKEN_MINUS, "-"⟩, [⟨.TOKEN_IDENTIFIER, "x"⟩], .node .NODE_VAR .NULL .NULL "x"⟩,
        ⟨⟨.TOKEN_MINUS, "-"⟩, [⟨.TOKEN_NUMBER, "1"⟩], .node .NODE_NUM .NULL .NULL "1"⟩]
      (PState.next ⟨"3 - x - 1;".toList, ⟨.TOKEN_EOF, ""⟩⟩) [⟨.TOKEN_SEMICOLON, ";"⟩]
      (.factorNumber ⟨.TOKEN_NUMBER, "3"⟩ rfl)
      (by
        intro it hit
        simp only [List.mem_cons, List.mem_singleton, List.not_mem_nil, or_false] at hit
        rcases hit with rfl | rfl
        · exact ⟨Or.inr rfl, .factorIdentifier ⟨.TOKEN_IDENTIFIER, "x"⟩ rfl⟩
        · exact ⟨Or.inr rfl, .factorNumber ⟨.TOKEN_NUMBER, "1"⟩ rfl⟩)
      (by decide)
      (by
        intro t ht
        simp only [List.head?_cons, Option.some.injEq] at ht
        subst ht
        exact ⟨by decide, by decide⟩)).1⟩

/-! ## The children of an `if` node (C16) -/

/-- C16, at the program `if (x) { y = 1; } z = 2;`: alone, the `if` statement is parsed
into a node whose right child is the tree of `y = 1;`; followed by `z = 2;`, the `if`
node of the tree `parseProgram` returns has the tree of `z = 2;` as right child, and the
tree of the statement between the braces is no longer part of the tree. -/
theorem parseProgram_if_body_replaced :
    parseProgram "if (x) { y = 1; }".toList =
        .ok (.node .NODE_IF (.node .NODE_VAR .NULL .NULL "x")
          (.node .NODE_ASSIGN (.node .NODE_NUM .NULL .NULL "1") .NULL "y") "") ∧
      parseProgram "if (x) { y = 1; } z = 2;".toList =
        .ok (.node .NODE_IF (.node .NODE_VAR .NULL .NULL "x")
          (.node .NODE_ASSIGN (.node .NODE_NUM .NULL .NULL "2") .NULL "z") "") ∧
      ASTNode.node .NODE_ASSIGN (.node .NODE_NUM .NULL .NULL "2") .NULL "z" ≠
        .node .NODE_ASSIGN (.node .NODE_NUM .NULL .NULL "1") .NULL "y" := by
  decide

/-! ## Well-formed trees and the outcome of code generation -/

theorem mem_of_append_left {α : Type} {a b : List α} {P : α → Prop}
    (h : ∀ t ∈ a ++ b, P t) : ∀ t ∈ a, P t :=
  fun t ht => h t (List.mem_append_left _ ht)

theorem mem_of_append_right {α : Type} {a b : List α} {P : α → Prop}
    (h : ∀ t ∈ a ++ b, P t) : ∀ t ∈ b, P t :=
  fun t ht => h t (List.mem_append_right _ ht)

/-- The trees of the grammar over tokens whose operators carry the texts "+" and "-"
are expression trees and program trees. -/
theorem Builds.wellFormed {p : Phrase} {ts : List Token} {n : ASTNode} (h : Builds p ts n) :
    (∀ t ∈ ts, (t.type = .TOKEN_PLUS → t.text = "+") ∧ (t.type = .TOKEN_MINUS → t.text = "-")) →
    match p with
    | .termTail acc => isExpression acc = true → isExpression n = true
    | .statement => isProgram n = true
    | _ => isExpression n = true := by
  induction h with
  | factorNumber t ht => intro _; rfl
  | factorIdentifier t ht => intro _; rfl
  | @factorParen lp rp e n hl hr _ ihe =>
    intro hop
    exact ihe (fun t ht => hop t (by simp [ht]))
  | termTailNil acc => intro _ hacc; exact hacc
  | @termTailCons acc op f r right n hop _ _ ihf ihr =>
    intro htx hacc
    have hf := ihf (fun t ht => htx t (by simp [ht]))
    have hr := ihr (fun t ht => htx t (by simp [ht]))
    apply hr
    have htext : op.text = "+" ∨ op.text = "-" := by
      have := htx op (by simp)
      rcases hop with h | h
      · exact Or.inl (this.1 h)
      · exact Or.inr (this.2 h)
    simp only [isExpression, Bool.and_eq_true, Bool.or_eq_true, decide_eq_true_eq]
    exact ⟨⟨htext, hacc⟩, hf⟩
  | @term f r first n _ _ ihf ihr =>
    intro htx
    exact ihr (mem_of_append_right htx) (ihf (mem_of_append_left htx))
  | expression _ ih => intro htx; exact ih htx
  | varDecl kw id sc hk hi hs => intro _; rfl
  | @assign id eq sc e n hi he hs _ ihe =>
    intro htx
    have := ihe (fun t ht => htx t (by simp [ht]))
    simp only [isProgram, Bool.and_eq_true]
    exact ⟨this, trivial⟩
  | @ifStmt kw lp rp lb rb e b cond body hk hl hr hlb hrb _ _ ihe ihb =>
    intro htx
    have h1 := ihe (fun t ht => htx t (by simp [ht]))
    have h2 := ihb (fun t ht => htx t (by simp [ht]))
    simp only [isProgram, Bool.and_eq_true]
    exact ⟨h1, h2⟩

theorem isProgram_setRight (n rest : ASTNode) (hn : isProgram n = true) (hne : n ≠ .NULL)
    (hr : isProgram rest = true) : isProgram (n.setRight rest) = true := by
  cases n with
  | NULL => exact absurd rfl hne
  | node t l r v =>
    cases t <;> simp_all [isProgram, ASTNode.setRight]

theorem BuildsProgram.linked_wellFormed {ts : List Token} {stmts : List ASTNode}
    (h : BuildsProgram ts stmts) :
    (∀ t ∈ ts, (t.type = .TOKEN_PLUS → t.text = "+") ∧ (t.type = .TOKEN_MINUS → t.text = "-")) →
    isProgram (linkStatements stmts) = true := by
  induction h with
  | nil => intro _; rfl
  | @cons s p n ns hs hp ih =>
    intro htx
    have hn : isProgram n = true := hs.wellFormed (mem_of_append_left htx)
    have hrest := ih (mem_of_append_right htx)
    cases ns with
    | nil => exact hn
    | cons m rest =>
      exact isProgram_setRight n _ hn hs.statement_node.1 hrest

/-- Every tree `parseProgram` returns is a program tree. -/
theorem parseProgram_isProgram (file : List Char) (ast : ASTNode)
    (h : parseProgram file = .ok ast) : isProgram ast = true := by
  obtain ⟨stmts, hb, rfl⟩ := parseProgram_builds file ast h
  exact hb.linked_wellFormed (tokens_operator_text file)

/-- On an expression tree `generateExpression` ends as its `findOrAddSymbol` calls do:
it returns with the globals they leave, or fails with the first of them that fails. -/
theorem generateExpression_outcome (e : ASTNode) : isExpression e = true →
    ∀ st : GenState,
    (generateExpression e st).bind (fun r => .ok r.1) = runSteps (exprSteps e) st := by
  induction e with
  | NULL => intro h; simp [isExpression] at h
  | node t l r v ihl ihr =>
    intro he st
    cases t with
    | NODE_NUM => rfl
    | NODE_VAR =>
      rw [generateExpression, exprSteps, runSteps, GenStep.run]
      cases findOrAddSymbol v st <;> rfl
    | NODE_BIN_OP =>
      simp only [isExpression, Bool.and_eq_true] at he
      obtain ⟨⟨_, hl⟩, hr⟩ := he
      rw [generateExpression, exprSteps, runSteps_append, ← ihl hl st]
      cases h1 : generateExpression l st with
      | ok r1 =>
        simp only [Outcome.bind_ok]
        rw [← ihr hr r1.1]
        cases generateExpression r r1.1 <;> rfl
      | exit1 e => rfl
      | undefined => rfl
      | timeout => rfl
    | NODE_VAR_DECL => simp [isExpression] at he
    | NODE_ASSIGN => simp [isExpression] at he
    | NODE_IF => simp [isExpression] at he

/-- On a program tree `generateCode` ends as its `findOrAddSymbol` calls and label
allocations do. -/
theorem generateCode_outcome (n : ASTNode) : isProgram n = true → ∀ st : GenState,
    (generateCode n st).bind (fun r => .ok r.1) = runSteps (codeSteps n) st := by
  induction n with
  | NULL => intro _ st; rfl
  | node t l r v ihl ihr =>
    intro hp st
    cases t with
    | NODE_VAR_DECL =>
      simp only [isProgram] at hp
      rw [generateCode, codeSteps, runSteps, GenStep.run]
      cases findOrAddSymbol v st with
      | ok a =>
        simp only [Outcome.bind_ok]
        exact ihr hp a.2
      | exit1 e => rfl
      | undefined => rfl
      | timeout => rfl
    | NODE_ASSIGN =>
      simp only [isProgram, Bool.and_eq_true] at hp
      obtain ⟨hl, hr⟩ := hp
      rw [generateCode, codeSteps, List.cons_append, runSteps, GenStep.run]
      cases findOrAddSymbol v st with
      | ok a =>
        simp only [Outcome.bind_ok]
        rw [runSteps_append, ← generateExpression_outcome l hl a.2]
        cases generateExpression l a.2 with
        | ok r1 =>
          simp only [Outcome.bind_ok]
          rw [← ihr hr r1.1]
          cases generateCode r r1.1 <;> rfl
        | exit1 e => rfl
        | undefined => rfl
        | timeout => rfl
      | exit1 e => rfl
      | undefined => rfl
      | timeout => rfl
    | NODE_IF =>
      simp only [isProgram, Bool.and_eq_true] at hp
      obtain ⟨hl, hr⟩ := hp
      rw [generateCode, codeSteps, List.cons_append, List.cons_append, runSteps, GenStep.run]
      cases drawLabel st with
      | ok a =>
        simp only [Outcome.bind_ok]
        rw [List.append_assoc, runSteps_append, ← generateExpression_outcome l hl a.2]
        cases generateExpression l a.2 with
        | ok r1 =>
          simp only [Outcome.bind_ok]
          rw [runSteps_append, ← ihr hr r1.1]
          cases generateCode r r1.1 with
          | ok r2 =>
            simp only [Outcome.bind_ok]
            rw [← ihr hr r2.1]
            cases generateCode r r2.1 <;> rfl
          | exit1 e => rfl
          | undefined => rfl
          | timeout => rfl
        | exit1 e => rfl
        | undefined => rfl
        | timeout => rfl
      | exit1 e => rfl
      | undefined => rfl
      | timeout => rfl
    | NODE_BIN_OP => simp [isProgram] at hp
    | NODE_NUM => simp [isProgram] at hp
    | NODE_VAR => simp [isProgram] at hp

/-- How one operation on the globals can end: it returns and the counter has gone up
by at most one, or `findOrAddSymbol` stops with the overflow diagnostic, or the counter
stood at `INT_MAX`. -/
theorem GenStep.run_cases (x : GenStep) (st : GenState) :
    (∃ st1, x.run st = .ok st1 ∧ st1.nextAddress ≤ st.nextAddress + 1) ∨
      x.run st = .exit1 "Symbol table overflow\n" ∨
      (x.run st = .undefined ∧ INT_MAX ≤ st.nextAddress) := by
  cases x with
  | resolve name =>
    simp only [GenStep.run, findOrAddSymbol]
    cases scanTable name st.symbolTable st.symbolCount with
    | some a => left; exact ⟨st, rfl, Nat.le_succ _⟩
    | none =>
      dsimp only
      split_ifs with h1 h2
      · right; left; rfl
      · right; right; exact ⟨rfl, h2⟩
      · left; exact ⟨_, rfl, Nat.le_refl _⟩
  | label =>
    simp only [GenStep.run, drawLabel]
    split_ifs with h1
    · right; right; exact ⟨rfl, h1⟩
    · left; exact ⟨_, rfl, Nat.le_refl _⟩

/-- How a sequence of operations on the globals can end: it returns, or it stops with
the overflow diagnostic of the symbol table, or the counter reached `INT_MAX`, which
takes at least `INT_MAX - nextAddress` operations. -/
theorem runSteps_cases (steps : List GenStep) : ∀ st : GenState,
    (∃ st1, runSteps steps st = .ok st1) ∨
      runSteps steps st = .exit1 "Symbol table overflow\n" ∨
      (runSteps steps st = .undefined ∧ INT_MAX < st.nextAddress + steps.length) := by
  induction steps with
  | nil => intro st; left; exact ⟨st, rfl⟩
  | cons x rest ih =>
    intro st
    rw [runSteps]
    rcases x.run_cases st with ⟨st1, h1, hn⟩ | h1 | ⟨h1, hn⟩
    · rw [h1, Outcome.bind_ok]
      rcases ih st1 with h2 | h2 | ⟨h2, hm⟩
      · left; exact h2
      · right; left; exact h2
      · right; right
        refine ⟨h2, ?_⟩
        simp only [List.length_cons]
        omega
    · right; left; rw [h1]; rfl
    · right; right
      refine ⟨by rw [h1]; rfl, ?_⟩
      simp only [List.length_cons]
      omega

/-- How code generation of a program tree can end. -/
theorem generateCode_cases (n : ASTNode) (hp : isProgram n = true) (st : GenState) :
    (∃ r, generateCode n st = .ok r) ∨
      generateCode n st = .exit1 "Symbol table overflow\n" ∨
      (generateCode n st = .undefined ∧ INT_MAX < st.nextAddress + (codeSteps n).length) := by
  have h := generateCode_outcome n hp st
  rcases runSteps_cases (codeSteps n) st with ⟨st1, h1⟩ | h1 | ⟨h1, hm⟩
  · rw [h1] at h
    obtain ⟨r, hr, _⟩ := Outcome.bind_eq_ok.mp h
    exact Or.inl ⟨r, hr⟩
  · rw [h1] at h
    right; left
    cases hg : generateCode n st with
    | ok r => rw [hg] at h; cases h
    | exit1 e => rw [hg] at h; injection h with h; rw [h]
    | undefined => rw [hg] at h; cases h
    | timeout => rw [hg] at h; cases h
  · rw [h1] at h
    right; right
    refine ⟨?_, hm⟩
    cases hg : generateCode n st with
    | ok r => rw [hg] at h; cases h
    | exit1 e => rw [hg] at h; cases h
    | undefined => rfl
    | timeout => rw [hg] at h; cases h

/-! ## Programs of declarations (C11) -/

theorem buildsProgram_declTokens (names : List String) :
    BuildsProgram (declTokens names)
      (names.map (fun n => ASTNode.node .NODE_VAR_DECL .NULL .NULL n)) := by
  induction names with
  | nil => exact .nil
  | cons n rest ih =>
    exact BuildsProgram.cons (s := [⟨.TOKEN_INT, "int"⟩, ⟨.TOKEN_IDENTIFIER, n⟩,
      ⟨.TOKEN_SEMICOLON, ";"⟩])
      (.varDecl ⟨.TOKEN_INT, "int"⟩ ⟨.TOKEN_IDENTIFIER, n⟩ ⟨.TOKEN_SEMICOLON, ";"⟩ rfl rfl rfl) ih

theorem linkStatements_declarations (names : List String) :
    linkStatements (names.map (fun n => ASTNode.node .NODE_VAR_DECL .NULL .NULL n)) =
      declProgram names := by
  induction names with
  | nil => rfl
  | cons n rest ih =>
    cases rest with
    | nil => rfl
    | cons m rest =>
      simp only [List.map_cons, linkStatements, ASTNode.setRight, declProgram] at ih ⊢
      rw [ih]

theorem codeSteps_declProgram (names : List String) :
    codeSteps (declProgram names) = names.map GenStep.resolve := by
  induction names with
  | nil => rfl
  | cons n rest ih => simp [declProgram, codeSteps, ih]

/-- Every name a sequence of operations resolves is in the table afterwards. -/
theorem runSteps_resolved_lookup (steps : List GenStep) : ∀ (st st1 : GenState), st.WF →
    runSteps steps st = .ok st1 → ∀ n, GenStep.resolve n ∈ steps →
    ∃ a, st1.lookup n = some a := by
  induction steps with
  | nil => intro st st1 _ _ n hn; cases hn
  | cons x rest ih =>
    intro st st1 hw h n hn
    obtain ⟨st2, h2, h⟩ := Outcome.bind_eq_ok.mp h
    obtain ⟨hw2, _⟩ := x.run_entries st st2 hw h2
    rcases List.mem_cons.mp hn with hn | hn
    · subst hn
      obtain ⟨r, hr, h2⟩ := Outcome.bind_eq_ok.mp h2
      injection h2 with h2
      subst h2
      obtain ⟨hw3, hl, _⟩ := findOrAddSymbol_entries n st r.2 r.1 hw hr
      obtain ⟨_, l, he⟩ := runSteps_entries rest r.2 st1 hw3 h
      exact ⟨r.1, GenState.lookup_append r.2 st1 l n r.1 he hl⟩
    · exact ih st2 st1 hw2 h n hn

/-- C11: a program whose tokens are those of declarations `int n1; int n2; ...` is
parsed into the chain of the declaration nodes; when at most 100 of the names are
distinct, compiling it writes no line at all and afterwards every declared name is in
the symbol table; and a declaration of a name that is already in the table writes no
line and leaves the table, `symbolCount` and `nextAddress` as they were. -/
theorem compile_declarations (file : List Char) (names : List String)
    (h : tokens file = declTokens names) :
    parseProgram file = .ok (declProgram names) ∧
      (names.toFinset.card ≤ 100 →
        compile file = .ok [] ∧
        ∃ st, generateCode (declProgram names) GenState.init = .ok (st, []) ∧
          ∀ n ∈ names, ∃ a, st.lookup n = some a) ∧
      (∀ (st : GenState) (name : String) (a : Nat), st.lookup name = some a →
        findOrAddSymbol name st = .ok (a, st) ∧
        generateCode (.node .NODE_VAR_DECL .NULL .NULL name) st = .ok (st, [])) := by
  have hparse : parseProgram file = .ok (declProgram names) := by
    rw [← linkStatements_declarations]
    exact parseProgram_produces file _ (h ▸ buildsProgram_declTokens names)
  refine ⟨hparse, ?_, ?_⟩
  · intro hc
    have hinit : GenState.init.entries = [] := rfl
    obtain ⟨st, hst⟩ := (generateCode_declProgram names GenState.init GenState.init_WF
      (by rw [hinit]; exact List.nodup_nil) rfl).1 (by rw [hinit]; simpa using hc)
    refine ⟨?_, st, hst, ?_⟩
    · unfold compile
      rw [hparse, Outcome.bind_ok]
      unfold generateAssembly
      rw [hst, Outcome.bind_ok]
    · intro n hn
      have hsteps := generateCode_steps _ _ _ _ hst
      rw [codeSteps_declProgram] at hsteps
      exact runSteps_resolved_lookup _ _ _ GenState.init_WF hsteps n
        (List.mem_map.mpr ⟨n, hn, rfl⟩)
  · intro st name a hl
    have hf := findOrAddSymbol_known name st a hl
    refine ⟨hf, ?_⟩
    rw [generateCode, hf, Outcome.bind_ok, generateCode]

theorem compile_declarations_witness :
    tokens "int a; int b2;\nint a;".toList = declTokens ["a", "b2", "a"] ∧
      parseProgram "int a; int b2;\nint a;".toList = .ok (declProgram ["a", "b2", "a"]) ∧
      compile "int a; int b2;\nint a;".toList = .ok [] :=
  ⟨by decide,
    (compile_declarations "int a; int b2;\nint a;".toList ["a", "b2", "a"] (by decide)).1,
    ((compile_declarations "int a; int b2;\nint a;".toList ["a", "b2", "a"]
      (by decide)).2.1 (by decide)).1⟩

/-! ## Programs without `if` (C19) -/

theorem identifierTexts_append (a b : List Token) :
    identifierTexts (a ++ b) = identifierTexts a ++ identifierTexts b := by
  induction a with
  | nil => rfl
  | cons t rest ih =>
    simp only [List.cons_append, identifierTexts]
    split_ifs <;> simp [ih]

/-- The `findOrAddSymbol` calls for the tree of a phrase without `if` are those for
its identifier tokens, in the order of the tokens. -/
theorem Builds.resolves {p : Phrase} {ts : List Token} {n : ASTNode} (h : Builds p ts n) :
    match p with
    | .termTail acc =>
      exprSteps n = exprSteps acc ++ (identifierTexts ts).map GenStep.resolve
    | .statement => (∀ t ∈ ts, t.type ≠ .TOKEN_IF) →
      codeSteps n = (identifierTexts ts).map GenStep.resolve ∧
        ∀ r, codeSteps (n.setRight r) = (identifierTexts ts).map GenStep.resolve ++ codeSteps r
    | _ => exprSteps n = (identifierTexts ts).map GenStep.resolve := by
  induction h with
  | factorNumber t ht => simp [exprSteps, identifierTexts, ht]
  | factorIdentifier t ht => simp [exprSteps, identifierTexts, ht]
  | @factorParen lp rp e n hl hr _ ihe =>
    simp only at ihe ⊢
    rw [ihe]
    simp [identifierTexts, identifierTexts_append, hl, hr]
  | termTailNil acc => simp [identifierTexts]
  | @termTailCons acc op f r right n hop _ _ ihf ihr =>
    simp only at ihf ihr ⊢
    have hop1 : op.type ≠ .TOKEN_IDENTIFIER := by
      rcases hop with h | h <;> rw [h] <;> exact fun h => TokenType.noConfusion h
    rw [ihr, exprSteps, ihf]
    simp [identifierTexts, identifierTexts_append, hop1]
  | @term f r first n _ _ ihf ihr =>
    simp only at ihf ihr ⊢
    rw [ihr, ihf, identifierTexts_append, List.map_append]
  | expression _ ih => exact ih
  | varDecl kw id sc hk hi hs =>
    intro _
    simp [codeSteps, identifierTexts, hk, hi, hs, ASTNode.setRight]
  | @assign id eq sc e n hi he hs _ ihe =>
    intro _
    simp only at ihe
    simp [codeSteps, identifierTexts, identifierTexts_append, hi, he, hs, ASTNode.setRight, ihe]
  | @ifStmt kw lp rp lb rb e b cond body hk hl hr hlb hrb _ _ ihe ihb =>
    intro hno
    exact absurd hk (hno kw (by simp))

theorem BuildsProgram.linked_resolves {ts : List Token} {stmts : List ASTNode}
    (h : BuildsProgram ts stmts) : (∀ t ∈ ts, t.type ≠ .TOKEN_IF) →
    codeSteps (linkStatements stmts) = (identifierTexts ts).map GenStep.resolve := by
  induction h with
  | nil => intro _; rfl
  | @cons s p n ns hs hp ih =>
    intro hno
    have hn := hs.resolves (mem_of_append_left hno)
    have hrest := ih (mem_of_append_right hno)
    cases ns with
    | nil =>
      cases hp
      rw [List.append_nil]
      exact hn.1
    | cons m rest =>
      rw [linkStatements, hn.2, hrest, identifierTexts_append, List.map_append]

theorem firstResolved_map_resolve (names : List String) : ∀ known : List String,
    firstResolved known (names.map GenStep.resolve) = distinctNames known names := by
  induction names with
  | nil => intro _; rfl
  | cons n rest ih =>
    intro known
    simp only [List.map_cons, firstResolved, distinctNames, ih]

theorem labelsBefore_map_resolve (v : String) (names : List String) :
    labelsBefore v (names.map GenStep.resolve) = 0 := by
  induction names with
  | nil => rfl
  | cons n rest ih =>
    simp only [List.map_cons, labelsBefore, ih, ite_self]

/-- A sequence of `findOrAddSymbol` calls returns when the table has room for the new
names among them and the counter stays below `INT_MAX`. -/
theorem runSteps_resolve_ok (names : List String) : ∀ st : GenState, st.WF →
    st.nextAddress + (distinctNames (st.entries.map Symbol.name) names).length ≤ INT_MAX →
    st.symbolCount + (distinctNames (st.entries.map Symbol.name) names).length ≤ 100 →
    ∃ st1, runSteps (names.map GenStep.resolve) st = .ok st1 := by
  induction names with
  | nil => intro st _ _ _; exact ⟨st, rfl⟩
  | cons n rest ih =>
    intro st hw h1 h2
    rw [List.map_cons, runSteps, GenStep.run]
    cases hl : st.lookup n with
    | some a =>
      have hm := st.mem_names_of_lookup n a hl
      rw [distinctNames, if_pos hm] at h1 h2
      rw [findOrAddSymbol_known n st a hl]
      exact ih st hw h1 h2
    | none =>
      have hm := st.not_mem_names_of_lookup n hl
      rw [distinctNames, if_neg hm, List.length_cons] at h1 h2
      obtain ⟨st3, h3, hw3, he3, hn3, hc3⟩ :=
        findOrAddSymbol_new n st hw hl (by omega) (by omega)
      rw [h3]
      apply ih st3 hw3
      · rw [he3, hn3, List.map_append]
        simp only [List.map_cons, List.map_nil]
        omega
      · rw [he3, hc3, List.map_append]
        simp only [List.map_cons, List.map_nil]
        omega

/-- C19: for an accepted program without an `if` token whose identifiers are at most
100 distinct names, code generation returns; the symbol table then holds the distinct
names in the order of their first appearance in the source, the i-th of them (from 0)
with address i, and a lookup of it gives i; and the operand of every LOAD and STORE
line is the address the table holds for the name of the line. For
`int a; int b; a = b + 1;` this gives a = 0, b = 1 and the lines LOAD 1, PUSH, LOADI 1,
POP, ADD, STORE 0. -/
theorem compile_if_free_addresses (file : List Char) (ast : ASTNode)
    (hp : parseProgram file = .ok ast)
    (hif : ∀ t ∈ tokens file, t.type ≠ .TOKEN_IF)
    (hn : (distinctNames [] (identifierTexts (tokens file))).length ≤ 100) :
    (∃ st out, generateCode ast GenState.init = .ok (st, out) ∧
      st.entries = (distinctNames [] (identifierTexts (tokens file))).mapIdx
        (fun i v => ⟨v, i⟩) ∧
      (∀ (i : Nat) (hi : i < (distinctNames [] (identifierTexts (tokens file))).length),
        st.lookup ((distinctNames [] (identifierTexts (tokens file)))[i]) = some i) ∧
      (operands out).map some = (codeNames ast).map st.lookup) ∧
    ((parseProgram "int a; int b; a = b + 1;".toList).bind
        (fun ast => (generateCode ast GenState.init).bind
          (fun r => .ok (r.1.lookup "a", r.1.lookup "b", r.2.map Instr.line)))) =
      .ok (some 0, some 1, ["LOAD 1", "PUSH", "LOADI 1", "POP", "ADD", "STORE 0"]) := by
  refine ⟨?_, by decide⟩
  obtain ⟨stmts, hb, hast⟩ := parseProgram_builds file ast hp
  have hprog := parseProgram_isProgram file ast hp
  have hcs : codeSteps ast = (identifierTexts (tokens file)).map GenStep.resolve := by
    rw [hast]; exact hb.linked_resolves hif
  have hinit : GenState.init.entries = [] := rfl
  obtain ⟨st1, hrun⟩ := runSteps_resolve_ok (identifierTexts (tokens file)) GenState.init
    GenState.init_WF
    (by
      rw [hinit]
      have h0 : GenState.init.nextAddress = 0 := rfl
      have hmax : 100 ≤ INT_MAX := by decide
      simp only [List.map_nil]
      omega)
    (by
      rw [hinit]
      have h0 : GenState.init.symbolCount = 0 := rfl
      simp only [List.map_nil]
      omega)
  have hout := generateCode_outcome ast hprog GenState.init
  rw [hcs, hrun] at hout
  obtain ⟨r, hr, hr1⟩ := Outcome.bind_eq_ok.mp hout
  injection hr1 with hr1
  have hgen : generateCode ast GenState.init = .ok (st1, r.2) := by rw [hr, ← hr1]
  have he := runSteps_new_entries _ _ _ GenState.init_WF hrun
  have hnext : GenState.init.nextAddress = 0 := rfl
  rw [hinit, hnext] at he
  simp only [List.map_nil, List.nil_append, Nat.zero_add, firstResolved_map_resolve,
    labelsBefore_map_resolve, Nat.add_zero] at he
  have hnd : (distinctNames [] (identifierTexts (tokens file))).Nodup := by
    rw [← firstResolved_map_resolve]
    exact firstResolved_nodup _ _
  refine ⟨st1, r.2, hgen, he, ?_, ?_⟩
  · intro i hi
    rw [GenState.lookup_eq_find, he, find_mapIdx_nodup _ (fun j _ => j) hnd i hi]
    rfl
  · exact generateCode_operands ast _ _ _ GenState.init_WF hgen st1 [] (by simp)

theorem compile_if_free_addresses_witness :
    parseProgram "int a; b = a - c;".toList =
        .ok (.node .NODE_VAR_DECL .NULL (.node .NODE_ASSIGN (.node .NODE_BIN_OP
          (.node .NODE_VAR .NULL .NULL "a") (.node .NODE_VAR .NULL .NULL "c") "-")
          .NULL "b") "a") ∧
      (∀ t ∈ tokens "int a; b = a - c;".toList, t.type ≠ .TOKEN_IF) ∧
      (distinctNames [] (identifierTexts (tokens "int a; b = a - c;".toList))).length ≤ 100 ∧
      ∃ st out, generateCode (.node .NODE_VAR_DECL .NULL (.node .NODE_ASSIGN (.node .NODE_BIN_OP
          (.node .NODE_VAR .NULL .NULL "a") (.node .NODE_VAR .NULL .NULL "c") "-")
          .NULL "b") "a") GenState.init = .ok (st, out) ∧
        st.entries = (distinctNames [] (identifierTexts
          (tokens "int a; b = a - c;".toList))).mapIdx (fun i v => ⟨v, i⟩) :=
  ⟨by decide, by decide, by decide,
    match (compile_if_free_addresses "int a; b = a - c;".toList
      (.node .NODE_VAR_DECL .NULL (.node .NODE_ASSIGN (.node .NODE_BIN_OP
          (.node .NODE_VAR .NULL .NULL "a") (.node .NODE_VAR .NULL .NULL "c") "-")
          .NULL "b") "a") (by decide) (by decide) (by decide)).1 with
    | ⟨st, out, h1, h2, _⟩ => ⟨st, out, h1, h2⟩⟩

/-! ## Code generation of parsed programs (C18) -/

/-- Every binary-operation node of the tree of a phrase carries the text "+" or "-". -/
theorem Builds.operators {p : Phrase} {ts : List Token} {n : ASTNode} (h : Builds p ts n) :
    (∀ t ∈ ts, (t.type = .TOKEN_PLUS → t.text = "+") ∧ (t.type = .TOKEN_MINUS → t.text = "-")) →
    match p with
    | .termTail acc => (∀ op ∈ binOpTexts acc, op = "+" ∨ op = "-") →
      ∀ op ∈ binOpTexts n, op = "+" ∨ op = "-"
    | _ => ∀ op ∈ binOpTexts n, op = "+" ∨ op = "-" := by
  induction h with
  | factorNumber t ht => intro _ op hop; simp [binOpTexts] at hop
  | factorIdentifier t ht => intro _ op hop; simp [binOpTexts] at hop
  | @factorParen lp rp e n hl hr _ ihe =>
    intro htx
    exact ihe (fun t ht => htx t (by simp [ht]))
  | termTailNil acc => intro _ hacc; exact hacc
  | @termTailCons acc op f r right n hop _ _ ihf ihr =>
    intro htx hacc
    have hf := ihf (fun t ht => htx t (by simp [ht]))
    apply ihr (fun t ht => htx t (by simp [ht]))
    have htext : op.text = "+" ∨ op.text = "-" := by
      have := htx op (by simp)
      rcases hop with h | h
      · exact Or.inl (this.1 h)
      · exact Or.inr (this.2 h)
    intro o ho
    simp only [binOpTexts, if_true, List.mem_append, List.mem_singleton] at ho
    rcases ho with (ho | ho) | ho
    · rw [ho]; exact htext
    · exact hacc o ho
    · exact hf o ho
  | @term f r first n _ _ ihf ihr =>
    intro htx
    exact ihr (mem_of_append_right htx) (ihf (mem_of_append_left htx))
  | expression _ ih => intro htx; exact ih htx
  | varDecl kw id sc hk hi hs => intro _ op hop; simp [binOpTexts] at hop
  | @assign id eq sc e n hi he hs _ ihe =>
    intro htx o ho
    have := ihe (fun t ht => htx t (by simp [ht]))
    simp [binOpTexts] at ho
    exact this o ho
  | @ifStmt kw lp rp lb rb e b cond body hk hl hr hlb hrb _ _ ihe ihb =>
    intro htx o ho
    have h1 := ihe (fun t ht => htx t (by simp [ht]))
    have h2 := ihb (fun t ht => htx t (by simp [ht]))
    simp [binOpTexts] at ho
    rcases ho with ho | ho
    · exact h1 o ho
    · exact h2 o ho

theorem binOpTexts_setRight (n r : ASTNode) (op : String)
    (h : op ∈ binOpTexts (n.setRight r)) : op ∈ binOpTexts n ∨ op ∈ binOpTexts r := by
  cases n with
  | NULL => simp [ASTNode.setRight, binOpTexts] at h
  | node t l r0 v =>
    simp only [ASTNode.setRight, binOpTexts, List.mem_append] at h ⊢
    rcases h with (h | h) | h
    · exact Or.inl (Or.inl (Or.inl h))
    · exact Or.inl (Or.inl (Or.inr h))
    · exact Or.inr h

theorem BuildsProgram.linked_operators {ts : List Token} {stmts : List ASTNode}
    (h : BuildsProgram ts stmts) :
    (∀ t ∈ ts, (t.type = .TOKEN_PLUS → t.text = "+") ∧ (t.type = .TOKEN_MINUS → t.text = "-")) →
    ∀ op ∈ binOpTexts (linkStatements stmts), op = "+" ∨ op = "-" := by
  induction h with
  | nil => intro _ op hop; simp [linkStatements, binOpTexts] at hop
  | @cons s p n ns hs hp ih =>
    intro htx
    have hn := hs.operators (mem_of_append_left htx)
    have hrest := ih (mem_of_append_right htx)
    cases ns with
    | nil => exact hn
    | cons m rest =>
      intro op hop
      rw [linkStatements] at hop
      rcases binOpTexts_setRight _ _ _ hop with h1 | h1
      · exact hn op h1
      · exact hrest op h1

theorem builds_nestedIf (d : Nat) : Builds .statement (nestedTokens d) (nestedIf d) := by
  induction d with
  | zero =>
    exact Builds.assign ⟨.TOKEN_IDENTIFIER, "x"⟩ ⟨.TOKEN_ASSIGN, "="⟩ ⟨.TOKEN_SEMICOLON, ";"⟩
      rfl rfl rfl
      (Builds.expression (Builds.term (f := [⟨.TOKEN_NUMBER, "0"⟩]) (r := [])
        (Builds.factorNumber ⟨.TOKEN_NUMBER, "0"⟩ rfl) (Builds.termTailNil _)))
  | succ d ih =>
    exact Builds.ifStmt ⟨.TOKEN_IF, "if"⟩ ⟨.TOKEN_LPAREN, "("⟩ ⟨.TOKEN_RPAREN, ")"⟩
      ⟨.TOKEN_LBRACE, "\x7b"⟩ ⟨.TOKEN_RBRACE, "\x7d"⟩ rfl rfl rfl rfl rfl
      (Builds.expression (Builds.term (f := [⟨.TOKEN_IDENTIFIER, "x"⟩]) (r := [])
        (Builds.factorIdentifier ⟨.TOKEN_IDENTIFIER, "x"⟩ rfl) (Builds.termTailNil _))) ih

theorem isProgram_nestedIf (d : Nat) : isProgram (nestedIf d) = true := by
  induction d with
  | zero => rfl
  | succ d ih => simp [nestedIf, isProgram, isExpression, ih]

theorem codeSteps_nestedIf_zero : codeSteps (nestedIf 0) = [.resolve "x"] := rfl

theorem codeSteps_nestedIf_succ (d : Nat) :
    codeSteps (nestedIf (d + 1)) =
      .label :: .resolve "x" :: (codeSteps (nestedIf d) ++ codeSteps (nestedIf d)) := by
  simp [nestedIf, codeSteps, exprSteps]

theorem GenStep.run_label (st : GenState) (h : st.nextAddress < INT_MAX) :
    GenStep.label.run st = .ok { st with nextAddress := st.nextAddress + 1 } := by
  simp only [GenStep.run, drawLabel]
  rw [if_neg (by omega)]
  rfl

theorem GenStep.run_label_undefined (st : GenState) (h : INT_MAX ≤ st.nextAddress) :
    GenStep.label.run st = .undefined := by
  simp only [GenStep.run, drawLabel]
  rw [if_pos (by omega)]
  rfl

theorem GenStep.run_resolve_known (name : String) (st : GenState) (a : Nat)
    (h : st.lookup name = some a) : (GenStep.resolve name).run st = .ok st := by
  simp only [GenStep.run]
  rw [findOrAddSymbol_known name st a h]
  rfl

/-- The operations for `d` nested `if(x)` around `x=0;`, with `x` in the table: the
counter goes up by `2^d - 1`, one for every label, when that does not take it beyond
`INT_MAX`. -/
theorem runSteps_nestedIf_ok (d : Nat) : ∀ (st : GenState) (a : Nat),
    st.lookup "x" = some a → st.nextAddress + (2 ^ d - 1) ≤ INT_MAX →
    runSteps (codeSteps (nestedIf d)) st =
      .ok { st with nextAddress := st.nextAddress + (2 ^ d - 1) } := by
  induction d with
  | zero =>
    intro st a hl _
    rw [codeSteps_nestedIf_zero, runSteps, GenStep.run_resolve_known "x" st a hl]
    rfl
  | succ d ih =>
    intro st a hl hle
    have hp : 2 ^ (d + 1) = 2 * 2 ^ d := by rw [Nat.pow_succ, Nat.mul_comm]
    have hpos : 0 < 2 ^ d := Nat.two_pow_pos d
    have hl1 : GenState.lookup { st with nextAddress := st.nextAddress + 1 } "x" = some a := hl
    have hl2 : GenState.lookup
        { st with nextAddress := st.nextAddress + 1 + (2 ^ d - 1) } "x" = some a := hl
    have e1 := ih { st with nextAddress := st.nextAddress + 1 } a hl1 (by simp only; omega)
    have e2 := ih { st with nextAddress := st.nextAddress + 1 + (2 ^ d - 1) } a hl2
      (by simp only; omega)
    rw [codeSteps_nestedIf_succ, runSteps, GenStep.run_label st (by omega), Outcome.bind_ok,
      runSteps, GenStep.run_resolve_known "x" _ a hl1, Outcome.bind_ok, runSteps_append,
      e1, Outcome.bind_ok, e2]
    congr 2
    show st.nextAddress + 1 + (2 ^ d - 1) + (2 ^ d - 1) = st.nextAddress + (2 ^ (d + 1) - 1)
    omega

/-- The same operations when the labels take the counter beyond `INT_MAX`: the
increment at `INT_MAX` is undefined. -/
theorem runSteps_nestedIf_undefined (d : Nat) : ∀ (st : GenState) (a : Nat),
    st.lookup "x" = some a → st.nextAddress ≤ INT_MAX →
    INT_MAX < st.nextAddress + (2 ^ d - 1) →
    runSteps (codeSteps (nestedIf d)) st = .undefined := by
  induction d with
  | zero =>
    intro st a _ h1 h2
    simp only [pow_zero, Nat.sub_self, Nat.add_zero] at h2
    omega
  | succ d ih =>
    intro st a hl h1 h2
    have hp : 2 ^ (d + 1) = 2 * 2 ^ d := by rw [Nat.pow_succ, Nat.mul_comm]
    have hpos : 0 < 2 ^ d := Nat.two_pow_pos d
    rw [codeSteps_nestedIf_succ, runSteps]
    by_cases hmax : st.nextAddress < INT_MAX
    · have hl1 : GenState.lookup { st with nextAddress := st.nextAddress + 1 } "x" = some a :=
        hl
      have hl2 : GenState.lookup
          { st with nextAddress := st.nextAddress + 1 + (2 ^ d - 1) } "x" = some a := hl
      rw [GenStep.run_label st hmax, Outcome.bind_ok, runSteps,
        GenStep.run_resolve_known "x" _ a hl1, Outcome.bind_ok, runSteps_append]
      by_cases hfirst : st.nextAddress + 1 + (2 ^ d - 1) ≤ INT_MAX
      · rw [runSteps_nestedIf_ok d { st with nextAddress := st.nextAddress + 1 } a hl1 hfirst,
          Outcome.bind_ok]
        exact ih { st with nextAddress := st.nextAddress + 1 + (2 ^ d - 1) } a hl2
          (by simp only; omega) (by simp only; omega)
      · rw [ih { st with nextAddress := st.nextAddress + 1 } a hl1 (by simp only; omega)
          (by simp only; omega)]
        rfl
    · rw [GenStep.run_label_undefined st (by omega)]
      rfl

set_option maxRecDepth 100000 in
theorem tokens_nestedSource : tokens (nestedSource 31) = nestedTokens 31 := by decide

theorem count_label_nestedIf (d : Nat) :
    (codeSteps (nestedIf d)).count GenStep.label = 2 ^ d - 1 := by
  induction d with
  | zero => rfl
  | succ d ih =>
    have hp : 2 ^ (d + 1) = 2 * 2 ^ d := by rw [Nat.pow_succ, Nat.mul_comm]
    have hpos : 0 < 2 ^ d := Nat.two_pow_pos d
    rw [codeSteps_nestedIf_succ, List.count_cons_self, List.count_cons_of_ne (by decide),
      List.count_append, ih]
    omega

/-- C18: at the program of 31 nested `if(x)` around `x=0;` code generation of the tree
`parseProgram` returns fails, and not by symbol-table overflow: the table holds the one
name `x`. `generateCode` generates the `right` child of an `if` node twice, as body
and again as next statement, so the 31 nested statements take 2^31 - 1 labels, not 31,
from the shared `int` counter; with the entry of `x` that brings it to `INT_MAX`, where
`nextAddress++` is undefined. -/
theorem generateCode_nested_if_counter :
    parseProgram (nestedSource 31) = .ok (nestedIf 31) ∧
      generateCode (nestedIf 31) GenState.init = .undefined ∧
      generateCode (nestedIf 31) GenState.init ≠ .exit1 "Symbol table overflow\n" ∧
      (codeSteps (nestedIf 31)).count GenStep.label = INT_MAX ∧
      (codeSteps (nestedIf 31)).count GenStep.label ≠ 31 := by
  have htokens := tokens_nestedSource
  have hparse : parseProgram (nestedSource 31) = .ok (nestedIf 31) := by
    have hb : BuildsProgram (tokens (nestedSource 31)) [nestedIf 31] := by
      rw [htokens, ← List.append_nil (nestedTokens 31)]
      exact BuildsProgram.cons (builds_nestedIf 31) BuildsProgram.nil
    exact parseProgram_produces _ _ hb
  have hstart : runSteps [.label, .resolve "x"] GenState.init =
      .ok ⟨GenState.init.symbolTable.set 0 ⟨"x", 1⟩, 1, 2⟩ := by decide
  have hl : GenState.lookup ⟨GenState.init.symbolTable.set 0 ⟨"x", 1⟩, 1, 2⟩ "x" = some 1 := by
    decide
  have hrun : runSteps (codeSteps (nestedIf 31)) GenState.init = .undefined := by
    rw [codeSteps_nestedIf_succ]
    have happ : GenStep.label :: .resolve "x" ::
        (codeSteps (nestedIf 30) ++ codeSteps (nestedIf 30)) =
        [.label, .resolve "x"] ++ (codeSteps (nestedIf 30) ++ codeSteps (nestedIf 30)) := rfl
    rw [happ, runSteps_append, hstart, Outcome.bind_ok, runSteps_append,
      runSteps_nestedIf_ok 30 _ 1 hl (by decide), Outcome.bind_ok]
    exact runSteps_nestedIf_undefined 30 _ 1 hl (by decide) (by decide)
  have hgen : generateCode (nestedIf 31) GenState.init = .undefined := by
    have h := generateCode_outcome (nestedIf 31) (isProgram_nestedIf 31) GenState.init
    rw [hrun] at h
    cases hg : generateCode (nestedIf 31) GenState.init with
    | ok r => rw [hg] at h; cases h
    | exit1 e => rw [hg] at h; cases h
    | undefined => rfl
    | timeout => rw [hg] at h; cases h
  have hcount : (codeSteps (nestedIf 31)).count GenStep.label = INT_MAX := by
    rw [count_label_nestedIf]
    decide
  exact ⟨hparse, hgen, by rw [hgen]; exact fun h => Outcome.noConfusion h, hcount,
    by rw [hcount]; decide⟩

/-- The trees of the parser in code generation: every tree `parseProgram` returns is a
program tree: statement nodes
linked through `right`, the `left` child of every assignment and `if` a non-empty
expression tree of literals, variable references and binary operations; every
binary-operation node of it carries the text "+" or "-", for which exactly one of ADD
and SUB is written. Code generation of it therefore never takes an "Unexpected node
type" branch and never reads an empty expression child: it ends as its sequence of
`findOrAddSymbol` calls and label allocations ends, that is, it returns, or it stops
with "Symbol table overflow", or the shared `int` counter is incremented at `INT_MAX`,
which is undefined and takes more than `INT_MAX - nextAddress` such operations. -/
theorem generateCode_parsed_program (file : List Char) (ast : ASTNode) (st : GenState)
    (hp : parseProgram file = .ok ast) :
    isProgram ast = true ∧
      (∀ op ∈ binOpTexts ast, (op = "+" ∨ op = "-") ∧
        (opLines op = [.ADD] ∨ opLines op = [.SUB])) ∧
      (generateCode ast st).bind (fun r => .ok r.1) = runSteps (codeSteps ast) st ∧
      ((∃ r, generateCode ast st = .ok r) ∨
        generateCode ast st = .exit1 "Symbol table overflow\n" ∨
        (generateCode ast st = .undefined ∧
          INT_MAX < st.nextAddress + (codeSteps ast).length)) := by
  have hprog := parseProgram_isProgram file ast hp
  obtain ⟨stmts, hb, hast⟩ := parseProgram_builds file ast hp
  refine ⟨hprog, ?_, generateCode_outcome ast hprog st, generateCode_cases ast hprog st⟩
  intro op hop
  rw [hast] at hop
  have htext := hb.linked_operators (tokens_operator_text file) op hop
  exact ⟨htext, opLines_of_operator op htext⟩

theorem generateCode_parsed_program_witness :
    parseProgram "y = a + 1 - b;".toList =
        .ok (.node .NODE_ASSIGN (.node .NODE_BIN_OP (.node .NODE_BIN_OP
          (.node .NODE_VAR .NULL .NULL "a") (.node .NODE_NUM .NULL .NULL "1") "+")
          (.node .NODE_VAR .NULL .NULL "b") "-") .NULL "y") ∧
      isProgram (.node .NODE_ASSIGN (.node .NODE_BIN_OP (.node .NODE_BIN_OP
          (.node .NODE_VAR .NULL .NULL "a") (.node .NODE_NUM .NULL .NULL "1") "+")
          (.node .NODE_VAR .NULL .NULL "b") "-") .NULL "y") = true :=
  ⟨by decide,
    (generateCode_parsed_program "y = a + 1 - b;".toList
      (.node .NODE_ASSIGN (.node .NODE_BIN_OP (.node .NODE_BIN_OP
          (.node .NODE_VAR .NULL .NULL "a") (.node .NODE_NUM .NULL .NULL "1") "+")
          (.node .NODE_VAR .NULL .NULL "b") "-") .NULL "y") GenState.init (by decide)).1⟩

/-! ## A program of 101 names that compiles (C9) -/

set_option maxRecDepth 1000000 in
theorem droppedBodySource_names :
    (distinctNames [] (identifierTexts (tokens droppedBodySource))).length = 101 ∧
      (distinctNames [] (identifierTexts (tokens threeAssignSource))).length = 101 := by
  decide!

set_option maxRecDepth 1000000 in
theorem compile_droppedBodySource :
    compile droppedBodySource =
      .ok [.LOAD 99, .JUMPZ 98, .LOADI "2", .STORE 100, .LABEL 98, .LOADI "2", .STORE 100] := by
  decide!

set_option maxRecDepth 1000000 in
theorem table_droppedBodySource :
    (parseProgram droppedBodySource).bind (fun ast =>
        (generateCode ast GenState.init).bind (fun r =>
          .ok (r.1.symbolCount, r.1.lookup "x", r.1.lookup "y", r.1.lookup "z"))) =
      .ok (100, some 99, none, some 100) := by
  decide!

set_option maxRecDepth 1000000 in
theorem compile_threeAssignSource :
    compile threeAssignSource = .exit1 "Symbol table overflow\n" := by
  decide!

/-- C9: the program of the 98 declarations `int v0;` ... `int v97;` followed by
`if (x) { y = 1; } z = 2;` uses 101 distinct names and compiles: `parseProgram` puts
`z = 2;` in the place of the body `y = 1;` of the `if` node, so `y` never reaches
`findOrAddSymbol`, and the table ends with 100 entries, `x` and `z` among them and `y`
not. The same declarations followed by `x = 1; y = 1; z = 2;`, the same 101 names,
stop with "Symbol table overflow". -/
theorem compile_101_names_body_dropped :
    (distinctNames [] (identifierTexts (tokens droppedBodySource))).length = 101 ∧
      compile droppedBodySource =
        .ok [.LOAD 99, .JUMPZ 98, .LOADI "2", .STORE 100, .LABEL 98, .LOADI "2",
          .STORE 100] ∧
      (parseProgram droppedBodySource).bind (fun ast =>
          (generateCode ast GenState.init).bind (fun r =>
            .ok (r.1.symbolCount, r.1.lookup "x", r.1.lookup "y", r.1.lookup "z"))) =
        .ok (100, some 99, none, some 100) ∧
      (distinctNames [] (identifierTexts (tokens threeAssignSource))).length = 101 ∧
      compile threeAssignSource = .exit1 "Symbol table overflow\n" :=
  ⟨droppedBodySource_names.1, compile_droppedBodySource, table_droppedBodySource,
    droppedBodySource_names.2, compile_threeAssignSource⟩

end Project
